import Mathlib

/-!
Verification development for a CSP-based 9×9 Sudoku solver
(`sudoku_solver`: `solver.py`, `utils.py`).

The Python code is shallowly embedded: the board is a `List (List Int)`
(Python list of lists of ints), the domain dictionary is an association
list ordered by insertion (CPython dicts preserve insertion order), and
Python `set` values are `Finset`s.  Mutation becomes explicit state
passing.  The recursive search carries a fuel parameter (Python recursion
has no fuel; a separate theorem shows fuel 82 always suffices, which is
the termination claim).  A ghost trace of events (decision points, board
assignments, forward-checking failures, restores) is threaded through the
search so that claims about "every intermediate point" of a run can be
stated; the trace has no influence on any computed result.
-/

namespace Sudoku

/-- A board position `(row, col)`; the code uses pairs of ints in `[0,8]`. -/
abbrev Pos := Nat × Nat

/-- A Sudoku grid as supplied to the solver: a Python list of lists of ints. -/
abbrev Board := List (List Int)

/-- `board[i][j]` (defaulting to 0 out of range; all uses are in range on
validated boards). -/
def cell (b : Board) (i j : Nat) : Int :=
  (b.getD i []).getD j 0

/-- `board[i][j] = v` (in-place assignment, modelled functionally). -/
def setCell (b : Board) (p : Pos) (v : Int) : Board :=
  b.set p.1 ((b.getD p.1 []).set p.2 v)

/-- The board has 9 rows of length 9. -/
def Shape9 (b : Board) : Prop :=
  b.length = 9 ∧ ∀ r ∈ b, r.length = 9

/-- All 81 positions in row-major order (the iteration order of the
Python nested `for i in range(9): for j in range(9)` loops). -/
def allPositions : List Pos :=
  (List.range 9).flatMap fun i => (List.range 9).map fun j => (i, j)

/-- Two positions share a row, a column, or a 3×3 box (the test
`i == row or j == col or (i//3 == row//3 and j//3 == col//3)`). -/
def sameUnit (p q : Pos) : Prop :=
  p.1 = q.1 ∨ p.2 = q.2 ∨ (p.1 / 3 = q.1 / 3 ∧ p.2 / 3 = q.2 / 3)

instance : DecidablePred fun pq : Pos × Pos => sameUnit pq.1 pq.2 := by
  intro pq; unfold sameUnit; infer_instance

instance (p q : Pos) : Decidable (sameUnit p q) := by
  unfold sameUnit; infer_instance

/-! ### Dictionaries

Python `dict`s keyed by positions, modelled as insertion-ordered
association lists.  In the solver, domain keys are inserted once, in
row-major order, and afterwards only deleted or restored from snapshots,
so list order mirrors CPython dict iteration order. -/

/-- `d.get(p, dflt)`. -/
def dictGetD {α : Type} (d : List (Pos × α)) (p : Pos) (dflt : α) : α :=
  match d.find? fun e => e.1 = p with
  | some e => e.2
  | none => dflt

/-- `p in d`. -/
def dictContains {α : Type} (d : List (Pos × α)) (p : Pos) : Bool :=
  d.any fun e => e.1 = p

/-- `del d[p]`. -/
def dictErase {α : Type} (d : List (Pos × α)) (p : Pos) : List (Pos × α) :=
  d.filter fun e => ¬(e.1 = p)

/-- Replace the value at an existing key (no-op when the key is absent),
as in `d[p].remove(x)` style in-place value mutation.  Keys are unique in
every dictionary the solver builds; replacing the first occurrence is
therefore exact. -/
def dictUpdate {α : Type} (d : List (Pos × α)) (p : Pos) (v : α) : List (Pos × α) :=
  match d with
  | [] => []
  | e :: rest => if e.1 = p then (p, v) :: rest else e :: dictUpdate rest p v

/-- `d[p] = v` (update or append). -/
def dictSet {α : Type} (d : List (Pos × α)) (p : Pos) (v : α) : List (Pos × α) :=
  if dictContains d p then dictUpdate d p v else d ++ [(p, v)]

/-- `d.get(p, set()).discard(v)`: erase a value from the set stored at a
key, if the key is present. -/
def dictDiscard (d : List (Pos × Finset Int)) (p : Pos) (v : Int) :
    List (Pos × Finset Int) :=
  d.map fun e => if e.1 = p then (e.1, e.2.erase v) else e

/-! ### `utils.py` -/

/-- `is_valid_board`: 9 rows, each of length 9, every cell an int in
`[0, 9]`. -/
def is_valid_board (board : Board) : Bool :=
  if board.length ≠ 9 ∨ board.any fun row => row.length ≠ 9 then false
  else !(board.any fun row => row.any fun x => x < 0 ∨ x > 9)

/-- `validate_solution`: every row, column and 3×3 box contains each of
1–9 (containment test, exactly as in the code). -/
def validate_solution (board : Board) : Bool :=
  (board.all fun row => (rangeVals).all fun x => row.contains x) &&
  ((List.range 9).all fun col =>
    (rangeVals).all fun x => ((List.range 9).map fun row => cell board row col).contains x) &&
  (([0, 3, 6] : List Nat).all fun boxRow => ([0, 3, 6] : List Nat).all fun boxCol =>
    (rangeVals).all fun x =>
      ((List.range 3).flatMap fun i => (List.range 3).map fun j =>
        cell board (boxRow + i) (boxCol + j)).contains x)
where
  /-- `range(1, 10)` as a list of candidate values. -/
  rangeVals : List Int := [1, 2, 3, 4, 5, 6, 7, 8, 9]

/-! ### `solver.py`: domains -/

/-- The domain dictionary: `{(i, j) : set of candidate values}`. -/
abbrev Domains := List (Pos × Finset Int)

/-- `set(range(1, 10))`. -/
def fullDomain : Finset Int := Finset.Icc 1 9

/-- `update_domain(pos, domains)`: discard from the candidate set every
value already present (non-zero) in `pos`'s row, column, or 3×3 box.
Expressed on the single set being updated (the Python function looks up
`domains[pos]` and mutates it in place). -/
def update_domain (b : Board) (pos : Pos) (dom : Finset Int) : Finset Int :=
  let d1 := (List.range 9).foldl
    (fun acc j => if cell b pos.1 j ≠ 0 then acc.erase (cell b pos.1 j) else acc) dom
  let d2 := (List.range 9).foldl
    (fun acc i => if cell b i pos.2 ≠ 0 then acc.erase (cell b i pos.2) else acc) d1
  (List.range 3).foldl
    (fun acc di => (List.range 3).foldl
      (fun acc2 dj =>
        if cell b (3 * (pos.1 / 3) + di) (3 * (pos.2 / 3) + dj) ≠ 0 then
          acc2.erase (cell b (3 * (pos.1 / 3) + di) (3 * (pos.2 / 3) + dj))
        else acc2) acc) d2

/-- `initialize_domains`: every empty cell, in row-major order, starts at
`{1..9}` and is immediately pruned by `update_domain`. -/
def initialize_domains (b : Board) : Domains :=
  allPositions.filterMap fun p =>
    if cell b p.1 p.2 = 0 then some (p, update_domain b p fullDomain) else none

/-! ### `solver.py`: safety check and heuristics -/

/-- `is_safe(pos, value)`: placing `value` at `pos` matches no currently
filled cell in the same row, column, or box. -/
def is_safe (b : Board) (pos : Pos) (v : Int) : Bool :=
  ((List.range 9).all fun j => !(cell b pos.1 j == v)) &&
  ((List.range 9).all fun i => !(cell b i pos.2 == v)) &&
  ((List.range 3).all fun di => (List.range 3).all fun dj =>
    !(cell b (3 * (pos.1 / 3) + di) (3 * (pos.2 / 3) + dj) == v))

/-- `get_first_empty`: first empty cell in row-major order. -/
def get_first_empty (b : Board) : Option Pos :=
  allPositions.find? fun p => cell b p.1 p.2 = 0

/-- `get_mrv_variable`: the domain key with strictly fewest candidate
values, first such key in dict (insertion) order. -/
def get_mrv_variable (d : Domains) : Option Pos :=
  (d.foldl
    (fun best e =>
      match best with
      | none => some e
      | some m => if e.2.card < m.2.card then some e else some m)
    none).map fun e => e.1

/-- `get_next_variable`: MRV when enabled, else first empty cell. -/
def get_next_variable (useMrv : Bool) (b : Board) (d : Domains) : Option Pos :=
  if !useMrv then get_first_empty b else get_mrv_variable d

/-- `count_constraints(value)` inside `get_ordered_values`: how many other
empty same-unit cells still have `value` in their domain. -/
def count_constraints (b : Board) (d : Domains) (var : Pos) (v : Int) : Nat :=
  (allPositions.filter fun p =>
    decide (p ≠ var) && decide (cell b p.1 p.2 = 0) && decide (sameUnit p var) &&
    decide (v ∈ dictGetD d p ∅)).length

/-- `get_ordered_values(var)`: the candidate values of `var`, ascending
when LCV is off, otherwise stably ordered by `count_constraints`. -/
def get_ordered_values (useLcv : Bool) (b : Board) (d : Domains) (var : Pos) : List Int :=
  if !useLcv then (dictGetD d var ∅).sort (· ≤ ·)
  else List.mergeSort ((dictGetD d var ∅).sort (· ≤ ·))
    fun x y => count_constraints b d var x ≤ count_constraints b d var y

/-! ### `solver.py`: forward checking -/

/-- The traversal of `forward_check_with_conflicts`: over the positions in
row-major order, discard `value` from the domain of every empty same-unit
cell; at the first cell whose domain becomes empty, stop and return the
conflict set `{var}` (the code does `conflicts.add(var); return conflicts`). -/
def fc_go (b : Board) (var : Pos) (v : Int) :
    List Pos → Domains → Option (Finset Pos) × Domains
  | [], d => (none, d)
  | p :: rest, d =>
    if cell b p.1 p.2 = 0 ∧ sameUnit p var then
      let d' := dictDiscard d p v
      if dictContains d' p ∧ dictGetD d' p ∅ = ∅ then (some {var}, d')
      else fc_go b var v rest d'
    else fc_go b var v rest d

/-- `forward_check_with_conflicts(var, value)`; the board passed in is the
board after the assignment `board[row][col] = value`. -/
def forward_check_with_conflicts (b : Board) (d : Domains) (var : Pos) (v : Int) :
    Option (Finset Pos) × Domains :=
  fc_go b var v allPositions d

/-! ### `solver.py`: AC-3 -/

/-- `get_neighbors(var)`: every other position in the domain dictionary
sharing a unit with `var` (a Python `set`, modelled in row-major order). -/
def get_neighbors (d : Domains) (var : Pos) : List Pos :=
  allPositions.filter fun p =>
    decide (p ≠ var) && dictContains d p && decide (sameUnit p var)

/-- `get_all_edges`: all ordered pairs of domain variables that share a
row, column, or box — the initial AC-3 worklist. -/
def get_all_edges (d : Domains) : List (Pos × Pos) :=
  allPositions.flatMap fun pq =>
    if dictContains d pq then
      ((List.range 9).filterMap fun k =>
        if k ≠ pq.2 ∧ dictContains d (pq.1, k) then some (pq, (pq.1, k)) else none) ++
      ((List.range 9).filterMap fun k =>
        if k ≠ pq.1 ∧ dictContains d (k, pq.2) then some (pq, (k, pq.2)) else none) ++
      ((List.range 3).flatMap fun di => (List.range 3).filterMap fun dj =>
        let q : Pos := (3 * (pq.1 / 3) + di, 3 * (pq.2 / 3) + dj)
        if q ≠ pq ∧ dictContains d q then some (pq, q) else none)
    else []

/-- `remove_inconsistent_values(xi, xj)`: delete from `domains[xi]` every
value `x` with no `y ≠ x` in `domains[xj]`; report whether anything was
deleted. -/
def remove_inconsistent_values (d : Domains) (xi xj : Pos) : Bool × Domains :=
  let xiDom := dictGetD d xi ∅
  let xjDom := dictGetD d xj ∅
  let newDom := xiDom.filter fun x => ∃ y ∈ xjDom, y ≠ x
  (decide (newDom ≠ xiDom), dictUpdate d xi newDom)

/-- Total number of candidate values across the dictionary (termination
measure for the AC-3 worklist loop). -/
def totalSize (d : Domains) : Nat :=
  (d.map fun e => e.2.card).sum

theorem dictGetD_cons {α : Type} (e : Pos × α) (rest : List (Pos × α)) (p : Pos) (dflt : α) :
    dictGetD (e :: rest) p dflt = if e.1 = p then e.2 else dictGetD rest p dflt := by
  by_cases h : e.1 = p <;> simp [dictGetD, List.find?, h]

theorem totalSize_dictUpdate_lt (d : Domains) (p : Pos) (v : Finset Int)
    (h : v.card < (dictGetD d p ∅).card) :
    totalSize (dictUpdate d p v) < totalSize d := by
  induction d with
  | nil => simp [dictGetD] at h
  | cons e rest ih =>
    rw [dictGetD_cons] at h
    by_cases he : e.1 = p
    · rw [if_pos he] at h
      simp only [dictUpdate, if_pos he, totalSize, List.map_cons, List.sum_cons]
      omega
    · rw [if_neg he] at h
      simp only [dictUpdate, if_neg he, totalSize, List.map_cons, List.sum_cons]
      have := ih h
      simp only [totalSize] at this
      omega

theorem totalSize_dictUpdate_le (d : Domains) (p : Pos) (v : Finset Int)
    (h : v.card ≤ (dictGetD d p ∅).card) :
    totalSize (dictUpdate d p v) ≤ totalSize d := by
  induction d with
  | nil => simp [dictUpdate]
  | cons e rest ih =>
    rw [dictGetD_cons] at h
    by_cases he : e.1 = p
    · rw [if_pos he] at h
      simp only [dictUpdate, if_pos he, totalSize, List.map_cons, List.sum_cons]
      omega
    · rw [if_neg he] at h
      simp only [dictUpdate, if_neg he, totalSize, List.map_cons, List.sum_cons]
      have := ih h
      simp only [totalSize] at this
      omega

theorem remove_inconsistent_values_lt (d : Domains) (xi xj : Pos)
    (h : (remove_inconsistent_values d xi xj).1 = true) :
    totalSize (remove_inconsistent_values d xi xj).2 < totalSize d := by
  simp only [remove_inconsistent_values, decide_eq_true_eq] at h ⊢
  refine totalSize_dictUpdate_lt d xi _ ?_
  exact Finset.card_lt_card
    (Finset.ssubset_iff_subset_ne.2 ⟨Finset.filter_subset _ _, h⟩)

theorem remove_inconsistent_values_le (d : Domains) (xi xj : Pos) :
    totalSize (remove_inconsistent_values d xi xj).2 ≤ totalSize d := by
  simp only [remove_inconsistent_values]
  exact totalSize_dictUpdate_le d xi _
    (Finset.card_le_card (Finset.filter_subset _ _))

theorem length_allPositions : allPositions.length = 81 := by decide

/-- `ac3_with_conflicts`'s worklist loop (`while queue:`).  Terminates
because every iteration either removes at least one candidate value or
shortens the queue; re-enqueued arcs number at most 81. -/
def ac3_loop (d : Domains) (queue : List (Pos × Pos)) :
    Option (Finset Pos) × Domains :=
  match queue with
  | [] => (none, d)
  | (xi, xj) :: rest =>
    let rc := remove_inconsistent_values d xi xj
    if hrc : rc.1 then
      if dictGetD rc.2 xi ∅ = ∅ then (some {xi, xj}, rc.2)
      else
        ac3_loop rc.2
          (rest ++ ((get_neighbors rc.2 xi).filter fun xk => ¬(xk = xj)).map fun xk => (xk, xi))
    else ac3_loop rc.2 rest
termination_by 82 * totalSize d + queue.length
decreasing_by
  · have hlt := remove_inconsistent_values_lt d xi xj hrc
    have hlen : ∀ D : Domains,
        (((get_neighbors D xi).filter fun xk => ¬(xk = xj)).map fun xk => (xk, xi)).length ≤ 81 := by
      intro D
      rw [List.length_map]
      calc ((get_neighbors D xi).filter fun xk => ¬(xk = xj)).length
          ≤ (get_neighbors D xi).length := List.length_filter_le _ _
        _ ≤ allPositions.length := List.length_filter_le _ _
        _ = 81 := length_allPositions
    have h1 := hlen (remove_inconsistent_values d xi xj).2
    have h2 := hlen rc.2
    simp only [List.length_append, List.length_cons]
    omega
  · have hle : totalSize rc.2 ≤ totalSize d := remove_inconsistent_values_le d xi xj
    have hle2 := remove_inconsistent_values_le d xi xj
    simp only [List.length_cons]
    omega

/-- `ac3_with_conflicts()`: run the worklist loop on a queue seeded with
all edges. -/
def ac3_with_conflicts (d : Domains) : Option (Finset Pos) × Domains :=
  ac3_loop d (get_all_edges d)

/-! ### `solver.py`: solver state and search -/

/-- The four technique flags of `SudokuSolver.__init__`. -/
structure Config where
  use_mrv : Bool
  use_forward_checking : Bool
  use_ac3 : Bool
  use_lcv : Bool

/-- The mutable state of a `SudokuSolver` instance. -/
structure SState where
  board : Board
  domains : Domains
  conflict_sets : List (Pos × Finset Pos)
  assignment_order : List Pos

/-- Ghost trace events, recording each intermediate point of a run:
entry into `backtrack_with_conflicts` (a decision point, with the current
board and domains), each grid assignment, each failed forward check
(with the returned conflict set and the domains before pruning), and each
`restore_state`.  Purely observational — no event influences the search. -/
inductive TEvent where
  | decision (b : Board) (d : Domains)
  | assign (var : Pos) (v : Int) (b : Board)
  | fcFail (var : Pos) (v : Int) (conflicts : Finset Pos) (dBefore : Domains)
  | restore (b : Board)
deriving DecidableEq

/-- `restore_state(var, old_domains, old_conflicts)`. -/
def restore_state (s : SState) (var : Pos) (oldD : Domains)
    (oldC : List (Pos × Finset Pos)) : SState :=
  { board := setCell s.board var 0
    domains := oldD
    conflict_sets := oldC
    assignment_order := s.assignment_order.dropLast }

/-- Result of one `backtrack_with_conflicts` call: success flag, conflict
set, final state, and the ghost trace (`none` = out of fuel; fuel 82
always suffices, see `backtrack_total`). -/
abbrev BResult := Option (Bool × Finset Pos × SState × List TEvent)

mutual

/-- `backtrack_with_conflicts`: pick the next variable (solved when none
remains), then try its ordered candidate values. -/
def backtrack (cfg : Config) : Nat → SState → BResult
  | 0, _ => none
  | fuel + 1, s =>
    match get_next_variable cfg.use_mrv s.board s.domains with
    | none => some (true, ∅, s, [TEvent.decision s.board s.domains])
    | some var =>
      try_values cfg fuel var (get_ordered_values cfg.use_lcv s.board s.domains var) s ∅
        [TEvent.decision s.board s.domains]
termination_by fuel _ => (fuel, 0)
decreasing_by apply Prod.Lex.left; omega

/-- The `for value in self.get_ordered_values(var)` loop.  `cc` is
`current_conflicts`; when the list is exhausted the accumulated conflicts
are recorded in `conflict_sets[var]` and failure is returned. -/
def try_values (cfg : Config) (fuel : Nat) (var : Pos) :
    List Int → SState → Finset Pos → List TEvent → BResult
  | [], s, cc, tr =>
    some (false, cc, { s with conflict_sets := dictSet s.conflict_sets var cc }, tr)
  | v :: rest, s, cc, tr =>
    if is_safe s.board var v then
      let s1 : SState :=
        { board := setCell s.board var v
          domains := dictErase s.domains var
          conflict_sets := s.conflict_sets
          assignment_order := s.assignment_order ++ [var] }
      let tr1 := tr ++ [TEvent.assign var v s1.board]
      if cfg.use_forward_checking then
        match forward_check_with_conflicts s1.board s1.domains var v with
        | (some fcc, d') =>
          let sR := restore_state { s1 with domains := d' } var s.domains s.conflict_sets
          try_values cfg fuel var rest sR (cc ∪ fcc.erase var)
            (tr1 ++ [TEvent.fcFail var v fcc s1.domains, TEvent.restore sR.board])
        | (none, d') =>
          after_fc cfg fuel var v rest { s1 with domains := d' } s cc tr1
      else
        after_fc cfg fuel var v rest s1 s cc tr1
    else
      try_values cfg fuel var rest s cc tr
termination_by vals _ _ _ => (fuel, 3 * vals.length + 3)
decreasing_by
  all_goals first
    | (apply Prod.Lex.right; (try simp only [List.length_cons]); omega)
    | (apply Prod.Lex.left; omega)

/-- The AC-3 stage of the loop body (reached when forward checking is off
or reported no conflict); `sPre` is the state snapshotted before the
assignment. -/
def after_fc (cfg : Config) (fuel : Nat) (var : Pos) (v : Int) (rest : List Int)
    (s2 : SState) (sPre : SState) (cc : Finset Pos) (tr : List TEvent) : BResult :=
  if cfg.use_ac3 then
    match ac3_with_conflicts s2.domains with
    | (some acc, d'') =>
      let sR := restore_state { s2 with domains := d'' } var sPre.domains sPre.conflict_sets
      try_values cfg fuel var rest sR (cc ∪ acc.erase var) (tr ++ [TEvent.restore sR.board])
    | (none, d'') =>
      do_recurse cfg fuel var rest { s2 with domains := d'' } sPre cc tr
  else
    do_recurse cfg fuel var rest s2 sPre cc tr
termination_by (fuel, 3 * rest.length + 5)
decreasing_by
  all_goals first
    | (apply Prod.Lex.right; (try simp only [List.length_cons]); omega)
    | (apply Prod.Lex.left; omega)

/-- The recursive call of the loop body: propagate success immediately;
on failure merge the returned conflicts, restore, and continue. -/
def do_recurse (cfg : Config) (fuel : Nat) (var : Pos) (rest : List Int)
    (s3 : SState) (sPre : SState) (cc : Finset Pos) (tr : List TEvent) : BResult :=
  match backtrack cfg fuel s3 with
  | none => none
  | some (true, _, s4, tr4) => some (true, ∅, s4, tr ++ tr4)
  | some (false, ncc, s4, tr4) =>
    let sR := restore_state s4 var sPre.domains sPre.conflict_sets
    try_values cfg fuel var rest sR (cc ∪ ncc.erase var)
      (tr ++ tr4 ++ [TEvent.restore sR.board])
termination_by (fuel, 3 * rest.length + 4)
decreasing_by
  all_goals first
    | (apply Prod.Lex.right; (try simp only [List.length_cons]); omega)
    | (apply Prod.Lex.left; omega)

end

/-- `SudokuSolver.__init__` after validation: board kept as supplied,
domains initialized, conflict sets and assignment order empty. -/
def mkState (b : Board) : SState :=
  { board := b
    domains := initialize_domains b
    conflict_sets := []
    assignment_order := [] }

/-- Construction of a `SudokuSolver`: raises (`Except.error`) when
`is_valid_board` rejects the grid, so no engine state exists on failure. -/
def constructSolver (b : Board) : Except String SState :=
  if !is_valid_board b then Except.error "Invalid Sudoku board"
  else Except.ok (mkState b)

/-- `solve()`: optional global AC-3 pass (an immediate conflict is
unsolvable), then the backtracking search. -/
def solve (cfg : Config) (fuel : Nat) (s : SState) :
    Option (Bool × SState × List TEvent) :=
  if cfg.use_ac3 then
    match ac3_with_conflicts s.domains with
    | (some _, d') => some (false, { s with domains := d' }, [])
    | (none, d') =>
      (backtrack cfg fuel { s with domains := d' }).map fun r => (r.1, r.2.2.1, r.2.2.2)
  else
    (backtrack cfg fuel s).map fun r => (r.1, r.2.2.1, r.2.2.2)

/-- Success flag of a full solver run on board `b` (fuel 82). -/
def solveResult (cfg : Config) (b : Board) : Option Bool :=
  (solve cfg 82 (mkState b)).map fun r => r.1

/-- Final grid of a full solver run on board `b` (fuel 82). -/
def solveBoard (cfg : Config) (b : Board) : Board :=
  ((solve cfg 82 (mkState b)).map fun r => r.2.1.board).getD []

/-- Ghost trace of a full solver run on board `b` (fuel 82). -/
def solveTrace (cfg : Config) (b : Board) : List TEvent :=
  ((solve cfg 82 (mkState b)).map fun r => r.2.2).getD []

/-! ### Dictionary lemmas -/

/-- The key list of a dictionary. -/
def keys {α : Type} (d : List (Pos × α)) : List Pos :=
  d.map fun e => e.1

theorem dictGetD_nil {α : Type} (p : Pos) (dflt : α) :
    dictGetD ([] : List (Pos × α)) p dflt = dflt := rfl

theorem dictContains_iff {α : Type} (d : List (Pos × α)) (p : Pos) :
    dictContains d p = true ↔ p ∈ keys d := by
  simp only [dictContains, List.any_eq_true, keys, List.mem_map, decide_eq_true_eq]
  try exact ⟨fun ⟨e, he, h⟩ => ⟨e, he, h.symm⟩, fun ⟨e, he, h⟩ => ⟨e, he, h.symm⟩⟩

theorem dictContains_cons {α : Type} (e : Pos × α) (rest : List (Pos × α)) (p : Pos) :
    dictContains (e :: rest) p = (decide (e.1 = p) || dictContains rest p) := by
  simp [dictContains]

theorem dictGetD_not_contains {α : Type} (d : List (Pos × α)) (p : Pos) (dflt : α)
    (h : dictContains d p = false) : dictGetD d p dflt = dflt := by
  induction d with
  | nil => rfl
  | cons e rest ih =>
    rw [dictContains_cons] at h
    simp only [Bool.or_eq_false_iff, decide_eq_false_iff_not] at h
    rw [dictGetD_cons, if_neg h.1]
    exact ih h.2

theorem keys_dictErase {α : Type} (d : List (Pos × α)) (p : Pos) :
    keys (dictErase d p) = (keys d).filter fun q => ¬(q = p) := by
  simp only [keys, dictErase]
  induction d with
  | nil => rfl
  | cons e rest ih =>
    by_cases h : e.1 = p
    · simpa [List.filter_cons, h] using ih
    · simpa [List.filter_cons, h] using ih

theorem dictGetD_dictErase {α : Type} (d : List (Pos × α)) (p q : Pos) (dflt : α) :
    dictGetD (dictErase d p) q dflt = if q = p then dflt else dictGetD d q dflt := by
  induction d with
  | nil => simp [dictErase, dictGetD_nil]
  | cons e rest ih =>
    by_cases hep : e.1 = p
    · rw [show dictErase (e :: rest) p = dictErase rest p by simp [dictErase, hep]]
      rw [ih, dictGetD_cons]
      by_cases hqp : q = p
      · simp [hqp]
      · rw [if_neg hqp, if_neg hqp, if_neg (by rw [hep]; exact fun h => hqp h.symm)]
    · rw [show dictErase (e :: rest) p = e :: dictErase rest p by simp [dictErase, hep]]
      rw [dictGetD_cons, dictGetD_cons, ih]
      by_cases heq : e.1 = q
      · have : ¬(q = p) := fun h => hep (heq.trans h)
        simp [heq, this]
      · simp [heq]

theorem dictContains_dictErase {α : Type} (d : List (Pos × α)) (p q : Pos) :
    dictContains (dictErase d p) q = (dictContains d q && !(decide (q = p))) := by
  rw [Bool.eq_iff_iff]
  simp only [Bool.and_eq_true, Bool.not_eq_true', decide_eq_false_iff_not,
    dictContains_iff, keys_dictErase, List.mem_filter, decide_not, decide_eq_true_eq,
    Bool.not_eq_true, decide_eq_false_iff_not]

theorem keys_dictUpdate {α : Type} (d : List (Pos × α)) (p : Pos) (v : α) :
    keys (dictUpdate d p v) = keys d := by
  induction d with
  | nil => rfl
  | cons e rest ih =>
    by_cases h : e.1 = p
    · simp [dictUpdate, keys, h]
    · simp only [keys] at ih
      simp [dictUpdate, keys, h, ih]

theorem dictContains_dictUpdate {α : Type} (d : List (Pos × α)) (p q : Pos) (v : α) :
    dictContains (dictUpdate d p v) q = dictContains d q := by
  rw [Bool.eq_iff_iff, dictContains_iff, dictContains_iff, keys_dictUpdate]

theorem dictGetD_dictUpdate_same {α : Type} (d : List (Pos × α)) (p : Pos) (v : α) (dflt : α) :
    dictGetD (dictUpdate d p v) p dflt = if dictContains d p then v else dflt := by
  induction d with
  | nil => simp [dictUpdate, dictGetD_nil, dictContains]
  | cons e rest ih =>
    by_cases h : e.1 = p
    · simp [dictUpdate, h, dictGetD_cons, dictContains_cons]
    · simp [dictUpdate, h, dictGetD_cons, dictContains_cons, ih]

theorem dictGetD_dictUpdate_ne {α : Type} (d : List (Pos × α)) (p q : Pos) (v : α) (dflt : α)
    (hqp : q ≠ p) : dictGetD (dictUpdate d p v) q dflt = dictGetD d q dflt := by
  induction d with
  | nil => rfl
  | cons e rest ih =>
    by_cases h : e.1 = p
    · rw [show dictUpdate (e :: rest) p v = (p, v) :: rest by simp [dictUpdate, h]]
      rw [dictGetD_cons, dictGetD_cons]
      rw [if_neg (fun hpq => hqp hpq.symm), if_neg (h ▸ fun heq => hqp heq.symm)]
    · rw [show dictUpdate (e :: rest) p v = e :: dictUpdate rest p v by simp [dictUpdate, h]]
      rw [dictGetD_cons, dictGetD_cons, ih]

theorem keys_dictDiscard (d : Domains) (p : Pos) (v : Int) :
    keys (dictDiscard d p v) = keys d := by
  simp only [keys, dictDiscard, List.map_map]
  congr 1
  funext e
  by_cases h : e.1 = p <;> simp [h]

theorem dictContains_dictDiscard (d : Domains) (p q : Pos) (v : Int) :
    dictContains (dictDiscard d p v) q = dictContains d q := by
  rw [Bool.eq_iff_iff, dictContains_iff, dictContains_iff, keys_dictDiscard]

theorem dictGetD_dictDiscard_same (d : Domains) (p : Pos) (v : Int) :
    dictGetD (dictDiscard d p v) p ∅ = (dictGetD d p ∅).erase v := by
  induction d with
  | nil => simp [dictDiscard, dictGetD_nil]
  | cons e rest ih =>
    by_cases h : e.1 = p
    · simp only [dictDiscard, List.map_cons, if_pos h, dictGetD_cons, if_pos h]
    · simp only [dictDiscard, List.map_cons, if_neg h, dictGetD_cons, if_neg h]
      exact ih

theorem dictGetD_dictDiscard_ne (d : Domains) (p q : Pos) (v : Int) (hqp : q ≠ p) :
    dictGetD (dictDiscard d p v) q ∅ = dictGetD d q ∅ := by
  induction d with
  | nil => rfl
  | cons e rest ih =>
    by_cases h : e.1 = p
    · rw [show dictDiscard (e :: rest) p v = (e.1, e.2.erase v) :: dictDiscard rest p v by
        simp [dictDiscard, h]]
      rw [dictGetD_cons, dictGetD_cons, ih]
      rw [if_neg (h ▸ fun heq => hqp heq.symm), if_neg (h ▸ fun heq => hqp heq.symm)]
    · rw [show dictDiscard (e :: rest) p v = e :: dictDiscard rest p v by
        simp [dictDiscard, h]]
      rw [dictGetD_cons, dictGetD_cons, ih]

/-! ### Board lemmas -/

theorem is_valid_board_iff (b : Board) :
    is_valid_board b = true ↔
      b.length = 9 ∧ (∀ row ∈ b, row.length = 9) ∧
        ∀ row ∈ b, ∀ x ∈ row, 0 ≤ x ∧ x ≤ 9 := by
  unfold is_valid_board
  split
  case isTrue h =>
    simp only [Bool.false_eq_true, false_iff]
    rintro ⟨h1, h2, _⟩
    rcases h with h | h
    · exact h h1
    · simp only [List.any_eq_true, decide_eq_true_eq] at h
      obtain ⟨row, hrow, hlen⟩ := h
      exact hlen (h2 row hrow)
  case isFalse h =>
    push_neg at h
    obtain ⟨h1, h2⟩ := h
    have h2f := eq_false_of_ne_true h2
    rw [List.any_eq_false] at h2f
    simp only [decide_eq_true_eq, not_not] at h2f
    rw [Bool.not_eq_true', List.any_eq_false]
    constructor
    · intro hall
      refine ⟨h1, h2f, ?_⟩
      intro row hrow x hx
      have h5 := eq_false_of_ne_true (hall row hrow)
      rw [List.any_eq_false] at h5
      have h6 := h5 x hx
      simp only [decide_eq_true_eq, not_or, not_lt] at h6
      omega
    · rintro ⟨-, -, h3⟩ row hrow
      intro hc
      rw [List.any_eq_true] at hc
      obtain ⟨x, hx, hxc⟩ := hc
      have h6 := h3 row hrow x hx
      simp only [decide_eq_true_eq] at hxc
      rcases hxc with hlt | hgt
      · omega
      · omega

theorem shape9_of_valid (b : Board) (h : is_valid_board b = true) : Shape9 b := by
  rw [is_valid_board_iff] at h
  exact ⟨h.1, h.2.1⟩

theorem getD_set_self {α : Type} (l : List α) (i : Nat) (x d : α) (h : i < l.length) :
    (l.set i x).getD i d = x := by
  rw [List.getD_eq_getElem?_getD, List.getElem?_set_self h]
  rfl

theorem getD_set_ne {α : Type} (l : List α) (i j : Nat) (x d : α) (h : i ≠ j) :
    (l.set i x).getD j d = l.getD j d := by
  rw [List.getD_eq_getElem?_getD, List.getElem?_set_ne h, ← List.getD_eq_getElem?_getD]

theorem getD_in_range (b : Board) (i : Nat) (hi : i < b.length) :
    b.getD i [] = b[i] := by
  rw [List.getD_eq_getElem?_getD, List.getElem?_eq_getElem hi]
  rfl

theorem cell_range_of_valid (b : Board) (h : is_valid_board b = true) (i j : Nat) :
    0 ≤ cell b i j ∧ cell b i j ≤ 9 := by
  rw [is_valid_board_iff] at h
  unfold cell
  rcases Nat.lt_or_ge i b.length with hi | hi
  · rw [getD_in_range b i hi]
    have hmem : b[i] ∈ b := List.getElem_mem hi
    rcases Nat.lt_or_ge j (b[i].length) with hj | hj
    · rw [List.getD_eq_getElem?_getD, List.getElem?_eq_getElem hj, Option.getD_some]
      exact h.2.2 _ hmem _ (List.getElem_mem hj)
    · rw [List.getD_eq_getElem?_getD, List.getElem?_eq_none (by omega), Option.getD_none]
      norm_num
  · have hrow : b.getD i [] = [] := by
      rw [List.getD_eq_getElem?_getD, List.getElem?_eq_none (by omega)]
      rfl
    rw [hrow]
    simp only [List.getD_nil]
    norm_num

theorem shape9_setCell (b : Board) (p : Pos) (v : Int) (h : Shape9 b) :
    Shape9 (setCell b p v) := by
  obtain ⟨h1, h2⟩ := h
  rcases Nat.lt_or_ge p.1 b.length with hi | hi
  · refine ⟨by simp [setCell, h1], ?_⟩
    intro r hr
    simp only [setCell] at hr
    rcases List.mem_or_eq_of_mem_set hr with hmem | heq
    · exact h2 r hmem
    · subst heq
      rw [List.length_set, getD_in_range b p.1 hi]
      exact h2 _ (List.getElem_mem hi)
  · unfold setCell
    rw [List.set_eq_of_length_le (by omega)]
    exact ⟨h1, h2⟩

theorem cell_setCell_self (b : Board) (p : Pos) (v : Int) (h : Shape9 b)
    (h1 : p.1 < 9) (h2 : p.2 < 9) :
    cell (setCell b p v) p.1 p.2 = v := by
  obtain ⟨hlen, hrows⟩ := h
  have hi : p.1 < b.length := by omega
  unfold cell setCell
  rw [getD_set_self _ _ _ _ hi]
  have hrowlen : (b.getD p.1 []).length = 9 := by
    rw [getD_in_range b p.1 hi]
    exact hrows _ (List.getElem_mem hi)
  rw [getD_set_self _ _ _ _ (by omega)]

theorem cell_setCell_ne (b : Board) (p : Pos) (v : Int) (i j : Nat)
    (hne : (i, j) ≠ p) : cell (setCell b p v) i j = cell b i j := by
  obtain ⟨pi, pj⟩ := p
  unfold cell setCell
  by_cases hi : i = pi
  · subst hi
    have hj : j ≠ pj := by
      intro hj
      exact hne (by rw [hj])
    rcases Nat.lt_or_ge i b.length with hlt | hge
    · rw [getD_set_self _ _ _ _ hlt, getD_set_ne _ _ _ _ _ (fun hh => hj hh.symm)]
    · rw [List.set_eq_of_length_le (by omega)]
  · rw [getD_set_ne _ _ _ _ _ (fun hh => hi hh.symm)]

theorem cell_eq_getElem (b : Board) (i j : Nat) (hi : i < b.length)
    (hj : j < (b[i]).length) : cell b i j = (b[i])[j] := by
  unfold cell
  rw [getD_in_range b i hi, List.getD_eq_getElem?_getD, List.getElem?_eq_getElem hj]
  rfl

theorem boardEq_of_cells (b b' : Board) (hb : Shape9 b) (hb' : Shape9 b')
    (h : ∀ i j, i < 9 → j < 9 → cell b i j = cell b' i j) : b = b' := by
  obtain ⟨hl, hr⟩ := hb
  obtain ⟨hl', hr'⟩ := hb'
  apply List.ext_getElem (by omega)
  intro i hi1 hi2
  have hrowmem : b[i] ∈ b := List.getElem_mem hi1
  have hrowmem' : b'[i] ∈ b' := List.getElem_mem hi2
  apply List.ext_getElem (by rw [hr _ hrowmem, hr' _ hrowmem'])
  intro j hj1 hj2
  have hi9 : i < 9 := by omega
  have hj9 : j < 9 := by
    have := hr _ hrowmem
    omega
  have hc := h i j hi9 hj9
  rw [cell_eq_getElem b i j hi1 hj1, cell_eq_getElem b' i j hi2 hj2] at hc
  exact hc

theorem setCell_cancel (b : Board) (p : Pos) (v : Int) (h : Shape9 b)
    (h1 : p.1 < 9) (h2 : p.2 < 9) (h0 : cell b p.1 p.2 = 0) :
    setCell (setCell b p v) p 0 = b := by
  have hs1 : Shape9 (setCell b p v) := shape9_setCell b p v h
  have hs2 : Shape9 (setCell (setCell b p v) p 0) := shape9_setCell _ p 0 hs1
  apply boardEq_of_cells _ _ hs2 h
  intro i j hi hj
  by_cases hp : (i, j) = p
  · have hi1 : i = p.1 := by rw [← hp]
    have hj1 : j = p.2 := by rw [← hp]
    subst hi1; subst hj1
    rw [cell_setCell_self _ _ _ hs1 h1 h2, h0]
  · rw [cell_setCell_ne _ _ _ _ _ hp, cell_setCell_ne _ _ _ _ _ hp]

theorem mem_allPositions (p : Pos) : p ∈ allPositions ↔ p.1 < 9 ∧ p.2 < 9 := by
  simp only [allPositions, List.mem_flatMap, List.mem_map, List.mem_range]
  constructor
  · rintro ⟨i, hi, j, hj, rfl⟩
    exact ⟨hi, hj⟩
  · rintro ⟨h1, h2⟩
    exact ⟨p.1, h1, p.2, h2, rfl⟩

theorem nodup_allPositions : allPositions.Nodup := by decide

/-! ### Unit decomposition: the three scanning loops cover exactly the
in-range same-unit positions -/

theorem forall_unit_iff (pos : Pos) (hp1 : pos.1 < 9) (hp2 : pos.2 < 9)
    (P : Nat → Nat → Prop) :
    ((∀ j < 9, P pos.1 j) ∧ (∀ i < 9, P i pos.2) ∧
      (∀ di < 3, ∀ dj < 3, P (3 * (pos.1 / 3) + di) (3 * (pos.2 / 3) + dj))) ↔
    (∀ q : Pos, q.1 < 9 → q.2 < 9 → sameUnit q pos → P q.1 q.2) := by
  constructor
  · rintro ⟨hr, hc, hb⟩ ⟨i, j⟩ hi hj hu
    rcases hu with h | h | ⟨hb1, hb2⟩
    · exact h ▸ hr j hj
    · exact h ▸ hc i hi
    · have hx := hb (i % 3) (by omega) (j % 3) (by omega)
      simp only at hb1 hb2
      have hi' : 3 * (pos.1 / 3) + i % 3 = i := by omega
      have hj' : 3 * (pos.2 / 3) + j % 3 = j := by omega
      rw [hi', hj'] at hx
      exact hx
  · intro h
    refine ⟨fun j hj => h (pos.1, j) hp1 hj (Or.inl rfl),
            fun i hi => h (i, pos.2) hi hp2 (Or.inr (Or.inl rfl)),
            fun di hdi dj hdj => h (3 * (pos.1 / 3) + di, 3 * (pos.2 / 3) + dj)
              (by omega) (by omega) (Or.inr (Or.inr ⟨by simp only; omega, by simp only; omega⟩))⟩

/-! ### `update_domain` and `initialize_domains` characterizations -/

theorem mem_foldl_of_step {β : Type} (g : Finset Int → β → Finset Int)
    (Q : β → Int → Prop) (hg : ∀ acc x v, v ∈ g acc x ↔ v ∈ acc ∧ Q x v)
    (l : List β) (d : Finset Int) (v : Int) :
    v ∈ l.foldl g d ↔ v ∈ d ∧ ∀ x ∈ l, Q x v := by
  induction l generalizing d with
  | nil => simp
  | cons a l ih =>
    rw [List.foldl_cons, ih, hg]
    constructor
    · rintro ⟨⟨hd, hq⟩, hall⟩
      exact ⟨hd, fun x hx => by
        rcases List.mem_cons.1 hx with h | h
        · exact h ▸ hq
        · exact hall x h⟩
    · rintro ⟨hd, hall⟩
      exact ⟨⟨hd, hall a (List.mem_cons_self a l)⟩, fun x hx => hall x (List.mem_cons_of_mem a hx)⟩

theorem mem_erase_step (f : β → Int) (P : β → Prop) [DecidablePred P]
    (acc : Finset Int) (x : β) (v : Int) :
    v ∈ (if P x then acc.erase (f x) else acc) ↔ v ∈ acc ∧ (P x → f x ≠ v) := by
  by_cases h : P x
  · rw [if_pos h, Finset.mem_erase]
    constructor
    · rintro ⟨hne, hm⟩; exact ⟨hm, fun _ => fun he => hne (he.symm)⟩
    · rintro ⟨hm, hne⟩; exact ⟨fun he => hne h he.symm, hm⟩
  · rw [if_neg h]
    exact ⟨fun hm => ⟨hm, fun hp => absurd hp h⟩, fun hm => hm.1⟩

theorem mem_update_domain (b : Board) (pos : Pos) (dom : Finset Int) (v : Int)
    (hp1 : pos.1 < 9) (hp2 : pos.2 < 9) :
    v ∈ update_domain b pos dom ↔ v ∈ dom ∧
      ∀ q : Pos, q.1 < 9 → q.2 < 9 → sameUnit q pos →
        cell b q.1 q.2 ≠ 0 → cell b q.1 q.2 ≠ v := by
  unfold update_domain
  dsimp only
  rw [mem_foldl_of_step
      (fun acc di => List.foldl
        (fun acc2 dj =>
          if cell b (3 * (pos.1 / 3) + di) (3 * (pos.2 / 3) + dj) ≠ 0 then
            acc2.erase (cell b (3 * (pos.1 / 3) + di) (3 * (pos.2 / 3) + dj))
          else acc2) acc (List.range 3))
      (fun di w => ∀ dj ∈ List.range 3,
        cell b (3 * (pos.1 / 3) + di) (3 * (pos.2 / 3) + dj) ≠ 0 →
        cell b (3 * (pos.1 / 3) + di) (3 * (pos.2 / 3) + dj) ≠ w)
      (fun acc di w => mem_foldl_of_step
        (fun acc2 dj =>
          if cell b (3 * (pos.1 / 3) + di) (3 * (pos.2 / 3) + dj) ≠ 0 then
            acc2.erase (cell b (3 * (pos.1 / 3) + di) (3 * (pos.2 / 3) + dj))
          else acc2)
        (fun dj w' => cell b (3 * (pos.1 / 3) + di) (3 * (pos.2 / 3) + dj) ≠ 0 →
          cell b (3 * (pos.1 / 3) + di) (3 * (pos.2 / 3) + dj) ≠ w')
        (fun acc2 dj w' => mem_erase_step
          (fun dj => cell b (3 * (pos.1 / 3) + di) (3 * (pos.2 / 3) + dj))
          (fun dj => cell b (3 * (pos.1 / 3) + di) (3 * (pos.2 / 3) + dj) ≠ 0)
          acc2 dj w')
        (List.range 3) acc w)]
  rw [mem_foldl_of_step
        (fun acc i => if cell b i pos.2 ≠ 0 then acc.erase (cell b i pos.2) else acc)
        (fun i w => cell b i pos.2 ≠ 0 → cell b i pos.2 ≠ w)
        (fun acc i w => mem_erase_step
          (fun i => cell b i pos.2) (fun i => cell b i pos.2 ≠ 0) acc i w)]
  rw [mem_foldl_of_step
        (fun acc j => if cell b pos.1 j ≠ 0 then acc.erase (cell b pos.1 j) else acc)
        (fun j w => cell b pos.1 j ≠ 0 → cell b pos.1 j ≠ w)
        (fun acc j w => mem_erase_step
          (fun j => cell b pos.1 j) (fun j => cell b pos.1 j ≠ 0) acc j w)]
  have hiff := forall_unit_iff pos hp1 hp2
    (fun i j => cell b i j ≠ 0 → cell b i j ≠ v)
  simp only [List.mem_range] at *
  rw [and_assoc, and_assoc]
  constructor
  · rintro ⟨hd, h1, h2, h3⟩
    exact ⟨hd, hiff.1 ⟨h1, h2, h3⟩⟩
  · rintro ⟨hd, h⟩
    have hx := hiff.2 h
    exact ⟨hd, hx.1, hx.2.1, hx.2.2⟩

/-- The pruning map at a single position (lemma infrastructure, not from
the source). -/
def initDomain (b : Board) (p : Pos) : Option (Finset Int) :=
  if cell b p.1 p.2 = 0 then some (update_domain b p fullDomain) else none

theorem initialize_domains_eq (b : Board) :
    initialize_domains b = allPositions.filterMap fun q =>
      (initDomain b q).map fun s => (q, s) := by
  unfold initialize_domains
  congr 1
  funext p
  unfold initDomain
  by_cases h : cell b p.1 p.2 = 0 <;> simp [h]

theorem dictGetD_filterMap (l : List Pos) (g : Pos → Option (Finset Int)) (p : Pos) :
    dictGetD (l.filterMap fun q => (g q).map fun s => (q, s)) p ∅ =
      if p ∈ l then (g p).getD ∅ else ∅ := by
  induction l with
  | nil => rfl
  | cons a l ih =>
    rw [List.filterMap_cons]
    rcases hga : g a with _ | s
    · show dictGetD (l.filterMap fun q => (g q).map fun s => (q, s)) p ∅ = _
      rw [ih]
      by_cases hpa : p = a
      · subst hpa
        rw [hga]
        by_cases hpl : p ∈ l <;> simp [hpl]
      · simp [List.mem_cons, hpa]
    · show dictGetD ((a, s) :: l.filterMap fun q => (g q).map fun s => (q, s)) p ∅ = _
      rw [dictGetD_cons]
      by_cases hpa : a = p
      · show (if (a, s).1 = p then _ else _) = _
        rw [if_pos hpa]
        rw [if_pos (by rw [← hpa]; exact List.mem_cons_self a l)]
        rw [show p = a from hpa.symm, hga]
        rfl
      · show (if (a, s).1 = p then _ else _) = _
        rw [if_neg hpa, ih]
        by_cases hpl : p ∈ l
        · rw [if_pos hpl, if_pos (List.mem_cons_of_mem a hpl)]
        · rw [if_neg hpl, if_neg (by
            intro hc
            rcases List.mem_cons.1 hc with h | h
            · exact hpa h.symm
            · exact hpl h)]

theorem keys_filterMap (l : List Pos) (g : Pos → Option (Finset Int)) :
    keys (l.filterMap fun q => (g q).map fun s => (q, s)) =
      l.filter fun q => (g q).isSome := by
  induction l with
  | nil => rfl
  | cons a l ih =>
    rw [List.filterMap_cons, List.filter_cons]
    rcases hga : g a with _ | s
    · show keys (l.filterMap fun q => (g q).map fun s => (q, s)) = _
      rw [if_neg (by simp)]
      exact ih
    · show keys ((a, s) :: (l.filterMap fun q => (g q).map fun s => (q, s))) = _
      rw [if_pos (by simp)]
      show a :: keys (l.filterMap fun q => (g q).map fun s => (q, s)) = _
      rw [ih]

theorem dictGetD_init_domains (b : Board) (p : Pos) :
    dictGetD (initialize_domains b) p ∅ =
      if p.1 < 9 ∧ p.2 < 9 ∧ cell b p.1 p.2 = 0
      then update_domain b p fullDomain else ∅ := by
  rw [initialize_domains_eq, dictGetD_filterMap]
  by_cases hm : p ∈ allPositions
  · rw [if_pos hm]
    have hr := (mem_allPositions p).1 hm
    unfold initDomain
    by_cases hc : cell b p.1 p.2 = 0
    · rw [if_pos hc, if_pos ⟨hr.1, hr.2, hc⟩]
      rfl
    · rw [if_neg hc, if_neg (fun h => hc h.2.2)]
      rfl
  · rw [if_neg hm, if_neg (fun h => hm ((mem_allPositions p).2 ⟨h.1, h.2.1⟩))]

theorem dictContains_init_domains (b : Board) (p : Pos) :
    dictContains (initialize_domains b) p = true ↔
      p.1 < 9 ∧ p.2 < 9 ∧ cell b p.1 p.2 = 0 := by
  rw [dictContains_iff, initialize_domains_eq, keys_filterMap, List.mem_filter]
  unfold initDomain
  constructor
  · rintro ⟨hm, hs⟩
    have hr := (mem_allPositions p).1 hm
    refine ⟨hr.1, hr.2, ?_⟩
    by_contra hc
    rw [if_neg hc] at hs
    exact absurd hs (by simp)
  · rintro ⟨h1, h2, h3⟩
    exact ⟨(mem_allPositions p).2 ⟨h1, h2⟩, by rw [if_pos h3]; rfl⟩

theorem nodup_keys_init_domains (b : Board) :
    (keys (initialize_domains b)).Nodup := by
  rw [initialize_domains_eq, keys_filterMap]
  exact nodup_allPositions.filter _

/-! ### `is_safe` characterization -/

theorem is_safe_iff (b : Board) (pos : Pos) (v : Int)
    (hp1 : pos.1 < 9) (hp2 : pos.2 < 9) :
    is_safe b pos v = true ↔
      ∀ q : Pos, q.1 < 9 → q.2 < 9 → sameUnit q pos → cell b q.1 q.2 ≠ v := by
  unfold is_safe
  rw [← forall_unit_iff pos hp1 hp2 (fun i j => cell b i j ≠ v)]
  simp only [Bool.and_eq_true, List.all_eq_true, List.mem_range, Bool.not_eq_true',
    beq_eq_false_iff_ne, ne_eq, and_assoc]

/-! ### Forward checking lemmas -/

/-- A forward-checking peer of `var` on board `b`: an empty cell sharing a
unit (the loop's guard). -/
def fcPeer (b : Board) (var p : Pos) : Prop :=
  cell b p.1 p.2 = 0 ∧ sameUnit p var

instance (b : Board) (var p : Pos) : Decidable (fcPeer b var p) := by
  unfold fcPeer; infer_instance

theorem fc_go_keys (b : Board) (var : Pos) (v : Int) (l : List Pos) (d : Domains) :
    keys (fc_go b var v l d).2 = keys d := by
  induction l generalizing d with
  | nil => rfl
  | cons p rest ih =>
    have hunfold : fc_go b var v (p :: rest) d =
        if fcPeer b var p then
          (if dictContains (dictDiscard d p v) p ∧ dictGetD (dictDiscard d p v) p ∅ = ∅
           then (some {var}, dictDiscard d p v)
           else fc_go b var v rest (dictDiscard d p v))
        else fc_go b var v rest d := rfl
    rw [hunfold]
    by_cases hc : fcPeer b var p
    · rw [if_pos hc]
      by_cases hf : dictContains (dictDiscard d p v) p ∧ dictGetD (dictDiscard d p v) p ∅ = ∅
      · rw [if_pos hf]
        exact keys_dictDiscard d p v
      · rw [if_neg hf, ih, keys_dictDiscard]
    · rw [if_neg hc]
      exact ih d

theorem fc_go_contains (b : Board) (var : Pos) (v : Int) (l : List Pos) (d : Domains)
    (q : Pos) : dictContains (fc_go b var v l d).2 q = dictContains d q := by
  rw [Bool.eq_iff_iff, dictContains_iff, dictContains_iff, fc_go_keys]

theorem fc_go_frame (b : Board) (var : Pos) (v : Int) (l : List Pos) (d : Domains)
    (q : Pos) (hq : q ∉ l) :
    dictGetD (fc_go b var v l d).2 q ∅ = dictGetD d q ∅ := by
  induction l generalizing d with
  | nil => rfl
  | cons p rest ih =>
    have hqp : q ≠ p := fun h => hq (h ▸ List.mem_cons_self p rest)
    have hqr : q ∉ rest := fun h => hq (List.mem_cons_of_mem p h)
    have hunfold : fc_go b var v (p :: rest) d =
        if fcPeer b var p then
          (if dictContains (dictDiscard d p v) p ∧ dictGetD (dictDiscard d p v) p ∅ = ∅
           then (some {var}, dictDiscard d p v)
           else fc_go b var v rest (dictDiscard d p v))
        else fc_go b var v rest d := rfl
    rw [hunfold]
    by_cases hc : fcPeer b var p
    · rw [if_pos hc]
      by_cases hf : dictContains (dictDiscard d p v) p ∧ dictGetD (dictDiscard d p v) p ∅ = ∅
      · rw [if_pos hf]
        exact dictGetD_dictDiscard_ne d p q v hqp
      · rw [if_neg hf, ih _ hqr, dictGetD_dictDiscard_ne d p q v hqp]
    · rw [if_neg hc]
      exact ih d hqr

theorem fc_go_none (b : Board) (var : Pos) (v : Int) (l : List Pos) (d : Domains)
    (h : (fc_go b var v l d).1 = none) (q : Pos) :
    dictGetD (fc_go b var v l d).2 q ∅ =
      if q ∈ l ∧ fcPeer b var q then (dictGetD d q ∅).erase v
      else dictGetD d q ∅ := by
  induction l generalizing d with
  | nil =>
    rw [if_neg (by simp)]
    rfl
  | cons p rest ih =>
    have hunfold : fc_go b var v (p :: rest) d =
        if fcPeer b var p then
          (if dictContains (dictDiscard d p v) p ∧ dictGetD (dictDiscard d p v) p ∅ = ∅
           then (some {var}, dictDiscard d p v)
           else fc_go b var v rest (dictDiscard d p v))
        else fc_go b var v rest d := rfl
    rw [hunfold] at h ⊢
    by_cases hc : fcPeer b var p
    · rw [if_pos hc] at h ⊢
      by_cases hf : dictContains (dictDiscard d p v) p ∧ dictGetD (dictDiscard d p v) p ∅ = ∅
      · rw [if_pos hf] at h
        exact absurd h (by simp)
      · rw [if_neg hf] at h ⊢
        rw [ih _ h]
        by_cases hqp : q = p
        · subst hqp
          rw [dictGetD_dictDiscard_same]
          by_cases hqr : q ∈ rest ∧ fcPeer b var q
          · rw [if_pos hqr, if_pos ⟨List.mem_cons_self q rest, hc⟩, Finset.erase_idem]
          · rw [if_neg hqr, if_pos ⟨List.mem_cons_self q rest, hc⟩]
        · rw [dictGetD_dictDiscard_ne d p q v hqp]
          by_cases hqr : q ∈ rest ∧ fcPeer b var q
          · rw [if_pos hqr, if_pos ⟨List.mem_cons_of_mem p hqr.1, hqr.2⟩]
          · rw [if_neg hqr, if_neg (fun hcon => hqr ⟨by
              rcases List.mem_cons.1 hcon.1 with h1 | h1
              · exact absurd h1 hqp
              · exact h1, hcon.2⟩)]
    · rw [if_neg hc] at h ⊢
      rw [ih _ h]
      by_cases hqr : q ∈ rest ∧ fcPeer b var q
      · rw [if_pos hqr, if_pos ⟨List.mem_cons_of_mem p hqr.1, hqr.2⟩]
      · rw [if_neg hqr, if_neg (fun hcon => hqr ⟨by
          rcases List.mem_cons.1 hcon.1 with h1 | h1
          · subst h1
            exact absurd hcon.2 hc
          · exact h1, hcon.2⟩)]

theorem fc_go_some (b : Board) (var : Pos) (v : Int) (l : List Pos) (d : Domains)
    (hnd : l.Nodup) (cset : Finset Pos) (h : (fc_go b var v l d).1 = some cset) :
    cset = {var} ∧
    ∃ l1 q l2, l = l1 ++ q :: l2 ∧ fcPeer b var q ∧
      dictContains d q = true ∧
      (dictGetD d q ∅).erase v = ∅ ∧
      dictGetD (fc_go b var v l d).2 q ∅ = ∅ ∧
      (∀ p ∈ l1, dictGetD (fc_go b var v l d).2 p ∅ =
        if fcPeer b var p then (dictGetD d p ∅).erase v else dictGetD d p ∅) ∧
      (∀ p ∈ l2, dictGetD (fc_go b var v l d).2 p ∅ = dictGetD d p ∅) := by
  induction l generalizing d with
  | nil => exact absurd h (by simp [fc_go])
  | cons p rest ih =>
    have hpr : p ∉ rest := (List.nodup_cons.1 hnd).1
    have hndr : rest.Nodup := (List.nodup_cons.1 hnd).2
    have hunfold : fc_go b var v (p :: rest) d =
        if fcPeer b var p then
          (if dictContains (dictDiscard d p v) p ∧ dictGetD (dictDiscard d p v) p ∅ = ∅
           then (some {var}, dictDiscard d p v)
           else fc_go b var v rest (dictDiscard d p v))
        else fc_go b var v rest d := rfl
    rw [hunfold] at h ⊢
    by_cases hc : fcPeer b var p
    · rw [if_pos hc] at h ⊢
      by_cases hf : dictContains (dictDiscard d p v) p ∧ dictGetD (dictDiscard d p v) p ∅ = ∅
      · rw [if_pos hf] at h ⊢
        have hcs : cset = {var} := by
          have := h
          simp only [Option.some_inj] at this
          exact this.symm
        refine ⟨hcs, [], p, rest, rfl, hc, ?_, ?_, ?_, ?_, ?_⟩
        · rw [← dictContains_dictDiscard d p p v]
          exact hf.1
        · rw [← dictGetD_dictDiscard_same]
          exact hf.2
        · exact hf.2
        · intro p' hp'
          exact absurd hp' (List.not_mem_nil p')
        · intro p' hp'
          exact dictGetD_dictDiscard_ne d p p' v
            (fun hh => hpr (hh ▸ hp'))
      · rw [if_neg hf] at h ⊢
        obtain ⟨hcs, l1, q, l2, hsplit, hq, hqc, hqe, hqres, hl1, hl2⟩ :=
          ih (dictDiscard d p v) hndr h
        have hqrest : q ∈ rest := by
          rw [hsplit]
          exact List.mem_append_right l1 (List.mem_cons_self q l2)
        have hqp : q ≠ p := fun hh => hpr (hh ▸ hqrest)
        refine ⟨hcs, p :: l1, q, l2, by rw [hsplit]; rfl, hq, ?_, ?_, hqres, ?_, ?_⟩
        · rw [← dictContains_dictDiscard d p q v]
          exact hqc
        · rw [← dictGetD_dictDiscard_ne d p q v hqp]
          exact hqe
        · intro p' hp'
          rcases List.mem_cons.1 hp' with h1 | h1
          · subst h1
            rw [fc_go_frame b var v rest _ p' hpr, dictGetD_dictDiscard_same,
              if_pos hc]
          · have hp'p : p' ≠ p := by
              intro hh
              apply hpr
              rw [← hh]
              rw [hsplit]
              exact List.mem_append_left _ h1
            rw [hl1 p' h1, dictGetD_dictDiscard_ne d p p' v hp'p]
        · intro p' hp'
          have hp'p : p' ≠ p := by
            intro hh
            apply hpr
            rw [← hh, hsplit]
            exact List.mem_append_right l1 (List.mem_cons_of_mem q hp')
          rw [hl2 p' hp', dictGetD_dictDiscard_ne d p p' v hp'p]
    · rw [if_neg hc] at h ⊢
      obtain ⟨hcs, l1, q, l2, hsplit, hq, hqc, hqe, hqres, hl1, hl2⟩ := ih d hndr h
      refine ⟨hcs, p :: l1, q, l2, by rw [hsplit]; rfl, hq, hqc, hqe, hqres, ?_, hl2⟩
      intro p' hp'
      rcases List.mem_cons.1 hp' with h1 | h1
      · subst h1
        rw [fc_go_frame b var v rest d p' hpr, if_neg hc]
      · exact hl1 p' h1

theorem fc_go_compat (b : Board) (var : Pos) (v : Int) (l : List Pos) (d : Domains)
    (c : Nat → Nat → Int)
    (hmem : ∀ q : Pos, dictContains d q = true → c q.1 q.2 ∈ dictGetD d q ∅)
    (hne : ∀ q : Pos, dictContains d q = true → fcPeer b var q → c q.1 q.2 ≠ v) :
    (fc_go b var v l d).1 = none ∧
      ∀ q : Pos, dictContains (fc_go b var v l d).2 q = true →
        c q.1 q.2 ∈ dictGetD (fc_go b var v l d).2 q ∅ := by
  induction l generalizing d with
  | nil => exact ⟨rfl, fun q hq => hmem q hq⟩
  | cons p rest ih =>
    have hunfold : fc_go b var v (p :: rest) d =
        if fcPeer b var p then
          (if dictContains (dictDiscard d p v) p ∧ dictGetD (dictDiscard d p v) p ∅ = ∅
           then (some {var}, dictDiscard d p v)
           else fc_go b var v rest (dictDiscard d p v))
        else fc_go b var v rest d := rfl
    rw [hunfold]
    by_cases hc : fcPeer b var p
    · rw [if_pos hc]
      have hmem' : ∀ q : Pos, dictContains (dictDiscard d p v) q = true →
          c q.1 q.2 ∈ dictGetD (dictDiscard d p v) q ∅ := by
        intro q hq
        rw [dictContains_dictDiscard] at hq
        by_cases hqp : q = p
        · subst hqp
          rw [dictGetD_dictDiscard_same, Finset.mem_erase]
          exact ⟨hne q hq hc, hmem q hq⟩
        · rw [dictGetD_dictDiscard_ne d p q v hqp]
          exact hmem q hq
      have hne' : ∀ q : Pos, dictContains (dictDiscard d p v) q = true →
          fcPeer b var q → c q.1 q.2 ≠ v := by
        intro q hq
        rw [dictContains_dictDiscard] at hq
        exact hne q hq
      have hf : ¬(dictContains (dictDiscard d p v) p ∧
          dictGetD (dictDiscard d p v) p ∅ = ∅) := by
        rintro ⟨h1, h2⟩
        have := hmem' p h1
        rw [h2] at this
        exact absurd this (Finset.not_mem_empty _)
      rw [if_neg hf]
      exact ih (dictDiscard d p v) hmem' hne'
    · rw [if_neg hc]
      exact ih d hmem hne

/-! ### Variable selection and value ordering lemmas -/

theorem get_first_empty_some (b : Board) (p : Pos) (h : get_first_empty b = some p) :
    p.1 < 9 ∧ p.2 < 9 ∧ cell b p.1 p.2 = 0 := by
  unfold get_first_empty at h
  have hmem := List.mem_of_find?_eq_some h
  have hpred := List.find?_some h
  simp only [decide_eq_true_eq] at hpred
  have hr := (mem_allPositions p).1 hmem
  exact ⟨hr.1, hr.2, hpred⟩

theorem get_first_empty_none (b : Board) (h : get_first_empty b = none) :
    ∀ p : Pos, p.1 < 9 → p.2 < 9 → cell b p.1 p.2 ≠ 0 := by
  unfold get_first_empty at h
  intro p h1 h2
  have := List.find?_eq_none.1 h p ((mem_allPositions p).2 ⟨h1, h2⟩)
  simpa using this

theorem mrv_fold_some (d : List (Pos × Finset Int)) :
    ∀ acc : Option (Pos × Finset Int), ∀ e,
      d.foldl (fun best e => match best with
        | none => some e
        | some m => if e.2.card < m.2.card then some e else some m) acc = some e →
      e ∈ d ∨ acc = some e := by
  induction d with
  | nil =>
    intro acc e h
    exact Or.inr h
  | cons a d ih =>
    intro acc e h
    rw [List.foldl_cons] at h
    rcases ih _ e h with hm | hacc
    · exact Or.inl (List.mem_cons_of_mem a hm)
    · rcases acc with _ | m
      · simp only [Option.some_inj] at hacc
        exact Or.inl (hacc ▸ List.mem_cons_self a d)
      · dsimp only at hacc
        by_cases hcard : a.2.card < m.2.card
        · rw [if_pos hcard, Option.some_inj] at hacc
          exact Or.inl (hacc ▸ List.mem_cons_self a d)
        · rw [if_neg hcard] at hacc
          exact Or.inr hacc

theorem mrv_fold_ne_none (d : List (Pos × Finset Int)) :
    ∀ x : Pos × Finset Int,
      d.foldl (fun best e => match best with
        | none => some e
        | some m => if e.2.card < m.2.card then some e else some m) (some x) ≠ none := by
  induction d with
  | nil =>
    intro x h
    exact absurd h (by simp)
  | cons a d ih =>
    intro x
    rw [List.foldl_cons]
    dsimp only
    by_cases hcard : a.2.card < x.2.card
    · rw [if_pos hcard]
      exact ih a
    · rw [if_neg hcard]
      exact ih x

theorem get_mrv_variable_none (d : Domains) (h : get_mrv_variable d = none) : d = [] := by
  rcases d with _ | ⟨a, rest⟩
  · rfl
  · exfalso
    unfold get_mrv_variable at h
    rw [List.foldl_cons] at h
    dsimp only at h
    rw [Option.map_eq_none'] at h
    exact mrv_fold_ne_none rest a h

theorem get_mrv_variable_some (d : Domains) (p : Pos) (h : get_mrv_variable d = some p) :
    p ∈ keys d := by
  unfold get_mrv_variable at h
  rw [Option.map_eq_some'] at h
  obtain ⟨e, he, hep⟩ := h
  rcases mrv_fold_some d none e he with hm | hacc
  · exact hep ▸ List.mem_map_of_mem (fun x => x.1) hm
  · exact absurd hacc (by simp)

theorem get_next_variable_none (useMrv : Bool) (b : Board) (d : Domains)
    (hkeys : ∀ p : Pos, dictContains d p = true ↔
      (p.1 < 9 ∧ p.2 < 9 ∧ cell b p.1 p.2 = 0))
    (h : get_next_variable useMrv b d = none) :
    ∀ p : Pos, p.1 < 9 → p.2 < 9 → cell b p.1 p.2 ≠ 0 := by
  unfold get_next_variable at h
  rcases Bool.eq_false_or_eq_true useMrv with hm | hm
  · simp only [hm, Bool.not_true, Bool.false_eq_true, if_false] at h
    have hd := get_mrv_variable_none d h
    intro p h1 h2 hc
    have hcon := (hkeys p).2 ⟨h1, h2, hc⟩
    rw [hd] at hcon
    exact absurd hcon (by simp [dictContains])
  · simp only [hm, Bool.not_false, if_true] at h
    exact get_first_empty_none b h

theorem get_next_variable_some (useMrv : Bool) (b : Board) (d : Domains)
    (hkeys : ∀ p : Pos, dictContains d p = true ↔
      (p.1 < 9 ∧ p.2 < 9 ∧ cell b p.1 p.2 = 0))
    (var : Pos) (h : get_next_variable useMrv b d = some var) :
    var.1 < 9 ∧ var.2 < 9 ∧ cell b var.1 var.2 = 0 ∧ dictContains d var = true := by
  unfold get_next_variable at h
  rcases Bool.eq_false_or_eq_true useMrv with hm | hm
  · simp only [hm, Bool.not_true, Bool.false_eq_true, if_false] at h
    have hmem := get_mrv_variable_some d var h
    have hc : dictContains d var = true := (dictContains_iff d var).2 hmem
    have hv := (hkeys var).1 hc
    exact ⟨hv.1, hv.2.1, hv.2.2, hc⟩
  · simp only [hm, Bool.not_false, if_true] at h
    have he := get_first_empty_some b var h
    exact ⟨he.1, he.2.1, he.2.2, (hkeys var).2 he⟩

theorem mem_get_ordered_values (useLcv : Bool) (b : Board) (d : Domains) (var : Pos)
    (w : Int) :
    w ∈ get_ordered_values useLcv b d var ↔ w ∈ dictGetD d var ∅ := by
  unfold get_ordered_values
  rcases Bool.eq_false_or_eq_true useLcv with hm | hm
  · simp only [hm, Bool.not_true, Bool.false_eq_true, if_false]
    rw [(List.mergeSort_perm _ _).mem_iff]
    exact Finset.mem_sort _
  · simp only [hm, Bool.not_false, if_true]
    exact Finset.mem_sort _

theorem length_keys_dictErase_lt {α : Type} (d : List (Pos × α)) (p : Pos)
    (h : dictContains d p = true) :
    (keys (dictErase d p)).length < (keys d).length := by
  rw [keys_dictErase]
  rw [dictContains_iff] at h
  apply List.length_filter_lt_length_iff_exists.2
  exact ⟨p, h, by simp⟩

/-! ### AC-3 lemmas -/

theorem sameUnit_symm (p q : Pos) (h : sameUnit p q) : sameUnit q p := by
  rcases h with h | h | ⟨h1, h2⟩
  · exact Or.inl h.symm
  · exact Or.inr (Or.inl h.symm)
  · exact Or.inr (Or.inr ⟨h1.symm, h2.symm⟩)

theorem mem_get_neighbors (d : Domains) (var q : Pos) :
    q ∈ get_neighbors d var ↔
      q.1 < 9 ∧ q.2 < 9 ∧ q ≠ var ∧ dictContains d q = true ∧ sameUnit q var := by
  unfold get_neighbors
  rw [List.mem_filter]
  simp only [Bool.and_eq_true, decide_eq_true_eq, mem_allPositions]
  constructor
  · rintro ⟨⟨h1, h2⟩, ⟨h3, h4⟩, h5⟩
    exact ⟨h1, h2, h3, h4, h5⟩
  · rintro ⟨h1, h2, h3, h4, h5⟩
    exact ⟨⟨h1, h2⟩, ⟨h3, h4⟩, h5⟩

theorem mem_get_all_edges (d : Domains) (a : Pos × Pos) :
    a ∈ get_all_edges d ↔
      a.1.1 < 9 ∧ a.1.2 < 9 ∧ a.2.1 < 9 ∧ a.2.2 < 9 ∧ a.1 ≠ a.2 ∧ sameUnit a.1 a.2 ∧
      dictContains d a.1 = true ∧ dictContains d a.2 = true := by
  obtain ⟨p, q⟩ := a
  unfold get_all_edges
  rw [List.mem_flatMap]
  simp only
  constructor
  · rintro ⟨pq, hpq, hmem⟩
    have hr := (mem_allPositions pq).1 hpq
    by_cases hc : dictContains d pq
    · rw [if_pos hc] at hmem
      simp only [List.mem_append, List.mem_filterMap, List.mem_flatMap,
        List.mem_range] at hmem
      rcases hmem with (⟨k, hk, hsome⟩ | ⟨k, hk, hsome⟩) | ⟨di, hdi, ⟨dj, hdj, hsome⟩⟩
      · by_cases hcond : k ≠ pq.2 ∧ dictContains d (pq.1, k) = true
        · rw [if_pos hcond, Option.some_inj] at hsome
          have hp : pq = p := congrArg Prod.fst hsome
          have hq : (pq.1, k) = q := congrArg Prod.snd hsome
          subst hp
          refine ⟨hr.1, hr.2, ?_, ?_, ?_, ?_, hc, ?_⟩
          · rw [← hq]; exact hr.1
          · rw [← hq]; exact hk
          · intro hpq2
            apply hcond.1
            have : pq.2 = ((pq.1, k) : Pos).2 := by rw [hq, ← hpq2]
            exact this.symm
          · rw [← hq]; exact Or.inl rfl
          · rw [← hq] at *; exact hcond.2
        · rw [if_neg hcond] at hsome
          exact absurd hsome (by simp)
      · by_cases hcond : k ≠ pq.1 ∧ dictContains d (k, pq.2) = true
        · rw [if_pos hcond, Option.some_inj] at hsome
          have hp : pq = p := congrArg Prod.fst hsome
          have hq : (k, pq.2) = q := congrArg Prod.snd hsome
          subst hp
          refine ⟨hr.1, hr.2, ?_, ?_, ?_, ?_, hc, ?_⟩
          · rw [← hq]; exact hk
          · rw [← hq]; exact hr.2
          · intro hpq2
            apply hcond.1
            have : pq.1 = ((k, pq.2) : Pos).1 := by rw [hq, ← hpq2]
            exact this.symm
          · rw [← hq]; exact Or.inr (Or.inl rfl)
          · rw [← hq] at *; exact hcond.2
        · rw [if_neg hcond] at hsome
          exact absurd hsome (by simp)
      · by_cases hcond : ((3 * (pq.1 / 3) + di, 3 * (pq.2 / 3) + dj) : Pos) ≠ pq ∧
            dictContains d (3 * (pq.1 / 3) + di, 3 * (pq.2 / 3) + dj) = true
        · rw [if_pos hcond, Option.some_inj] at hsome
          have hp : pq = p := congrArg Prod.fst hsome
          have hq : ((3 * (pq.1 / 3) + di, 3 * (pq.2 / 3) + dj) : Pos) = q :=
            congrArg Prod.snd hsome
          subst hp
          refine ⟨hr.1, hr.2, ?_, ?_, ?_, ?_, hc, ?_⟩
          · rw [← hq]; simp only; omega
          · rw [← hq]; simp only; omega
          · intro hpq2
            exact hcond.1 (hpq2 ▸ hq)
          · refine Or.inr (Or.inr ⟨?_, ?_⟩)
            · rw [← hq]; simp only; omega
            · rw [← hq]; simp only; omega
          · rw [← hq] at *; exact hcond.2
        · rw [if_neg hcond] at hsome
          exact absurd hsome (by simp)
    · rw [if_neg hc] at hmem
      exact absurd hmem (List.not_mem_nil _)
  · rintro ⟨h1, h2, h3, h4, h5, h6, h7, h8⟩
    refine ⟨p, (mem_allPositions p).2 ⟨h1, h2⟩, ?_⟩
    rw [if_pos h7]
    simp only [List.mem_append, List.mem_filterMap, List.mem_flatMap, List.mem_range]
    rcases h6 with hrow | hcol | ⟨hb1, hb2⟩
    · refine Or.inl (Or.inl ⟨q.2, h4, ?_⟩)
      have hq : ((p.1, q.2) : Pos) = q := by
        rw [hrow]
      have hne : q.2 ≠ p.2 := by
        intro hh
        exact h5 (Prod.ext hrow hh.symm)
      rw [if_pos ⟨hne, by rw [hq]; exact h8⟩, hq]
    · refine Or.inl (Or.inr ⟨q.1, h3, ?_⟩)
      have hq : ((q.1, p.2) : Pos) = q := by
        rw [hcol]
      have hne : q.1 ≠ p.1 := by
        intro hh
        exact h5 (Prod.ext hh.symm hcol)
      rw [if_pos ⟨hne, by rw [hq]; exact h8⟩, hq]
    · refine Or.inr ⟨q.1 % 3, by omega, q.2 % 3, by omega, ?_⟩
      have hq : ((3 * (p.1 / 3) + q.1 % 3, 3 * (p.2 / 3) + q.2 % 3) : Pos) = q := by
        have e1 : 3 * (p.1 / 3) + q.1 % 3 = q.1 := by omega
        have e2 : 3 * (p.2 / 3) + q.2 % 3 = q.2 := by omega
        rw [e1, e2]
      rw [if_pos ⟨by rw [hq]; exact fun hh => h5 hh.symm, by rw [hq]; exact h8⟩, hq]

theorem ric_keys (d : Domains) (xi xj : Pos) :
    keys (remove_inconsistent_values d xi xj).2 = keys d := by
  unfold remove_inconsistent_values
  exact keys_dictUpdate d xi _

theorem ric_contains (d : Domains) (xi xj q : Pos) :
    dictContains (remove_inconsistent_values d xi xj).2 q = dictContains d q := by
  rw [Bool.eq_iff_iff, dictContains_iff, dictContains_iff, ric_keys]

theorem mem_ric_at_xi (d : Domains) (xi xj : Pos) (x : Int) :
    x ∈ dictGetD (remove_inconsistent_values d xi xj).2 xi ∅ ↔
      x ∈ dictGetD d xi ∅ ∧ ∃ y ∈ dictGetD d xj ∅, y ≠ x := by
  unfold remove_inconsistent_values
  rw [dictGetD_dictUpdate_same]
  by_cases hc : dictContains d xi
  · rw [if_pos hc, Finset.mem_filter]
  · rw [if_neg hc, dictGetD_not_contains d xi ∅ (by simpa using hc)]
    simp

theorem ric_at_other (d : Domains) (xi xj q : Pos) (h : q ≠ xi) :
    dictGetD (remove_inconsistent_values d xi xj).2 q ∅ = dictGetD d q ∅ := by
  unfold remove_inconsistent_values
  exact dictGetD_dictUpdate_ne d xi q _ ∅ h

theorem ric_subset_at_xi (d : Domains) (xi xj : Pos) :
    dictGetD (remove_inconsistent_values d xi xj).2 xi ∅ ⊆ dictGetD d xi ∅ := by
  intro x hx
  exact ((mem_ric_at_xi d xi xj x).1 hx).1

theorem ric_not_removed_getD (d : Domains) (xi xj : Pos)
    (h : (remove_inconsistent_values d xi xj).1 = false) (q : Pos) :
    dictGetD (remove_inconsistent_values d xi xj).2 q ∅ = dictGetD d q ∅ := by
  by_cases hq : q = xi
  · subst hq
    unfold remove_inconsistent_values at h ⊢
    simp only [decide_eq_true_eq] at h
    have heq : (dictGetD d q ∅).filter (fun x => ∃ y ∈ dictGetD d xj ∅, y ≠ x) =
        dictGetD d q ∅ := by
      by_contra hne
      rw [decide_eq_false_iff_not] at h
      exact h hne
    rw [dictGetD_dictUpdate_same]
    by_cases hc : dictContains d q
    · rw [if_pos hc, heq]
    · rw [if_neg hc, dictGetD_not_contains d q ∅ (by simpa using hc)]
  · exact ric_at_other d xi xj q hq

/-- A worklist arc relates two distinct same-unit domain variables. -/
def ArcOK (d : Domains) (a : Pos × Pos) : Prop :=
  a.1 ≠ a.2 ∧ sameUnit a.1 a.2 ∧ dictContains d a.1 = true ∧ dictContains d a.2 = true

theorem ac3_loop_keys (d : Domains) (queue : List (Pos × Pos)) :
    keys (ac3_loop d queue).2 = keys d := by
  induction d, queue using ac3_loop.induct with
  | case1 d => rw [ac3_loop]
  | case2 d xi xj rest rc hrc hempty =>
    have hrc2 : (remove_inconsistent_values d xi xj).1 = true := hrc
    have hempty2 : dictGetD (remove_inconsistent_values d xi xj).2 xi ∅ = ∅ := hempty
    rw [ac3_loop, dif_pos hrc2, if_pos hempty2]
    exact ric_keys d xi xj
  | case3 d xi xj rest rc hrc hempty ih =>
    have hrc2 : (remove_inconsistent_values d xi xj).1 = true := hrc
    have hempty2 : ¬dictGetD (remove_inconsistent_values d xi xj).2 xi ∅ = ∅ := hempty
    rw [ac3_loop, dif_pos hrc2, if_neg hempty2]
    rw [ih, ric_keys]
  | case4 d xi xj rest rc hrc ih =>
    have hrc2 : ¬(remove_inconsistent_values d xi xj).1 = true := hrc
    rw [ac3_loop, dif_neg hrc2]
    rw [ih, ric_keys]

theorem ac3_loop_contains (d : Domains) (queue : List (Pos × Pos)) (p : Pos) :
    dictContains (ac3_loop d queue).2 p = dictContains d p := by
  rw [Bool.eq_iff_iff, dictContains_iff, dictContains_iff, ac3_loop_keys]

theorem ac3_loop_subset (d : Domains) (queue : List (Pos × Pos)) (p : Pos) :
    dictGetD (ac3_loop d queue).2 p ∅ ⊆ dictGetD d p ∅ := by
  induction d, queue using ac3_loop.induct with
  | case1 d => rw [ac3_loop]
  | case2 d xi xj rest rc hrc =>
    rename_i hempty
    have hrc2 : (remove_inconsistent_values d xi xj).1 = true := hrc
    have hempty2 : dictGetD (remove_inconsistent_values d xi xj).2 xi ∅ = ∅ := hempty
    rw [ac3_loop, dif_pos hrc2, if_pos hempty2]
    by_cases hp : p = xi
    · subst hp
      exact ric_subset_at_xi d p xj
    · rw [ric_at_other d xi xj p hp]
  | case3 d xi xj rest rc hrc hempty =>
    rename_i ih
    have hrc2 : (remove_inconsistent_values d xi xj).1 = true := hrc
    have hempty2 : ¬dictGetD (remove_inconsistent_values d xi xj).2 xi ∅ = ∅ := hempty
    rw [ac3_loop, dif_pos hrc2, if_neg hempty2]
    refine subset_trans ih ?_
    by_cases hp : p = xi
    · subst hp
      exact ric_subset_at_xi d p xj
    · rw [ric_at_other d xi xj p hp]
  | case4 d xi xj rest rc hrc =>
    rename_i ih
    have hrc2 : ¬(remove_inconsistent_values d xi xj).1 = true := hrc
    rw [ac3_loop, dif_neg hrc2]
    refine subset_trans ih ?_
    intro x hx
    rw [ric_not_removed_getD d xi xj (by simpa using hrc2) p] at hx
    exact hx

theorem ac3_loop_compat (c : Nat → Nat → Int) (d : Domains)
    (queue : List (Pos × Pos)) :
    (∀ a ∈ queue, ArcOK d a) →
    (∀ p q : Pos, dictContains d p = true → dictContains d q = true →
      p ≠ q → sameUnit p q → c p.1 p.2 ≠ c q.1 q.2) →
    (∀ p : Pos, dictContains d p = true → c p.1 p.2 ∈ dictGetD d p ∅) →
    (ac3_loop d queue).1 = none ∧
      ∀ p : Pos, dictContains (ac3_loop d queue).2 p = true →
        c p.1 p.2 ∈ dictGetD (ac3_loop d queue).2 p ∅ := by
  induction d, queue using ac3_loop.induct with
  | case1 d =>
    intro _ _ hmem
    rw [ac3_loop]
    exact ⟨rfl, hmem⟩
  | case2 d xi xj rest rc hrc =>
    rename_i hempty
    intro harcs hdist hmem
    exfalso
    have hempty2 : dictGetD (remove_inconsistent_values d xi xj).2 xi ∅ = ∅ := hempty
    obtain ⟨hne, hsu, hci, hcj⟩ := harcs (xi, xj) (List.mem_cons_self _ rest)
    have hxi : c xi.1 xi.2 ∈ dictGetD (remove_inconsistent_values d xi xj).2 xi ∅ := by
      rw [mem_ric_at_xi]
      exact ⟨hmem xi hci, c xj.1 xj.2, hmem xj hcj,
        hdist xj xi hcj hci (fun h => hne h.symm) (sameUnit_symm xi xj hsu)⟩
    rw [hempty2] at hxi
    exact absurd hxi (Finset.not_mem_empty _)
  | case3 d xi xj rest rc hrc hempty =>
    rename_i ih
    intro harcs hdist hmem
    have hrc2 : (remove_inconsistent_values d xi xj).1 = true := hrc
    have hempty2 : ¬dictGetD (remove_inconsistent_values d xi xj).2 xi ∅ = ∅ := hempty
    rw [ac3_loop, dif_pos hrc2, if_neg hempty2]
    obtain ⟨hne, hsu, hci, hcj⟩ := harcs (xi, xj) (List.mem_cons_self _ rest)
    apply ih
    · intro a ha
      rcases List.mem_append.1 ha with ha | ha
      · obtain ⟨h1, h2, h3, h4⟩ := harcs a (List.mem_cons_of_mem _ ha)
        exact ⟨h1, h2, by rw [ric_contains]; exact h3, by rw [ric_contains]; exact h4⟩
      · rw [List.mem_map] at ha
        obtain ⟨xk, hxk, hxka⟩ := ha
        rw [List.mem_filter] at hxk
        obtain ⟨hxkn, -⟩ := hxk
        obtain ⟨hk1, hk2, hk3, hk4, hk5⟩ := (mem_get_neighbors _ xi xk).1 hxkn
        rw [← hxka]
        exact ⟨hk3, hk5, hk4, by rw [ric_contains]; exact hci⟩
    · intro p q hp hq hpq hsu2
      rw [ric_contains] at hp hq
      exact hdist p q hp hq hpq hsu2
    · intro p hp
      rw [ric_contains] at hp
      by_cases hpxi : p = xi
      · subst hpxi
        rw [mem_ric_at_xi]
        exact ⟨hmem p hp, c xj.1 xj.2, hmem xj hcj,
          hdist xj p hcj hp (fun h => hne h.symm) (sameUnit_symm p xj hsu)⟩
      · rw [ric_at_other d xi xj p hpxi]
        exact hmem p hp
  | case4 d xi xj rest rc hrc =>
    rename_i ih
    intro harcs hdist hmem
    have hrc2 : ¬(remove_inconsistent_values d xi xj).1 = true := hrc
    rw [ac3_loop, dif_neg hrc2]
    apply ih
    · intro a ha
      obtain ⟨h1, h2, h3, h4⟩ := harcs a (List.mem_cons_of_mem _ ha)
      exact ⟨h1, h2, by rw [ric_contains]; exact h3, by rw [ric_contains]; exact h4⟩
    · intro p q hp hq hpq hsu2
      rw [ric_contains] at hp hq
      exact hdist p q hp hq hpq hsu2
    · intro p hp
      rw [ric_contains] at hp
      rw [ric_not_removed_getD d xi xj (by simpa using hrc2) p]
      exact hmem p hp

/-! ### Search-state invariants -/

/-- Clue cells keep their original values. -/
def Agrees (b0 b : Board) : Prop :=
  ∀ i j, i < 9 → j < 9 → cell b0 i j ≠ 0 → cell b i j = cell b0 i j

/-- Any two distinct same-unit filled cells, at least one of which was
empty in the original grid, hold different values. -/
def PlacedOK (b0 b : Board) : Prop :=
  ∀ p q : Pos, p.1 < 9 → p.2 < 9 → q.1 < 9 → q.2 < 9 → p ≠ q → sameUnit p q →
    (cell b0 p.1 p.2 = 0 ∨ cell b0 q.1 q.2 = 0) →
    cell b p.1 p.2 ≠ 0 → cell b q.1 q.2 ≠ 0 →
    cell b p.1 p.2 ≠ cell b q.1 q.2

/-- No two distinct same-unit filled cells hold equal values (the grid
invariant of the spec). -/
def BoardOK (b : Board) : Prop :=
  ∀ p q : Pos, p.1 < 9 → p.2 < 9 → q.1 < 9 → q.2 < 9 → p ≠ q → sameUnit p q →
    cell b p.1 p.2 ≠ 0 → cell b q.1 q.2 ≠ 0 →
    cell b p.1 p.2 ≠ cell b q.1 q.2

/-- No empty cell's domain contains a value already fixed in its row,
column, or box. -/
def DomInv (b : Board) (d : Domains) : Prop :=
  ∀ p : Pos, dictContains d p = true →
    ∀ q : Pos, q.1 < 9 → q.2 < 9 → q ≠ p → sameUnit q p →
      cell b q.1 q.2 ≠ 0 → cell b q.1 q.2 ∉ dictGetD d p ∅

/-- The full board predicate: every in-range cell is filled. -/
def Full (b : Board) : Prop :=
  ∀ p : Pos, p.1 < 9 → p.2 < 9 → cell b p.1 p.2 ≠ 0

/-- Search-state invariant relative to the grid `b0` given at
construction. -/
structure Inv (b0 : Board) (s : SState) : Prop where
  shape : Shape9 s.board
  keysEmpty : ∀ p : Pos, dictContains s.domains p = true ↔
    (p.1 < 9 ∧ p.2 < 9 ∧ cell s.board p.1 p.2 = 0)
  domRange : ∀ p : Pos, ∀ w ∈ dictGetD s.domains p ∅, 1 ≤ w ∧ w ≤ 9
  agrees : Agrees b0 s.board
  placed : PlacedOK b0 s.board
  cellRange : ∀ i j, 0 ≤ cell s.board i j ∧ cell s.board i j ≤ 9

/-- The forward-checking-dependent part of the invariant. -/
def FcInv (cfg : Config) (s : SState) : Prop :=
  cfg.use_forward_checking = true → DomInv s.board s.domains

/-- What each ghost event guarantees (relative to original grid `b0`). -/
def eventOK (cfg : Config) (b0 : Board) : TEvent → Prop
  | TEvent.decision b d => Agrees b0 b ∧ PlacedOK b0 b ∧
      (cfg.use_forward_checking = true → DomInv b d)
  | TEvent.assign _ _ b => Agrees b0 b ∧ PlacedOK b0 b
  | TEvent.restore b => Agrees b0 b ∧ PlacedOK b0 b
  | TEvent.fcFail _ _ _ _ => True

def TraceOK (cfg : Config) (b0 : Board) (tr : List TEvent) : Prop :=
  ∀ e ∈ tr, eventOK cfg b0 e

theorem traceOK_append (cfg : Config) (b0 : Board) (t1 t2 : List TEvent)
    (h1 : TraceOK cfg b0 t1) (h2 : TraceOK cfg b0 t2) : TraceOK cfg b0 (t1 ++ t2) := by
  intro e he
  rcases List.mem_append.1 he with h | h
  · exact h1 e h
  · exact h2 e h

theorem traceOK_single (cfg : Config) (b0 : Board) (e : TEvent)
    (h : eventOK cfg b0 e) : TraceOK cfg b0 [e] := by
  intro e' he'
  rcases List.mem_cons.1 he' with h1 | h1
  · exact h1 ▸ h
  · exact absurd h1 (List.not_mem_nil e')

/-- Exact state restoration: undoing the assignment of `var` returns the
snapshotted pre-assignment state, field by field. -/
theorem restore_exact (sPre : SState) (var : Pos) (v : Int) (s4 : SState)
    (hshape : Shape9 sPre.board) (h1 : var.1 < 9) (h2 : var.2 < 9)
    (h0 : cell sPre.board var.1 var.2 = 0)
    (hb : s4.board = setCell sPre.board var v)
    (hao : s4.assignment_order = sPre.assignment_order ++ [var]) :
    restore_state s4 var sPre.domains sPre.conflict_sets = sPre := by
  unfold restore_state
  obtain ⟨b, d, c, a⟩ := sPre
  simp only [SState.mk.injEq]
  refine ⟨?_, trivial, trivial, ?_⟩
  · rw [hb]
    exact setCell_cancel b var v hshape h1 h2 h0
  · rw [hao]
    exact List.dropLast_concat

/-- `Inv` after replacing the domains by a same-keys pointwise-smaller
dictionary (forward checking and AC-3 only shrink domains). -/
theorem inv_shrink_domains (b0 : Board) (s : SState) (d' : Domains)
    (hInv : Inv b0 s) (hkeys : ∀ p : Pos, dictContains d' p = dictContains s.domains p)
    (hsub : ∀ p : Pos, dictGetD d' p ∅ ⊆ dictGetD s.domains p ∅) :
    Inv b0 { s with domains := d' } := by
  refine ⟨hInv.shape, ?_, ?_, hInv.agrees, hInv.placed, hInv.cellRange⟩
  · intro p
    show dictContains d' p = true ↔ _
    rw [hkeys p]
    exact hInv.keysEmpty p
  · intro p w hw
    exact hInv.domRange p w (hsub p hw)

theorem domInv_shrink (b : Board) (d d' : Domains)
    (hdi : DomInv b d) (hkeys : ∀ p : Pos, dictContains d' p = dictContains d p)
    (hsub : ∀ p : Pos, dictGetD d' p ∅ ⊆ dictGetD d p ∅) : DomInv b d' := by
  intro p hp q hq1 hq2 hqp hsu hqne hmem
  rw [hkeys p] at hp
  exact hdi p hp q hq1 hq2 hqp hsu hqne (hsub p hmem)

/-- The state invariant survives a gated assignment. -/
theorem inv_assign (b0 : Board) (s : SState) (var : Pos) (v : Int)
    (hInv : Inv b0 s) (h1 : var.1 < 9) (h2 : var.2 < 9)
    (h0 : cell s.board var.1 var.2 = 0)
    (hv : v ∈ dictGetD s.domains var ∅)
    (hsafe : is_safe s.board var v = true) :
    Inv b0 { board := setCell s.board var v, domains := dictErase s.domains var,
             conflict_sets := s.conflict_sets,
             assignment_order := s.assignment_order ++ [var] } := by
  have hvr := hInv.domRange var v hv
  have hvne : v ≠ 0 := by omega
  have hb0var : cell b0 var.1 var.2 = 0 := by
    by_contra hne
    exact absurd (hInv.agrees var.1 var.2 h1 h2 hne) (by rw [h0]; exact fun hh => hne hh.symm)
  have hsafe' := (is_safe_iff s.board var v h1 h2).1 hsafe
  have hshape' := shape9_setCell s.board var v hInv.shape
  refine ⟨hshape', ?_, ?_, ?_, ?_, ?_⟩
  · intro p
    show dictContains (dictErase s.domains var) p = true ↔ _
    rw [dictContains_dictErase]
    by_cases hp : p = var
    · simp only [hp, decide_True, Bool.not_true, Bool.and_false, Bool.false_eq_true, false_iff,
        not_and]
      intro hp1 hp2
      rw [cell_setCell_self s.board var v hInv.shape h1 h2]
      exact hvne
    · simp only [hp, decide_False, Bool.not_false, Bool.and_true]
      rw [cell_setCell_ne s.board var v p.1 p.2 (by
        intro hh
        exact hp (by rw [← hh]))]
      exact hInv.keysEmpty p
  · intro p w hw
    rw [dictGetD_dictErase] at hw
    by_cases hp : p = var
    · rw [if_pos hp] at hw
      exact absurd hw (Finset.not_mem_empty w)
    · rw [if_neg hp] at hw
      exact hInv.domRange p w hw
  · intro i j hi hj hne
    show cell (setCell s.board var v) i j = _
    by_cases hp : (i, j) = ((var.1, var.2) : Pos)
    · exfalso
      have hieq : i = var.1 := congrArg Prod.fst hp
      have hjeq : j = var.2 := congrArg Prod.snd hp
      rw [hieq, hjeq] at hne
      exact hne hb0var
    · rw [cell_setCell_ne s.board var v i j (by
        intro hh
        exact hp (by rw [hh]))]
      exact hInv.agrees i j hi hj hne
  · intro p q hp1 hp2 hq1 hq2 hpq hsu horig hpne hqne
    show cell (setCell s.board var v) p.1 p.2 ≠ cell (setCell s.board var v) q.1 q.2
    by_cases hpv : (p.1, p.2) = ((var.1, var.2) : Pos)
    · have hpvar : p = var := by
        obtain ⟨a, b⟩ := p
        exact hpv
      subst hpvar
      have hqv : (q.1, q.2) ≠ ((p.1, p.2) : Pos) := by
        intro hh
        apply hpq
        obtain ⟨a, b⟩ := q
        exact (hh : (a, b) = _).symm
      rw [cell_setCell_self s.board p v hInv.shape h1 h2,
        cell_setCell_ne s.board p v q.1 q.2 hqv]
      have := hsafe' q hq1 hq2 (sameUnit_symm p q hsu)
      rw [cell_setCell_ne s.board p v q.1 q.2 hqv] at hqne
      exact fun hh => this hh.symm
    · have hpvar : p ≠ var := by
        intro hh
        exact hpv (by rw [hh])
      have hpv2 : (p.1, p.2) ≠ ((var.1, var.2) : Pos) := hpv
      rw [cell_setCell_ne s.board var v p.1 p.2 hpv2] at hpne ⊢
      by_cases hqv : (q.1, q.2) = ((var.1, var.2) : Pos)
      · have hqvar : q = var := by
          obtain ⟨a, b⟩ := q
          exact hqv
        subst hqvar
        rw [cell_setCell_self s.board q v hInv.shape h1 h2]
        exact hsafe' p hp1 hp2 hsu
      · have hqv2 : (q.1, q.2) ≠ ((var.1, var.2) : Pos) := hqv
        rw [cell_setCell_ne s.board var v q.1 q.2 hqv2] at hqne ⊢
        exact hInv.placed p q hp1 hp2 hq1 hq2 hpq hsu horig hpne hqne
  · intro i j
    show 0 ≤ cell (setCell s.board var v) i j ∧ _
    by_cases hp : (i, j) = ((var.1, var.2) : Pos)
    · have hieq : i = var.1 := congrArg Prod.fst hp
      have hjeq : j = var.2 := congrArg Prod.snd hp
      subst hieq
      subst hjeq
      rw [cell_setCell_self s.board var v hInv.shape h1 h2]
      omega
    · rw [cell_setCell_ne s.board var v i j hp]
      exact hInv.cellRange i j

theorem fc_go_none_subset (b : Board) (var : Pos) (v : Int) (l : List Pos)
    (d : Domains) (h : (fc_go b var v l d).1 = none) (q : Pos) :
    dictGetD (fc_go b var v l d).2 q ∅ ⊆ dictGetD d q ∅ := by
  rw [fc_go_none b var v l d h q]
  by_cases hc : q ∈ l ∧ fcPeer b var q
  · rw [if_pos hc]
    exact Finset.erase_subset v _
  · rw [if_neg hc]

theorem full_of_next_none (useMrv : Bool) (b0 : Board) (s : SState) (hInv : Inv b0 s)
    (h : get_next_variable useMrv s.board s.domains = none) : Full s.board :=
  fun p h1 h2 => get_next_variable_none useMrv s.board s.domains hInv.keysEmpty h p h1 h2

theorem inv_set_conflicts (b0 : Board) (s : SState) (x : List (Pos × Finset Pos))
    (hInv : Inv b0 s) : Inv b0 { s with conflict_sets := x } :=
  ⟨hInv.shape, hInv.keysEmpty, hInv.domRange, hInv.agrees, hInv.placed, hInv.cellRange⟩

/-- After a successful forward check from a state whose domains respected
the fixed values, the pruned domains respect the new fixed value too. -/
theorem fc_none_domInv (b0 : Board) (s : SState) (var : Pos) (v : Int) (d' : Domains)
    (hInv : Inv b0 s) (h1 : var.1 < 9) (h2 : var.2 < 9)
    (h0 : cell s.board var.1 var.2 = 0)
    (hdi : DomInv s.board s.domains)
    (hfc : forward_check_with_conflicts (setCell s.board var v)
      (dictErase s.domains var) var v = (none, d')) :
    DomInv (setCell s.board var v) d' := by
  have hnone : (fc_go (setCell s.board var v) var v allPositions
      (dictErase s.domains var)).1 = none := congrArg Prod.fst hfc
  have hd' : (fc_go (setCell s.board var v) var v allPositions
      (dictErase s.domains var)).2 = d' := congrArg Prod.snd hfc
  intro p hp q hq1 hq2 hqp hsu hqne hmem
  rw [← hd'] at hp hmem
  rw [fc_go_contains, dictContains_dictErase] at hp
  simp only [Bool.and_eq_true, Bool.not_eq_true', decide_eq_false_iff_not] at hp
  obtain ⟨hpc, hpvar⟩ := hp
  have hpfacts := (hInv.keysEmpty p).1 hpc
  have hpcell1 : cell (setCell s.board var v) p.1 p.2 = cell s.board p.1 p.2 := by
    apply cell_setCell_ne
    intro hh
    apply hpvar
    obtain ⟨a, b⟩ := p
    exact hh
  by_cases hqvar : q = var
  · subst hqvar
    have hpeer : fcPeer (setCell s.board q v) q p := by
      refine ⟨by rw [hpcell1]; exact hpfacts.2.2, sameUnit_symm q p hsu⟩
    rw [fc_go_none _ _ _ _ _ hnone p,
      if_pos ⟨(mem_allPositions p).2 ⟨hpfacts.1, hpfacts.2.1⟩, hpeer⟩] at hmem
    rw [cell_setCell_self s.board q v hInv.shape h1 h2] at hmem
    exact absurd (Finset.mem_erase.1 hmem).1 (by simp)
  · have hqcell : cell (setCell s.board var v) q.1 q.2 = cell s.board q.1 q.2 := by
      apply cell_setCell_ne
      intro hh
      apply hqvar
      obtain ⟨a, b⟩ := q
      exact hh
    rw [hqcell] at hqne hmem
    have hsubmem := fc_go_none_subset _ _ _ _ _ hnone p hmem
    rw [dictGetD_dictErase, if_neg hpvar] at hsubmem
    exact hdi p hpc q hq1 hq2 hqp hsu hqne hsubmem

/-- Post-condition bundle for one search call started from state `s`:
the call yields a result; the invariants hold for the final state; on
failure the board, domains, and assignment order are exactly as at entry;
on success the board is full; and every trace event is sound. -/
def BtPost (cfg : Config) (b0 : Board) (s : SState) (res : BResult) : Prop :=
  ∃ r cc s' tr, res = some (r, cc, s', tr) ∧ Inv b0 s' ∧ FcInv cfg s' ∧
    (r = false → s'.board = s.board ∧ s'.domains = s.domains ∧
      s'.assignment_order = s.assignment_order) ∧
    (r = true → Full s'.board) ∧ TraceOK cfg b0 tr

/-- Master induction over the search: totality (given fuel exceeding the
number of open variables), invariant preservation, exact restoration on
failure, fullness on success, and soundness of every trace event. -/
theorem backtrack_master (cfg : Config) (b0 : Board) (fuel : Nat) (s : SState) :
    Inv b0 s → FcInv cfg s → (keys s.domains).length < fuel →
    BtPost cfg b0 s (backtrack cfg fuel s) := by
  refine backtrack.induct cfg
    (fun fuel s => Inv b0 s → FcInv cfg s → (keys s.domains).length < fuel →
      BtPost cfg b0 s (backtrack cfg fuel s))
    (fun fuel var vals s cc tr =>
      Inv b0 s → FcInv cfg s → var.1 < 9 → var.2 < 9 →
      cell s.board var.1 var.2 = 0 →
      (∀ w ∈ vals, w ∈ dictGetD s.domains var ∅) →
      (keys s.domains).length ≤ fuel → TraceOK cfg b0 tr →
      BtPost cfg b0 s (try_values cfg fuel var vals s cc tr))
    (fun fuel var v rest s2 sPre cc tr =>
      Inv b0 sPre → FcInv cfg sPre → var.1 < 9 → var.2 < 9 →
      cell sPre.board var.1 var.2 = 0 →
      (∀ w ∈ rest, w ∈ dictGetD sPre.domains var ∅) →
      (keys sPre.domains).length ≤ fuel →
      Inv b0 s2 → FcInv cfg s2 →
      s2.board = setCell sPre.board var v →
      s2.assignment_order = sPre.assignment_order ++ [var] →
      (keys s2.domains).length < fuel →
      TraceOK cfg b0 tr →
      BtPost cfg b0 sPre (after_fc cfg fuel var v rest s2 sPre cc tr))
    (fun fuel var rest s3 sPre cc tr =>
      Inv b0 sPre → FcInv cfg sPre → var.1 < 9 → var.2 < 9 →
      cell sPre.board var.1 var.2 = 0 →
      (∀ w ∈ rest, w ∈ dictGetD sPre.domains var ∅) →
      (keys sPre.domains).length ≤ fuel →
      Inv b0 s3 → FcInv cfg s3 →
      (∃ v : Int, s3.board = setCell sPre.board var v) →
      s3.assignment_order = sPre.assignment_order ++ [var] →
      (keys s3.domains).length < fuel →
      TraceOK cfg b0 tr →
      BtPost cfg b0 sPre (do_recurse cfg fuel var rest s3 sPre cc tr))
    ?_ ?_ ?_ ?_ ?_ ?_ ?_ ?_ ?_ ?_ ?_ ?_ ?_ ?_ fuel s
  · -- fuel 0
    intro x _ _ hlen
    exact absurd hlen (Nat.not_lt_zero _)
  · -- next variable: none (solved)
    intro fuel s hnext hInv hFc _
    have hEq : backtrack cfg (fuel + 1) s =
        some (true, ∅, s, [TEvent.decision s.board s.domains]) := by
      rw [backtrack, hnext]
    rw [hEq]
    exact ⟨true, ∅, s, [TEvent.decision s.board s.domains], rfl, hInv, hFc,
      fun h => absurd h (by decide), fun _ => full_of_next_none cfg.use_mrv b0 s hInv hnext,
      traceOK_single cfg b0 _ ⟨hInv.agrees, hInv.placed, fun hfc => hFc hfc⟩⟩
  · -- next variable: some var
    intro fuel s var hnext ih hInv hFc hlen
    have hvf := get_next_variable_some cfg.use_mrv s.board s.domains hInv.keysEmpty var hnext
    have hEq : backtrack cfg (fuel + 1) s =
        try_values cfg fuel var (get_ordered_values cfg.use_lcv s.board s.domains var) s ∅
          [TEvent.decision s.board s.domains] := by
      rw [backtrack, hnext]
    rw [hEq]
    exact ih hInv hFc hvf.1 hvf.2.1 hvf.2.2.1
      (fun w hw => (mem_get_ordered_values cfg.use_lcv s.board s.domains var w).1 hw)
      (by omega) (traceOK_single cfg b0 _ ⟨hInv.agrees, hInv.placed, fun hfc => hFc hfc⟩)
  · -- values exhausted
    intro fuel var s cc tr hInv hFc h1 h2 h0 hsub hfuel htr
    rw [try_values]
    exact ⟨false, cc, { s with conflict_sets := dictSet s.conflict_sets var cc }, tr, rfl,
      inv_set_conflicts b0 s _ hInv, fun hh => hFc hh,
      fun _ => ⟨rfl, rfl, rfl⟩, fun h => absurd h (by decide), htr⟩
  · -- safe value, forward checking on, forward check fails
    intro fuel var v rest s cc tr hsafe s1 tr1 hfcOn fcc d' hfc sR ih
      hInv hFc h1 h2 h0 hsub hfuel htr
    have hv : v ∈ dictGetD s.domains var ∅ := hsub v (List.mem_cons_self v rest)
    have hInv1 : Inv b0 s1 := inv_assign b0 s var v hInv h1 h2 h0 hv hsafe
    have hsR : sR = s := restore_exact s var v _ hInv.shape h1 h2 h0 rfl rfl
    have hsRb : sR.board = s.board := by rw [hsR]
    have htr' : TraceOK cfg b0
        (tr1 ++ [TEvent.fcFail var v fcc s1.domains, TEvent.restore sR.board]) := by
      refine traceOK_append cfg b0 _ _ (traceOK_append cfg b0 _ _ htr
        (traceOK_single cfg b0 _ ⟨hInv1.agrees, hInv1.placed⟩)) ?_
      intro e he
      rcases List.mem_cons.1 he with h | h
      · rw [h]; exact trivial
      · rcases List.mem_cons.1 h with h | h
        · rw [h, hsRb]
          exact ⟨hInv.agrees, hInv.placed⟩
        · exact absurd h (List.not_mem_nil e)
    have hres := ih (by rw [hsR]; exact hInv) (by rw [hsR]; exact hFc) h1 h2
      (by rw [hsR]; exact h0)
      (by rw [hsR]; exact fun w hw => hsub w (List.mem_cons_of_mem v hw))
      (by rw [hsR]; exact hfuel) htr'
    have hres' : BtPost cfg b0 s (try_values cfg fuel var rest sR (cc ∪ fcc.erase var)
        (tr1 ++ [TEvent.fcFail var v fcc s1.domains, TEvent.restore sR.board])) := by
      rw [← hsR]
      exact hres
    have hEq : try_values cfg fuel var (v :: rest) s cc tr =
        try_values cfg fuel var rest sR (cc ∪ fcc.erase var)
          (tr1 ++ [TEvent.fcFail var v fcc s1.domains, TEvent.restore sR.board]) := by
      rw [try_values, if_pos hsafe, if_pos hfcOn, hfc]
    rw [hEq]
    exact hres'
  · -- safe value, forward checking on, forward check succeeds
    intro fuel var v rest s cc tr hsafe s1 tr1 hfcOn d' hfc ih
      hInv hFc h1 h2 h0 hsub hfuel htr
    have hv : v ∈ dictGetD s.domains var ∅ := hsub v (List.mem_cons_self v rest)
    have hInv1 : Inv b0 s1 := inv_assign b0 s var v hInv h1 h2 h0 hv hsafe
    have hnone : (fc_go s1.board var v allPositions s1.domains).1 = none :=
      congrArg Prod.fst hfc
    have hd' : (fc_go s1.board var v allPositions s1.domains).2 = d' :=
      congrArg Prod.snd hfc
    have hcontains : dictContains s.domains var = true :=
      (hInv.keysEmpty var).2 ⟨h1, h2, h0⟩
    have hInv2 : Inv b0 { s1 with domains := d' } := by
      refine inv_shrink_domains b0 s1 d' hInv1 ?_ ?_
      · intro p
        rw [← hd', fc_go_contains]
      · intro p
        rw [← hd']
        exact fc_go_none_subset _ _ _ _ _ hnone p
    have hFc2 : FcInv cfg { s1 with domains := d' } := by
      intro hon
      exact fc_none_domInv b0 s var v d' hInv h1 h2 h0 (hFc hon) hfc
    have hklen : (keys d').length < fuel := by
      rw [← hd', fc_go_keys]
      show (keys (dictErase s.domains var)).length < fuel
      have := length_keys_dictErase_lt s.domains var hcontains
      omega
    have htr1 : TraceOK cfg b0 tr1 :=
      traceOK_append cfg b0 _ _ htr
        (traceOK_single cfg b0 _ ⟨hInv1.agrees, hInv1.placed⟩)
    have hEq : try_values cfg fuel var (v :: rest) s cc tr =
        after_fc cfg fuel var v rest { s1 with domains := d' } s cc tr1 := by
      rw [try_values, if_pos hsafe, if_pos hfcOn, hfc]
    rw [hEq]
    exact ih hInv hFc h1 h2 h0
      (fun w hw => hsub w (List.mem_cons_of_mem v hw)) hfuel
      hInv2 hFc2 rfl rfl hklen htr1
  · -- safe value, forward checking off
    intro fuel var v rest s cc tr hsafe s1 tr1 hfcOff ih
      hInv hFc h1 h2 h0 hsub hfuel htr
    have hv : v ∈ dictGetD s.domains var ∅ := hsub v (List.mem_cons_self v rest)
    have hInv1 : Inv b0 s1 := inv_assign b0 s var v hInv h1 h2 h0 hv hsafe
    have hcontains : dictContains s.domains var = true :=
      (hInv.keysEmpty var).2 ⟨h1, h2, h0⟩
    have hklen : (keys s1.domains).length < fuel := by
      have := length_keys_dictErase_lt s.domains var hcontains
      show (keys (dictErase s.domains var)).length < fuel
      omega
    have htr1 : TraceOK cfg b0 tr1 :=
      traceOK_append cfg b0 _ _ htr
        (traceOK_single cfg b0 _ ⟨hInv1.agrees, hInv1.placed⟩)
    have hEq : try_values cfg fuel var (v :: rest) s cc tr =
        after_fc cfg fuel var v rest s1 s cc tr1 := by
      rw [try_values, if_pos hsafe, if_neg hfcOff]
    rw [hEq]
    exact ih hInv hFc h1 h2 h0
      (fun w hw => hsub w (List.mem_cons_of_mem v hw)) hfuel
      hInv1 (fun hon => absurd hon hfcOff) rfl rfl hklen htr1
  · -- unsafe value
    intro fuel var v rest s cc tr hunsafe ih
      hInv hFc h1 h2 h0 hsub hfuel htr
    have hEq : try_values cfg fuel var (v :: rest) s cc tr =
        try_values cfg fuel var rest s cc tr := by
      rw [try_values, if_neg hunsafe]
    rw [hEq]
    exact ih hInv hFc h1 h2 h0
      (fun w hw => hsub w (List.mem_cons_of_mem v hw)) hfuel htr
  · -- AC-3 on, AC-3 fails: restore and continue
    intro fuel var v rest s2 sPre cc tr hac3On fcc d' hac3 sR ih
      hInvP hFcP h1 h2 h0 hsub hfuel hInv2 hFc2 hb2 hao2 hklen htr
    have hsR : sR = sPre :=
      restore_exact sPre var v _ hInvP.shape h1 h2 h0 hb2 hao2
    have hsRb : sR.board = sPre.board := by rw [hsR]
    have htr' : TraceOK cfg b0 (tr ++ [TEvent.restore sR.board]) := by
      refine traceOK_append cfg b0 _ _ htr (traceOK_single cfg b0 _ ?_)
      rw [hsRb]
      exact ⟨hInvP.agrees, hInvP.placed⟩
    have hres := ih (by rw [hsR]; exact hInvP) (by rw [hsR]; exact hFcP) h1 h2
      (by rw [hsR]; exact h0) (by rw [hsR]; exact hsub) (by rw [hsR]; exact hfuel) htr'
    have hres' : BtPost cfg b0 sPre (try_values cfg fuel var rest sR
        (cc ∪ fcc.erase var) (tr ++ [TEvent.restore sR.board])) := by
      rw [← hsR]
      exact hres
    have hEq : after_fc cfg fuel var v rest s2 sPre cc tr =
        try_values cfg fuel var rest sR (cc ∪ fcc.erase var)
          (tr ++ [TEvent.restore sR.board]) := by
      rw [after_fc, if_pos hac3On, hac3]
    rw [hEq]
    exact hres'
  · -- AC-3 on, AC-3 succeeds
    intro fuel var v rest s2 sPre cc tr hac3On d' hac3 ih
      hInvP hFcP h1 h2 h0 hsub hfuel hInv2 hFc2 hb2 hao2 hklen htr
    have hd' : (ac3_loop s2.domains (get_all_edges s2.domains)).2 = d' :=
      congrArg Prod.snd hac3
    have hInv3 : Inv b0 { s2 with domains := d' } := by
      refine inv_shrink_domains b0 s2 d' hInv2 ?_ ?_
      · intro p
        rw [← hd', ac3_loop_contains]
      · intro p
        rw [← hd']
        exact ac3_loop_subset _ _ p
    have hFc3 : FcInv cfg { s2 with domains := d' } := by
      intro hon
      refine domInv_shrink s2.board s2.domains d' (hFc2 hon) ?_ ?_
      · intro p
        rw [← hd', ac3_loop_contains]
      · intro p
        rw [← hd']
        exact ac3_loop_subset _ _ p
    have hklen3 : (keys d').length < fuel := by
      rw [← hd', ac3_loop_keys]
      exact hklen
    have hEq : after_fc cfg fuel var v rest s2 sPre cc tr =
        do_recurse cfg fuel var rest { s2 with domains := d' } sPre cc tr := by
      rw [after_fc, if_pos hac3On, hac3]
    rw [hEq]
    exact ih hInvP hFcP h1 h2 h0 hsub hfuel hInv3 hFc3 ⟨v, hb2⟩ hao2 hklen3 htr
  · -- AC-3 off
    intro fuel var v rest s2 sPre cc tr hac3Off ih
      hInvP hFcP h1 h2 h0 hsub hfuel hInv2 hFc2 hb2 hao2 hklen htr
    have hEq : after_fc cfg fuel var v rest s2 sPre cc tr =
        do_recurse cfg fuel var rest s2 sPre cc tr := by
      rw [after_fc, if_neg hac3Off]
    rw [hEq]
    exact ih hInvP hFcP h1 h2 h0 hsub hfuel hInv2 hFc2 ⟨v, hb2⟩ hao2 hklen htr
  · -- recursion returned none: impossible under the fuel bound
    intro fuel var rest s3 sPre cc tr hbt ih
      hInvP hFcP h1 h2 h0 hsub hfuel hInv3 hFc3 hb3 hao3 hklen htr
    obtain ⟨r, cc2, s4, tr4, heq, -⟩ := ih hInv3 hFc3 hklen
    rw [hbt] at heq
    exact absurd heq (by simp)
  · -- recursion succeeded
    intro fuel var rest s3 sPre cc tr fst s4 tr4 hbt ih
      hInvP hFcP h1 h2 h0 hsub hfuel hInv3 hFc3 hb3 hao3 hklen htr
    obtain ⟨r, cc2, s4', tr4', heq, hI4, hF4, hframe4, hfull4, htr4⟩ := ih hInv3 hFc3 hklen
    rw [hbt] at heq
    simp only [Option.some_inj, Prod.mk.injEq] at heq
    obtain ⟨hr, hcc, hs4, htr4eq⟩ := heq
    have hEq : do_recurse cfg fuel var rest s3 sPre cc tr =
        some (true, ∅, s4, tr ++ tr4) := by
      rw [do_recurse, hbt]
    rw [hEq]
    refine ⟨true, ∅, s4, tr ++ tr4, rfl, ?_, ?_, fun h => absurd h (by decide), ?_, ?_⟩
    · rw [hs4]
      exact hI4
    · rw [hs4]
      exact hF4
    · intro _
      rw [hs4]
      exact hfull4 hr.symm
    · rw [← htr4eq] at htr4
      exact traceOK_append cfg b0 _ _ htr htr4
  · -- recursion failed: restore and continue
    intro fuel var rest s3 sPre cc tr ncc s4 tr4 hbt sR ih ih2
      hInvP hFcP h1 h2 h0 hsub hfuel hInv3 hFc3 hb3 hao3 hklen htr
    obtain ⟨r, cc2, s4', tr4', heq, hI4, hF4, hframe4, hfull4, htr4⟩ := ih hInv3 hFc3 hklen
    rw [hbt] at heq
    simp only [Option.some_inj, Prod.mk.injEq] at heq
    obtain ⟨hr, hcc, hs4, htr4eq⟩ := heq
    obtain ⟨v, hbv⟩ := hb3
    have hframe := hframe4 hr.symm
    rw [← hs4] at hframe
    have hsR : sR = sPre := by
      refine restore_exact sPre var v s4 hInvP.shape h1 h2 h0 ?_ ?_
      · rw [hframe.1, hbv]
      · rw [hframe.2.2, hao3]
    have hsRb : sR.board = sPre.board := by rw [hsR]
    have htr' : TraceOK cfg b0 (tr ++ tr4 ++ [TEvent.restore sR.board]) := by
      refine traceOK_append cfg b0 _ _ (traceOK_append cfg b0 _ _ htr ?_)
        (traceOK_single cfg b0 _ ?_)
      · rw [← htr4eq] at htr4
        exact htr4
      · rw [hsRb]
        exact ⟨hInvP.agrees, hInvP.placed⟩
    have hres := ih2 (by rw [hsR]; exact hInvP) (by rw [hsR]; exact hFcP) h1 h2
      (by rw [hsR]; exact h0) (by rw [hsR]; exact hsub) (by rw [hsR]; exact hfuel) htr'
    have hres' : BtPost cfg b0 sPre (try_values cfg fuel var rest sR
        (cc ∪ ncc.erase var) (tr ++ tr4 ++ [TEvent.restore sR.board])) := by
      rw [← hsR]
      exact hres
    have hEq : do_recurse cfg fuel var rest s3 sPre cc tr =
        try_values cfg fuel var rest sR (cc ∪ ncc.erase var)
          (tr ++ tr4 ++ [TEvent.restore sR.board]) := by
      rw [do_recurse, hbt]
    rw [hEq]
    exact hres'

/-! ### Initial state facts and the solve-level master theorem -/

theorem inv_mkState (b : Board) (hv : is_valid_board b = true) : Inv b (mkState b) := by
  refine ⟨shape9_of_valid b hv, ?_, ?_, fun _ _ _ _ _ => rfl, ?_, cell_range_of_valid b hv⟩
  · intro p
    exact dictContains_init_domains b p
  · intro p w hw
    have hw' : w ∈ dictGetD (initialize_domains b) p ∅ := hw
    rw [dictGetD_init_domains] at hw'
    replace hw := hw'
    by_cases hc : p.1 < 9 ∧ p.2 < 9 ∧ cell b p.1 p.2 = 0
    · rw [if_pos hc] at hw
      have := ((mem_update_domain b p fullDomain w hc.1 hc.2.1).1 hw).1
      rw [fullDomain, Finset.mem_Icc] at this
      exact this
    · rw [if_neg hc] at hw
      exact absurd hw (Finset.not_mem_empty w)
  · intro p q hp1 hp2 hq1 hq2 hpq hsu horig hpne hqne
    rcases horig with h | h
    · exact absurd h hpne
    · exact absurd h hqne

theorem domInv_mkState (b : Board) (hv : is_valid_board b = true) :
    DomInv b (initialize_domains b) := by
  intro p hp q hq1 hq2 hqp hsu hqne hmem
  have hpf := (dictContains_init_domains b p).1 hp
  rw [dictGetD_init_domains, if_pos hpf] at hmem
  have := ((mem_update_domain b p fullDomain _ hpf.1 hpf.2.1).1 hmem).2 q hq1 hq2 hsu hqne
  exact this rfl

theorem arcs_initial (d : Domains) : ∀ a ∈ get_all_edges d, ArcOK d a := by
  intro a ha
  obtain ⟨h1, h2, h3, h4, h5, h6, h7, h8⟩ := (mem_get_all_edges d a).1 ha
  exact ⟨h5, h6, h7, h8⟩

theorem keys_initialize_length_le (b : Board) :
    (keys (initialize_domains b)).length ≤ 81 := by
  rw [initialize_domains_eq, keys_filterMap]
  calc (allPositions.filter fun q => (initDomain b q).isSome).length
      ≤ allPositions.length := List.length_filter_le _ _
    _ = 81 := length_allPositions

/-- The solve-level master theorem at fuel 82: the run completes; on
failure the board is exactly the input; on success it is full; the state
invariant holds at the end; the trace is sound. -/
theorem solve_master (cfg : Config) (b : Board) (hv : is_valid_board b = true) :
    ∃ r s' tr, solve cfg 82 (mkState b) = some (r, s', tr) ∧
      Inv b s' ∧
      (r = false → s'.board = b) ∧
      (r = true → Full s'.board) ∧
      TraceOK cfg b tr := by
  have hInv0 : Inv b (mkState b) := inv_mkState b hv
  have hFc0 : FcInv cfg (mkState b) := fun _ => domInv_mkState b hv
  have hlen0 : (keys (mkState b).domains).length < 82 := by
    have := keys_initialize_length_le b
    show (keys (initialize_domains b)).length < 82
    omega
  rcases hb3 : cfg.use_ac3 with _ | _
  · -- AC-3 disabled
    have hEq : solve cfg 82 (mkState b) =
        (backtrack cfg 82 (mkState b)).map fun r => (r.1, r.2.2.1, r.2.2.2) := by
      rw [solve, if_neg (by rw [hb3]; exact fun h => absurd h (by decide))]
    obtain ⟨r, cc, s', tr, heq, hI, hF, hframe, hfull, htr⟩ :=
      backtrack_master cfg b 82 (mkState b) hInv0 hFc0 hlen0
    refine ⟨r, s', tr, ?_, hI, ?_, hfull, htr⟩
    · rw [hEq, heq]
      rfl
    · intro hr
      exact (hframe hr).1
  · -- AC-3 enabled: initial global pass
    rcases hac3 : ac3_with_conflicts (mkState b).domains with ⟨o, d'⟩
    have hd' : (ac3_loop (mkState b).domains (get_all_edges (mkState b).domains)).2 = d' :=
      congrArg Prod.snd hac3
    have hInv1 : Inv b { mkState b with domains := d' } := by
      refine inv_shrink_domains b (mkState b) d' hInv0 ?_ ?_
      · intro p
        rw [← hd', ac3_loop_contains]
      · intro p
        rw [← hd']
        exact ac3_loop_subset _ _ p
    rcases o with _ | c
    · -- no initial conflict: search runs
      have hEq : solve cfg 82 (mkState b) =
          (backtrack cfg 82 { mkState b with domains := d' }).map
            fun r => (r.1, r.2.2.1, r.2.2.2) := by
        rw [solve, if_pos hb3, hac3]
      have hFc1 : FcInv cfg { mkState b with domains := d' } := by
        intro hon
        refine domInv_shrink (mkState b).board (mkState b).domains d' (hFc0 hon) ?_ ?_
        · intro p
          rw [← hd', ac3_loop_contains]
        · intro p
          rw [← hd']
          exact ac3_loop_subset _ _ p
      have hlen1 : (keys d').length < 82 := by
        rw [← hd', ac3_loop_keys]
        exact hlen0
      obtain ⟨r, cc, s', tr, heq, hI, hF, hframe, hfull, htr⟩ :=
        backtrack_master cfg b 82 { mkState b with domains := d' } hInv1 hFc1 hlen1
      refine ⟨r, s', tr, ?_, hI, ?_, hfull, htr⟩
      · rw [hEq, heq]
        rfl
      · intro hr
        exact (hframe hr).1
    · -- initial conflict: unsolvable, board untouched
      have hEq : solve cfg 82 (mkState b) =
          some (false, { mkState b with domains := d' }, []) := by
        rw [solve, if_pos hb3, hac3]
      exact ⟨false, { mkState b with domains := d' }, [], hEq, hInv1,
        fun _ => rfl, fun h => absurd h (by decide), fun e he => absurd he (List.not_mem_nil e)⟩

/-! ### Completeness: a consistent completion of the empty cells is found -/

/-- A consistent completion of the empty cells of `b`: each value in 1–9,
different from every same-unit fixed clue, and pairwise distinct on
same-unit pairs of empty cells.  (Conflicts between two fixed clues are
deliberately not constrained: the engine never re-examines those.) -/
def EmptySol (b : Board) (c : Nat → Nat → Int) : Prop :=
  (∀ p : Pos, p.1 < 9 → p.2 < 9 → cell b p.1 p.2 = 0 →
    1 ≤ c p.1 p.2 ∧ c p.1 p.2 ≤ 9) ∧
  (∀ p q : Pos, p.1 < 9 → p.2 < 9 → q.1 < 9 → q.2 < 9 → cell b p.1 p.2 = 0 →
    cell b q.1 q.2 ≠ 0 → sameUnit p q → c p.1 p.2 ≠ cell b q.1 q.2) ∧
  (∀ p q : Pos, p.1 < 9 → p.2 < 9 → q.1 < 9 → q.2 < 9 → p ≠ q →
    cell b p.1 p.2 = 0 → cell b q.1 q.2 = 0 → sameUnit p q →
    c p.1 p.2 ≠ c q.1 q.2)

/-- The search state follows completion `c`: every value placed on an
originally-empty cell is `c`'s value there, and `c`'s value survives in
every remaining domain. -/
def OnTrack (b0 : Board) (c : Nat → Nat → Int) (s : SState) : Prop :=
  (∀ p : Pos, p.1 < 9 → p.2 < 9 → cell b0 p.1 p.2 = 0 →
    cell s.board p.1 p.2 ≠ 0 → cell s.board p.1 p.2 = c p.1 p.2) ∧
  (∀ p : Pos, dictContains s.domains p = true → c p.1 p.2 ∈ dictGetD s.domains p ∅)

/-- A cell empty in the current board was empty in the original grid. -/
theorem orig_empty (b0 : Board) (s : SState) (hInv : Inv b0 s) (p : Pos)
    (h1 : p.1 < 9) (h2 : p.2 < 9) (h0 : cell s.board p.1 p.2 = 0) :
    cell b0 p.1 p.2 = 0 := by
  by_contra hne
  exact hne (by rw [← hInv.agrees p.1 p.2 h1 h2 hne, h0])

/-- On an on-track state the completion's value for the next variable is
always safe to place. -/
theorem ontrack_safe (b0 : Board) (c : Nat → Nat → Int) (s : SState)
    (hInv : Inv b0 s) (hsol : EmptySol b0 c) (htk : OnTrack b0 c s) (var : Pos)
    (h1 : var.1 < 9) (h2 : var.2 < 9) (h0 : cell s.board var.1 var.2 = 0) :
    is_safe s.board var (c var.1 var.2) = true := by
  have hvar0 : cell b0 var.1 var.2 = 0 := orig_empty b0 s hInv var h1 h2 h0
  have hcr := hsol.1 var h1 h2 hvar0
  rw [is_safe_iff s.board var _ h1 h2]
  intro q hq1 hq2 hsu
  by_cases hqz : cell s.board q.1 q.2 = 0
  · rw [hqz]
    omega
  · have hqvar : q ≠ var := by
      intro h
      rw [h] at hqz
      exact hqz h0
    by_cases hq0 : cell b0 q.1 q.2 = 0
    · rw [htk.1 q hq1 hq2 hq0 hqz]
      exact fun h => hsol.2.2 var q h1 h2 hq1 hq2 (fun hh => hqvar hh.symm)
        hvar0 hq0 (sameUnit_symm q var hsu) h.symm
    · rw [hInv.agrees q.1 q.2 hq1 hq2 hq0]
      exact fun h => hsol.2.1 var q h1 h2 hq1 hq2 hvar0 hq0
        (sameUnit_symm q var hsu) h.symm

/-- On a state satisfying the invariant, the completion is pairwise
distinct across the variables still in the dictionary. -/
theorem ontrack_dist (b0 : Board) (c : Nat → Nat → Int) (s : SState)
    (hInv : Inv b0 s) (hsol : EmptySol b0 c) :
    ∀ p q : Pos, dictContains s.domains p = true → dictContains s.domains q = true →
      p ≠ q → sameUnit p q → c p.1 p.2 ≠ c q.1 q.2 := by
  intro p q hp hq hpq hsu
  obtain ⟨hp1, hp2, hp0⟩ := (hInv.keysEmpty p).1 hp
  obtain ⟨hq1, hq2, hq0⟩ := (hInv.keysEmpty q).1 hq
  exact hsol.2.2 p q hp1 hp2 hq1 hq2 hpq
    (orig_empty b0 s hInv p hp1 hp2 hp0) (orig_empty b0 s hInv q hq1 hq2 hq0) hsu

/-- `c`'s values survive erasing the assigned variable's entry. -/
theorem ontrack_erase (c : Nat → Nat → Int) (d : Domains) (var : Pos)
    (hmem : ∀ p : Pos, dictContains d p = true → c p.1 p.2 ∈ dictGetD d p ∅) :
    ∀ q : Pos, dictContains (dictErase d var) q = true →
      c q.1 q.2 ∈ dictGetD (dictErase d var) q ∅ := by
  intro q hq
  rw [dictContains_dictErase, Bool.and_eq_true, Bool.not_eq_true',
    decide_eq_false_iff_not] at hq
  rw [dictGetD_dictErase, if_neg hq.2]
  exact hmem q hq.1

/-- Assigning the completion's value keeps the board on track. -/
theorem ontrack_board_assign (b0 : Board) (c : Nat → Nat → Int) (s : SState)
    (hInv : Inv b0 s) (htk : OnTrack b0 c s) (var : Pos)
    (h1 : var.1 < 9) (h2 : var.2 < 9) :
    ∀ p : Pos, p.1 < 9 → p.2 < 9 → cell b0 p.1 p.2 = 0 →
      cell (setCell s.board var (c var.1 var.2)) p.1 p.2 ≠ 0 →
      cell (setCell s.board var (c var.1 var.2)) p.1 p.2 = c p.1 p.2 := by
  intro p hp1 hp2 hp0 hpz
  by_cases hpv : p = var
  · subst hpv
    exact cell_setCell_self s.board p _ hInv.shape hp1 hp2
  · rw [cell_setCell_ne s.board var _ p.1 p.2 hpv] at hpz ⊢
    exact htk.1 p hp1 hp2 hp0 hpz

/-- Forward checking with the completion's value never fails and keeps the
completion inside every remaining domain. -/
theorem ontrack_fc (b0 : Board) (c : Nat → Nat → Int) (s : SState)
    (hInv : Inv b0 s) (hsol : EmptySol b0 c) (htk : OnTrack b0 c s) (var : Pos)
    (h1 : var.1 < 9) (h2 : var.2 < 9) (h0 : cell s.board var.1 var.2 = 0)
    (bb : Board) :
    (fc_go bb var (c var.1 var.2) allPositions (dictErase s.domains var)).1 = none ∧
    ∀ q : Pos,
      dictContains (fc_go bb var (c var.1 var.2) allPositions
        (dictErase s.domains var)).2 q = true →
      c q.1 q.2 ∈ dictGetD (fc_go bb var (c var.1 var.2) allPositions
        (dictErase s.domains var)).2 q ∅ := by
  refine fc_go_compat bb var _ allPositions (dictErase s.domains var) c
    (ontrack_erase c s.domains var htk.2) ?_
  intro q hq hpeer
  rw [dictContains_dictErase, Bool.and_eq_true, Bool.not_eq_true',
    decide_eq_false_iff_not] at hq
  obtain ⟨hq1, hq2, hq0⟩ := (hInv.keysEmpty q).1 hq.1
  exact hsol.2.2 q var hq1 hq2 h1 h2 hq.2
    (orig_empty b0 s hInv q hq1 hq2 hq0)
    (orig_empty b0 s hInv var h1 h2 h0) hpeer.2

/-- AC-3 run from an on-track state never reports a conflict and keeps the
completion inside every domain. -/
theorem ontrack_ac3 (b0 : Board) (c : Nat → Nat → Int) (s2 : SState)
    (hInv2 : Inv b0 s2) (hsol : EmptySol b0 c) (hmem2 : ∀ p : Pos,
      dictContains s2.domains p = true → c p.1 p.2 ∈ dictGetD s2.domains p ∅) :
    (ac3_loop s2.domains (get_all_edges s2.domains)).1 = none ∧
    ∀ p : Pos, dictContains (ac3_loop s2.domains (get_all_edges s2.domains)).2 p = true →
      c p.1 p.2 ∈ dictGetD (ac3_loop s2.domains (get_all_edges s2.domains)).2 p ∅ :=
  ac3_loop_compat c s2.domains _ (arcs_initial s2.domains)
    (ontrack_dist b0 c s2 hInv2 hsol) hmem2

/-- Completeness of the search: from an on-track state with enough fuel,
`backtrack_with_conflicts` returns success. -/
theorem backtrack_complete (cfg : Config) (b0 : Board) (c : Nat → Nat → Int)
    (hsol : EmptySol b0 c) (fuel : Nat) (s : SState) :
    Inv b0 s → FcInv cfg s → OnTrack b0 c s → (keys s.domains).length < fuel →
    ∃ s' tr, backtrack cfg fuel s = some (true, ∅, s', tr) := by
  refine backtrack.induct cfg
    (fun fuel s => Inv b0 s → FcInv cfg s → OnTrack b0 c s →
      (keys s.domains).length < fuel →
      ∃ s' tr, backtrack cfg fuel s = some (true, ∅, s', tr))
    (fun fuel var vals s cc tr =>
      Inv b0 s → FcInv cfg s → OnTrack b0 c s → var.1 < 9 → var.2 < 9 →
      cell s.board var.1 var.2 = 0 →
      (∀ w ∈ vals, w ∈ dictGetD s.domains var ∅) →
      c var.1 var.2 ∈ vals →
      (keys s.domains).length ≤ fuel →
      ∃ s' tr', try_values cfg fuel var vals s cc tr = some (true, ∅, s', tr'))
    (fun fuel var v rest s2 sPre cc tr =>
      Inv b0 sPre → FcInv cfg sPre → OnTrack b0 c sPre → var.1 < 9 → var.2 < 9 →
      cell sPre.board var.1 var.2 = 0 →
      (∀ w ∈ rest, w ∈ dictGetD sPre.domains var ∅) →
      (keys sPre.domains).length ≤ fuel →
      Inv b0 s2 → FcInv cfg s2 →
      s2.board = setCell sPre.board var v →
      s2.assignment_order = sPre.assignment_order ++ [var] →
      (keys s2.domains).length < fuel →
      (v = c var.1 var.2 → OnTrack b0 c s2) →
      (v ≠ c var.1 var.2 → c var.1 var.2 ∈ rest) →
      ∃ s' tr', after_fc cfg fuel var v rest s2 sPre cc tr = some (true, ∅, s', tr'))
    (fun fuel var rest s3 sPre cc tr =>
      Inv b0 sPre → FcInv cfg sPre → OnTrack b0 c sPre → var.1 < 9 → var.2 < 9 →
      cell sPre.board var.1 var.2 = 0 →
      (∀ w ∈ rest, w ∈ dictGetD sPre.domains var ∅) →
      (keys sPre.domains).length ≤ fuel →
      Inv b0 s3 → FcInv cfg s3 →
      (∃ v : Int, s3.board = setCell sPre.board var v ∧
        (v = c var.1 var.2 → OnTrack b0 c s3) ∧
        (v ≠ c var.1 var.2 → c var.1 var.2 ∈ rest)) →
      s3.assignment_order = sPre.assignment_order ++ [var] →
      (keys s3.domains).length < fuel →
      ∃ s' tr', do_recurse cfg fuel var rest s3 sPre cc tr = some (true, ∅, s', tr'))
    ?_ ?_ ?_ ?_ ?_ ?_ ?_ ?_ ?_ ?_ ?_ ?_ ?_ ?_ fuel s
  · -- fuel 0
    intro x _ _ _ hlen
    exact absurd hlen (Nat.not_lt_zero _)
  · -- next variable: none (solved)
    intro fuel s hnext hInv hFc htk hlen
    have hEq : backtrack cfg (fuel + 1) s =
        some (true, ∅, s, [TEvent.decision s.board s.domains]) := by
      rw [backtrack, hnext]
    exact ⟨s, [TEvent.decision s.board s.domains], hEq⟩
  · -- next variable: some var
    intro fuel s var hnext ih hInv hFc htk hlen
    have hvf := get_next_variable_some cfg.use_mrv s.board s.domains hInv.keysEmpty var hnext
    have hEq : backtrack cfg (fuel + 1) s =
        try_values cfg fuel var (get_ordered_values cfg.use_lcv s.board s.domains var) s ∅
          [TEvent.decision s.board s.domains] := by
      rw [backtrack, hnext]
    rw [hEq]
    exact ih hInv hFc htk hvf.1 hvf.2.1 hvf.2.2.1
      (fun w hw => (mem_get_ordered_values cfg.use_lcv s.board s.domains var w).1 hw)
      ((mem_get_ordered_values cfg.use_lcv s.board s.domains var _).2
        (htk.2 var hvf.2.2.2))
      (by omega)
  · -- values exhausted: impossible, the completion's value was in the list
    intro fuel var s cc tr hInv hFc htk h1 h2 h0 hsub hcmem hfuel
    exact absurd hcmem (List.not_mem_nil _)
  · -- safe value, forward checking on, forward check fails
    intro fuel var v rest s cc tr hsafe s1 tr1 hfcOn fcc d' hfc sR ih
      hInv hFc htk h1 h2 h0 hsub hcmem hfuel
    by_cases hveq : v = c var.1 var.2
    · exfalso
      have hofc := ontrack_fc b0 c s hInv hsol htk var h1 h2 h0 s1.board
      rw [← hveq] at hofc
      have hfc' : fc_go s1.board var v allPositions (dictErase s.domains var) =
          (some fcc, d') := hfc
      rw [hfc'] at hofc
      exact absurd hofc.1 (by simp)
    · have hcrest : c var.1 var.2 ∈ rest := by
        rcases List.mem_cons.1 hcmem with h | h
        · exact absurd h.symm hveq
        · exact h
      have hsR : sR = s := restore_exact s var v _ hInv.shape h1 h2 h0 rfl rfl
      have hres := ih (by rw [hsR]; exact hInv) (by rw [hsR]; exact hFc)
        (by rw [hsR]; exact htk) h1 h2 (by rw [hsR]; exact h0)
        (by rw [hsR]; exact fun w hw => hsub w (List.mem_cons_of_mem v hw))
        hcrest (by rw [hsR]; exact hfuel)
      have hEq : try_values cfg fuel var (v :: rest) s cc tr =
          try_values cfg fuel var rest sR (cc ∪ fcc.erase var)
            (tr1 ++ [TEvent.fcFail var v fcc s1.domains, TEvent.restore sR.board]) := by
        rw [try_values, if_pos hsafe, if_pos hfcOn, hfc]
      rw [hEq]
      exact hres
  · -- safe value, forward checking on, forward check succeeds
    intro fuel var v rest s cc tr hsafe s1 tr1 hfcOn d' hfc ih
      hInv hFc htk h1 h2 h0 hsub hcmem hfuel
    have hv : v ∈ dictGetD s.domains var ∅ := hsub v (List.mem_cons_self v rest)
    have hInv1 : Inv b0 s1 := inv_assign b0 s var v hInv h1 h2 h0 hv hsafe
    have hnone : (fc_go s1.board var v allPositions s1.domains).1 = none :=
      congrArg Prod.fst hfc
    have hd' : (fc_go s1.board var v allPositions s1.domains).2 = d' :=
      congrArg Prod.snd hfc
    have hcontains : dictContains s.domains var = true :=
      (hInv.keysEmpty var).2 ⟨h1, h2, h0⟩
    have hInv2 : Inv b0 { s1 with domains := d' } := by
      refine inv_shrink_domains b0 s1 d' hInv1 ?_ ?_
      · intro p
        rw [← hd', fc_go_contains]
      · intro p
        rw [← hd']
        exact fc_go_none_subset _ _ _ _ _ hnone p
    have hFc2 : FcInv cfg { s1 with domains := d' } := by
      intro hon
      exact fc_none_domInv b0 s var v d' hInv h1 h2 h0 (hFc hon) hfc
    have hklen : (keys d').length < fuel := by
      rw [← hd', fc_go_keys]
      show (keys (dictErase s.domains var)).length < fuel
      have := length_keys_dictErase_lt s.domains var hcontains
      omega
    have htrack2 : v = c var.1 var.2 → OnTrack b0 c { s1 with domains := d' } := by
      intro hveq
      constructor
      · have hb := ontrack_board_assign b0 c s hInv htk var h1 h2
        rw [← hveq] at hb
        exact hb
      · have hofc := ontrack_fc b0 c s hInv hsol htk var h1 h2 h0 s1.board
        rw [← hveq] at hofc
        have hfc2 : fc_go s1.board var v allPositions (dictErase s.domains var) =
            (none, d') := hfc
        rw [hfc2] at hofc
        exact hofc.2
    have hrest2 : v ≠ c var.1 var.2 → c var.1 var.2 ∈ rest := by
      intro hvne
      rcases List.mem_cons.1 hcmem with h | h
      · exact absurd h.symm hvne
      · exact h
    have hEq : try_values cfg fuel var (v :: rest) s cc tr =
        after_fc cfg fuel var v rest { s1 with domains := d' } s cc tr1 := by
      rw [try_values, if_pos hsafe, if_pos hfcOn, hfc]
    rw [hEq]
    exact ih hInv hFc htk h1 h2 h0
      (fun w hw => hsub w (List.mem_cons_of_mem v hw)) hfuel
      hInv2 hFc2 rfl rfl hklen htrack2 hrest2
  · -- safe value, forward checking off
    intro fuel var v rest s cc tr hsafe s1 tr1 hfcOff ih
      hInv hFc htk h1 h2 h0 hsub hcmem hfuel
    have hv : v ∈ dictGetD s.domains var ∅ := hsub v (List.mem_cons_self v rest)
    have hInv1 : Inv b0 s1 := inv_assign b0 s var v hInv h1 h2 h0 hv hsafe
    have hcontains : dictContains s.domains var = true :=
      (hInv.keysEmpty var).2 ⟨h1, h2, h0⟩
    have hklen : (keys s1.domains).length < fuel := by
      have := length_keys_dictErase_lt s.domains var hcontains
      show (keys (dictErase s.domains var)).length < fuel
      omega
    have htrack1 : v = c var.1 var.2 → OnTrack b0 c s1 := by
      intro hveq
      constructor
      · have hb := ontrack_board_assign b0 c s hInv htk var h1 h2
        rw [← hveq] at hb
        exact hb
      · exact ontrack_erase c s.domains var htk.2
    have hrest1 : v ≠ c var.1 var.2 → c var.1 var.2 ∈ rest := by
      intro hvne
      rcases List.mem_cons.1 hcmem with h | h
      · exact absurd h.symm hvne
      · exact h
    have hEq : try_values cfg fuel var (v :: rest) s cc tr =
        after_fc cfg fuel var v rest s1 s cc tr1 := by
      rw [try_values, if_pos hsafe, if_neg hfcOff]
    rw [hEq]
    exact ih hInv hFc htk h1 h2 h0
      (fun w hw => hsub w (List.mem_cons_of_mem v hw)) hfuel
      hInv1 (fun hon => absurd hon hfcOff) rfl rfl hklen htrack1 hrest1
  · -- unsafe value: cannot be the completion's value
    intro fuel var v rest s cc tr hunsafe ih
      hInv hFc htk h1 h2 h0 hsub hcmem hfuel
    have hvne : v ≠ c var.1 var.2 := by
      intro hveq
      apply hunsafe
      rw [hveq]
      exact ontrack_safe b0 c s hInv hsol htk var h1 h2 h0
    have hcrest : c var.1 var.2 ∈ rest := by
      rcases List.mem_cons.1 hcmem with h | h
      · exact absurd h.symm hvne
      · exact h
    have hEq : try_values cfg fuel var (v :: rest) s cc tr =
        try_values cfg fuel var rest s cc tr := by
      rw [try_values, if_neg hunsafe]
    rw [hEq]
    exact ih hInv hFc htk h1 h2 h0
      (fun w hw => hsub w (List.mem_cons_of_mem v hw)) hcrest hfuel
  · -- AC-3 on, AC-3 fails: only possible off track
    intro fuel var v rest s2 sPre cc tr hac3On fcc d' hac3 sR ih
      hInvP hFcP htkP h1 h2 h0 hsub hfuel hInv2 hFc2 hb2 hao2 hklen htrack2 hrest2
    by_cases hveq : v = c var.1 var.2
    · exfalso
      have hcomp := ontrack_ac3 b0 c s2 hInv2 hsol (htrack2 hveq).2
      have hac3' : ac3_loop s2.domains (get_all_edges s2.domains) = (some fcc, d') := hac3
      rw [hac3'] at hcomp
      exact absurd hcomp.1 (by simp)
    · have hcrest := hrest2 hveq
      have hsR : sR = sPre :=
        restore_exact sPre var v _ hInvP.shape h1 h2 h0 hb2 hao2
      have hres := ih (by rw [hsR]; exact hInvP) (by rw [hsR]; exact hFcP)
        (by rw [hsR]; exact htkP) h1 h2 (by rw [hsR]; exact h0)
        (by rw [hsR]; exact hsub) hcrest
        (by rw [hsR]; exact hfuel)
      have hEq : after_fc cfg fuel var v rest s2 sPre cc tr =
          try_values cfg fuel var rest sR (cc ∪ fcc.erase var)
            (tr ++ [TEvent.restore sR.board]) := by
        rw [after_fc, if_pos hac3On, hac3]
      rw [hEq]
      exact hres
  · -- AC-3 on, AC-3 succeeds
    intro fuel var v rest s2 sPre cc tr hac3On d' hac3 ih
      hInvP hFcP htkP h1 h2 h0 hsub hfuel hInv2 hFc2 hb2 hao2 hklen htrack2 hrest2
    have hac3' : ac3_loop s2.domains (get_all_edges s2.domains) = (none, d') := hac3
    have hd' : (ac3_loop s2.domains (get_all_edges s2.domains)).2 = d' :=
      congrArg Prod.snd hac3'
    have hInv3 : Inv b0 { s2 with domains := d' } := by
      refine inv_shrink_domains b0 s2 d' hInv2 ?_ ?_
      · intro p
        rw [← hd', ac3_loop_contains]
      · intro p
        rw [← hd']
        exact ac3_loop_subset _ _ p
    have hFc3 : FcInv cfg { s2 with domains := d' } := by
      intro hon
      refine domInv_shrink s2.board s2.domains d' (hFc2 hon) ?_ ?_
      · intro p
        rw [← hd', ac3_loop_contains]
      · intro p
        rw [← hd']
        exact ac3_loop_subset _ _ p
    have hklen3 : (keys d').length < fuel := by
      rw [← hd', ac3_loop_keys]
      exact hklen
    have htrack3 : v = c var.1 var.2 → OnTrack b0 c { s2 with domains := d' } := by
      intro hveq
      refine ⟨(htrack2 hveq).1, ?_⟩
      have hcomp := ontrack_ac3 b0 c s2 hInv2 hsol (htrack2 hveq).2
      rw [hac3'] at hcomp
      exact hcomp.2
    have hEq : after_fc cfg fuel var v rest s2 sPre cc tr =
        do_recurse cfg fuel var rest { s2 with domains := d' } sPre cc tr := by
      rw [after_fc, if_pos hac3On, hac3]
    rw [hEq]
    exact ih hInvP hFcP htkP h1 h2 h0 hsub hfuel hInv3 hFc3
      ⟨v, hb2, htrack3, hrest2⟩ hao2 hklen3
  · -- AC-3 off
    intro fuel var v rest s2 sPre cc tr hac3Off ih
      hInvP hFcP htkP h1 h2 h0 hsub hfuel hInv2 hFc2 hb2 hao2 hklen htrack2 hrest2
    have hEq : after_fc cfg fuel var v rest s2 sPre cc tr =
        do_recurse cfg fuel var rest s2 sPre cc tr := by
      rw [after_fc, if_neg hac3Off]
    rw [hEq]
    exact ih hInvP hFcP htkP h1 h2 h0 hsub hfuel hInv2 hFc2
      ⟨v, hb2, htrack2, hrest2⟩ hao2 hklen
  · -- recursion returned none: impossible under the fuel bound
    intro fuel var rest s3 sPre cc tr hbt ih
      hInvP hFcP htkP h1 h2 h0 hsub hfuel hInv3 hFc3 hex hao3 hklen
    obtain ⟨r, cc2, s4, tr4, heq, -⟩ := backtrack_master cfg b0 fuel s3 hInv3 hFc3 hklen
    rw [hbt] at heq
    exact absurd heq (by simp)
  · -- recursion succeeded
    intro fuel var rest s3 sPre cc tr fst s4 tr4 hbt ih
      hInvP hFcP htkP h1 h2 h0 hsub hfuel hInv3 hFc3 hex hao3 hklen
    have hEq : do_recurse cfg fuel var rest s3 sPre cc tr =
        some (true, ∅, s4, tr ++ tr4) := by
      rw [do_recurse, hbt]
    exact ⟨s4, tr ++ tr4, hEq⟩
  · -- recursion failed: the tried value was off track; restore and continue
    intro fuel var rest s3 sPre cc tr ncc s4 tr4 hbt sR ih ih2
      hInvP hFcP htkP h1 h2 h0 hsub hfuel hInv3 hFc3 hex hao3 hklen
    obtain ⟨v, hbv, htrack3, hrest3⟩ := hex
    by_cases hveq : v = c var.1 var.2
    · exfalso
      obtain ⟨s', tr', heq⟩ := ih hInv3 hFc3 (htrack3 hveq) hklen
      rw [hbt] at heq
      simp only [Option.some_inj, Prod.mk.injEq] at heq
      exact absurd heq.1 (by decide)
    · have hcrest := hrest3 hveq
      obtain ⟨r, cc2, s4', tr4', heq, hI4, hF4, hframe4, hfull4, htr4⟩ :=
        backtrack_master cfg b0 fuel s3 hInv3 hFc3 hklen
      rw [hbt] at heq
      simp only [Option.some_inj, Prod.mk.injEq] at heq
      obtain ⟨hr, hcc, hs4, htr4eq⟩ := heq
      have hframe := hframe4 hr.symm
      rw [← hs4] at hframe
      have hsR : sR = sPre := by
        refine restore_exact sPre var v s4 hInvP.shape h1 h2 h0 ?_ ?_
        · rw [hframe.1, hbv]
        · rw [hframe.2.2, hao3]
      have hres := ih2 (by rw [hsR]; exact hInvP) (by rw [hsR]; exact hFcP)
        (by rw [hsR]; exact htkP) h1 h2 (by rw [hsR]; exact h0)
        (by rw [hsR]; exact hsub) hcrest
        (by rw [hsR]; exact hfuel)
      have hEq : do_recurse cfg fuel var rest s3 sPre cc tr =
          try_values cfg fuel var rest sR (cc ∪ ncc.erase var)
            (tr ++ tr4 ++ [TEvent.restore sR.board]) := by
        rw [do_recurse, hbt]
      rw [hEq]
      exact hres

/-- The freshly constructed solver state is on track for any consistent
completion. -/
theorem ontrack_mkState (b : Board) (c : Nat → Nat → Int) (hsol : EmptySol b c) :
    OnTrack b c (mkState b) := by
  constructor
  · intro p hp1 hp2 hp0 hpz
    exact absurd hp0 hpz
  · intro p hp
    have hpf := (dictContains_init_domains b p).1 hp
    show c p.1 p.2 ∈ dictGetD (initialize_domains b) p ∅
    rw [dictGetD_init_domains, if_pos hpf,
      mem_update_domain b p fullDomain _ hpf.1 hpf.2.1]
    constructor
    · rw [fullDomain, Finset.mem_Icc]
      exact hsol.1 p hpf.1 hpf.2.1 hpf.2.2
    · intro q hq1 hq2 hsu hqz
      exact fun h => hsol.2.1 p q hpf.1 hpf.2.1 hq1 hq2 hpf.2.2 hqz
        (sameUnit_symm q p hsu) h.symm

/-- Completeness of `solve()`: whenever a consistent completion of the
empty cells exists, the run reports success — under every configuration. -/
theorem solve_complete (cfg : Config) (b : Board) (hv : is_valid_board b = true)
    (c : Nat → Nat → Int) (hsol : EmptySol b c) :
    solveResult cfg b = some true := by
  have hInv0 : Inv b (mkState b) := inv_mkState b hv
  have hFc0 : FcInv cfg (mkState b) := fun _ => domInv_mkState b hv
  have htk0 : OnTrack b c (mkState b) := ontrack_mkState b c hsol
  have hlen0 : (keys (mkState b).domains).length < 82 := by
    have := keys_initialize_length_le b
    show (keys (initialize_domains b)).length < 82
    omega
  rcases hb3 : cfg.use_ac3 with _ | _
  · obtain ⟨s', tr, heq⟩ :=
      backtrack_complete cfg b c hsol 82 (mkState b) hInv0 hFc0 htk0 hlen0
    have hEq : solve cfg 82 (mkState b) =
        (backtrack cfg 82 (mkState b)).map fun r => (r.1, r.2.2.1, r.2.2.2) := by
      rw [solve, if_neg (by rw [hb3]; exact fun h => absurd h (by decide))]
    rw [solveResult, hEq, heq]
    rfl
  · rcases hac3 : ac3_with_conflicts (mkState b).domains with ⟨o, d'⟩
    have hac3' : ac3_loop (mkState b).domains (get_all_edges (mkState b).domains) =
        (o, d') := hac3
    have hcomp := ontrack_ac3 b c (mkState b) hInv0 hsol htk0.2
    rw [hac3'] at hcomp
    rcases o with _ | cset
    · have hd' : (ac3_loop (mkState b).domains
          (get_all_edges (mkState b).domains)).2 = d' := congrArg Prod.snd hac3'
      have hInv1 : Inv b { mkState b with domains := d' } := by
        refine inv_shrink_domains b (mkState b) d' hInv0 ?_ ?_
        · intro p
          rw [← hd', ac3_loop_contains]
        · intro p
          rw [← hd']
          exact ac3_loop_subset _ _ p
      have hFc1 : FcInv cfg { mkState b with domains := d' } := by
        intro hon
        refine domInv_shrink (mkState b).board (mkState b).domains d' (hFc0 hon) ?_ ?_
        · intro p
          rw [← hd', ac3_loop_contains]
        · intro p
          rw [← hd']
          exact ac3_loop_subset _ _ p
      have htk1 : OnTrack b c { mkState b with domains := d' } :=
        ⟨htk0.1, hcomp.2⟩
      have hlen1 : (keys d').length < 82 := by
        rw [← hd', ac3_loop_keys]
        exact hlen0
      obtain ⟨s', tr, heq⟩ := backtrack_complete cfg b c hsol 82
        { mkState b with domains := d' } hInv1 hFc1 htk1 hlen1
      have hEq : solve cfg 82 (mkState b) =
          (backtrack cfg 82 { mkState b with domains := d' }).map
            fun r => (r.1, r.2.2.1, r.2.2.2) := by
        rw [solve, if_pos hb3, hac3]
      rw [solveResult, hEq, heq]
      rfl
    · exact absurd hcomp.1 (by simp)

/-- Soundness of `solve()`: a successful run exhibits a consistent
completion of the empty cells (the final grid itself). -/
theorem solve_sound (cfg : Config) (b : Board) (hv : is_valid_board b = true)
    (h : solveResult cfg b = some true) : ∃ c : Nat → Nat → Int, EmptySol b c := by
  obtain ⟨r, s', tr, heq, hI, hfail, hfull, htr⟩ := solve_master cfg b hv
  have hr : r = true := by
    rw [solveResult, heq] at h
    simpa using h
  have hF : Full s'.board := hfull hr
  refine ⟨fun i j => cell s'.board i j, ?_, ?_, ?_⟩
  · intro p hp1 hp2 hp0
    have h1 := hF p hp1 hp2
    obtain ⟨h2a, h2b⟩ := hI.cellRange p.1 p.2
    show 1 ≤ cell s'.board p.1 p.2 ∧ cell s'.board p.1 p.2 ≤ 9
    omega
  · intro p q hp1 hp2 hq1 hq2 hp0 hq0 hsu
    have hpq : p ≠ q := fun hh => hq0 (hh ▸ hp0)
    have hcq : cell s'.board q.1 q.2 = cell b q.1 q.2 := hI.agrees q.1 q.2 hq1 hq2 hq0
    rw [← hcq]
    exact hI.placed p q hp1 hp2 hq1 hq2 hpq hsu (Or.inl hp0)
      (hF p hp1 hp2) (hF q hq1 hq2)
  · intro p q hp1 hp2 hq1 hq2 hpq hp0 hq0 hsu
    exact hI.placed p q hp1 hp2 hq1 hq2 hpq hsu (Or.inl hp0)
      (hF p hp1 hp2) (hF q hq1 hq2)

/-- `solve()` always answers on a valid board (helper form). -/
theorem solve_total (cfg : Config) (b : Board) (hv : is_valid_board b = true) :
    ∃ r : Bool, solveResult cfg b = some r := by
  obtain ⟨r, s', tr, heq, -⟩ := solve_master cfg b hv
  refine ⟨r, ?_⟩
  rw [solveResult, heq]
  rfl

/-! ### From a full conflict-free grid to `validate_solution` -/

/-- Nine pairwise-distinct values in 1–9 hit every value of 1–9. -/
theorem exists_of_nine_distinct (f : Nat → Int)
    (hrange : ∀ j, j < 9 → f j ∈ Finset.Icc (1 : Int) 9)
    (hinj : ∀ j k, j < 9 → k < 9 → j ≠ k → f j ≠ f k) :
    ∀ x : Int, x ∈ Finset.Icc (1 : Int) 9 → ∃ j, j < 9 ∧ f j = x := by
  have himg : (Finset.range 9).image f ⊆ Finset.Icc (1 : Int) 9 := by
    intro x hx
    rw [Finset.mem_image] at hx
    obtain ⟨j, hj, hfj⟩ := hx
    exact hfj ▸ hrange j (Finset.mem_range.1 hj)
  have hcard : ((Finset.range 9).image f).card = 9 := by
    rw [Finset.card_image_of_injOn, Finset.card_range]
    intro a ha b hb hab
    by_contra hne
    exact hinj a b (Finset.mem_range.1 (by exact ha)) (Finset.mem_range.1 (by exact hb))
      hne hab
  have heq : (Finset.range 9).image f = Finset.Icc (1 : Int) 9 :=
    Finset.eq_of_subset_of_card_le himg (by rw [hcard]; rfl)
  intro x hx
  rw [← heq, Finset.mem_image] at hx
  obtain ⟨j, hj, hfj⟩ := hx
  exact ⟨j, Finset.mem_range.1 hj, hfj⟩

/-- A full 9×9 grid with values in range and no same-unit conflict passes
the containment test of `validate_solution`. -/
theorem validate_solution_of (b : Board) (hs : Shape9 b) (hful : Full b)
    (hok : BoardOK b) (hrange : ∀ i j, 0 ≤ cell b i j ∧ cell b i j ≤ 9) :
    validate_solution b = true := by
  have hcellIcc : ∀ i j, i < 9 → j < 9 → cell b i j ∈ Finset.Icc (1 : Int) 9 := by
    intro i j hi hj
    have h1 : cell b i j ≠ 0 := hful (i, j) hi hj
    obtain ⟨h2, h3⟩ := hrange i j
    rw [Finset.mem_Icc]
    exact ⟨by omega, h3⟩
  unfold validate_solution
  rw [Bool.and_eq_true, Bool.and_eq_true]
  refine ⟨⟨?_, ?_⟩, ?_⟩
  · -- every row contains every value
    rw [List.all_eq_true]
    intro row hrow
    rw [List.all_eq_true]
    intro x hx
    have hxI : x ∈ Finset.Icc (1 : Int) 9 := by
      rw [Finset.mem_Icc]
      fin_cases hx <;> norm_num
    obtain ⟨i, hi, hbi⟩ := List.mem_iff_getElem.1 hrow
    have hi9 : i < 9 := by
      rw [hs.1] at hi
      exact hi
    have hrowlen : row.length = 9 := hs.2 row hrow
    obtain ⟨j, hj, hfj⟩ := exists_of_nine_distinct (fun j => cell b i j)
      (fun j hj => hcellIcc i j hi9 hj)
      (fun j k hj hk hjk => hok (i, j) (i, k) hi9 hj hi9 hk
        (fun h => hjk (congrArg Prod.snd h)) (Or.inl rfl)
        (hful (i, j) hi9 hj) (hful (i, k) hi9 hk))
      x hxI
    rw [List.elem_iff]
    have hbg : b.getD i [] = row := by
      rw [getD_in_range b i hi, hbi]
    have hcell2 : cell b i j = row.getD j 0 := by
      unfold cell
      rw [hbg]
    have hjr : j < row.length := by omega
    rw [← hfj]
    show cell b i j ∈ row
    rw [hcell2, List.getD_eq_getElem row 0 hjr]
    exact List.getElem_mem hjr
  · -- every column contains every value
    rw [List.all_eq_true]
    intro col hcol
    rw [List.all_eq_true]
    intro x hx
    have hcol9 : col < 9 := List.mem_range.1 hcol
    have hxI : x ∈ Finset.Icc (1 : Int) 9 := by
      rw [Finset.mem_Icc]
      fin_cases hx <;> norm_num
    obtain ⟨i, hi, hfi⟩ := exists_of_nine_distinct (fun i => cell b i col)
      (fun i hi => hcellIcc i col hi hcol9)
      (fun i k hi hk hik => hok (i, col) (k, col) hi hcol9 hk hcol9
        (fun h => hik (congrArg Prod.fst h)) (Or.inr (Or.inl rfl))
        (hful (i, col) hi hcol9) (hful (k, col) hk hcol9))
      x hxI
    rw [List.elem_iff, List.mem_map]
    exact ⟨i, List.mem_range.2 hi, hfi⟩
  · -- every box contains every value
    rw [List.all_eq_true]
    intro boxRow hbR
    rw [List.all_eq_true]
    intro boxCol hbC
    rw [List.all_eq_true]
    intro x hx
    have hbR3 : boxRow = 0 ∨ boxRow = 3 ∨ boxRow = 6 := by simpa using hbR
    have hbC3 : boxCol = 0 ∨ boxCol = 3 ∨ boxCol = 6 := by simpa using hbC
    have hxI : x ∈ Finset.Icc (1 : Int) 9 := by
      rw [Finset.mem_Icc]
      fin_cases hx <;> norm_num
    obtain ⟨k, hk, hfk⟩ := exists_of_nine_distinct
      (fun k => cell b (boxRow + k / 3) (boxCol + k % 3))
      (fun k hk => hcellIcc (boxRow + k / 3) (boxCol + k % 3)
        (by omega) (by omega))
      (fun k k' hk hk' hkk' => hok (boxRow + k / 3, boxCol + k % 3)
        (boxRow + k' / 3, boxCol + k' % 3) (by omega) (by omega) (by omega) (by omega)
        (fun h => hkk' (by
          have h1 := congrArg Prod.fst h
          have h2 := congrArg Prod.snd h
          simp only at h1 h2
          omega))
        (Or.inr (Or.inr ⟨by omega, by omega⟩))
        (hful _ (by omega) (by omega)) (hful _ (by omega) (by omega)))
      x hxI
    rw [List.elem_iff, List.mem_flatMap]
    refine ⟨k / 3, List.mem_range.2 (by omega), ?_⟩
    rw [List.mem_map]
    exact ⟨k % 3, List.mem_range.2 (by omega), hfk⟩

/-- Original conflict-free clues plus clue preservation and no new
conflicts gives a conflict-free grid. -/
theorem boardOK_final (b0 b : Board) (hok : BoardOK b0) (hag : Agrees b0 b)
    (hpl : PlacedOK b0 b) : BoardOK b := by
  intro p q hp1 hp2 hq1 hq2 hpq hsu hpz hqz
  by_cases hp0 : cell b0 p.1 p.2 = 0
  · exact hpl p q hp1 hp2 hq1 hq2 hpq hsu (Or.inl hp0) hpz hqz
  · by_cases hq0 : cell b0 q.1 q.2 = 0
    · exact hpl p q hp1 hp2 hq1 hq2 hpq hsu (Or.inr hq0) hpz hqz
    · rw [hag p.1 p.2 hp1 hp2 hp0, hag q.1 q.2 hq1 hq2 hq0]
      exact hok p q hp1 hp2 hq1 hq2 hpq hsu hp0 hq0

/-- `BoardOK` from its decidable restriction to the 81 grid positions. -/
theorem boardOK_of_ball (b : Board)
    (h : ∀ p ∈ allPositions, ∀ q ∈ allPositions, p ≠ q → sameUnit p q →
      cell b p.1 p.2 ≠ 0 → cell b q.1 q.2 ≠ 0 →
      cell b p.1 p.2 ≠ cell b q.1 q.2) : BoardOK b := by
  intro p q hp1 hp2 hq1 hq2 hpq hsu
  exact h p ((mem_allPositions p).2 ⟨hp1, hp2⟩) q ((mem_allPositions q).2 ⟨hq1, hq2⟩)
    hpq hsu

/-! ### Single-step evaluation equations for concrete runs -/

/-- The state after `board[var] := v`; `domains.pop(var)`;
`assignment_order.append(var)`. -/
def assignState (s : SState) (var : Pos) (v : Int) : SState :=
  { board := setCell s.board var v
    domains := dictErase s.domains var
    conflict_sets := s.conflict_sets
    assignment_order := s.assignment_order ++ [var] }

theorem backtrack_done (cfg : Config) (fuel : Nat) (s : SState)
    (h : get_next_variable cfg.use_mrv s.board s.domains = none) :
    backtrack cfg (fuel + 1) s =
      some (true, ∅, s, [TEvent.decision s.board s.domains]) := by
  rw [backtrack, h]

theorem backtrack_var (cfg : Config) (fuel : Nat) (s : SState) (var : Pos)
    (h : get_next_variable cfg.use_mrv s.board s.domains = some var) :
    backtrack cfg (fuel + 1) s =
      try_values cfg fuel var (get_ordered_values cfg.use_lcv s.board s.domains var)
        s ∅ [TEvent.decision s.board s.domains] := by
  rw [backtrack, h]

theorem try_values_nil (cfg : Config) (fuel : Nat) (var : Pos) (s : SState)
    (cc : Finset Pos) (tr : List TEvent) :
    try_values cfg fuel var [] s cc tr =
      some (false, cc, { s with conflict_sets := dictSet s.conflict_sets var cc },
        tr) := by
  rw [try_values]

theorem try_values_unsafe (cfg : Config) (fuel : Nat) (var : Pos) (v : Int)
    (rest : List Int) (s : SState) (cc : Finset Pos) (tr : List TEvent)
    (h : ¬ is_safe s.board var v = true) :
    try_values cfg fuel var (v :: rest) s cc tr =
      try_values cfg fuel var rest s cc tr := by
  rw [try_values, if_neg h]

theorem try_values_safe_nofc (cfg : Config) (fuel : Nat) (var : Pos) (v : Int)
    (rest : List Int) (s : SState) (cc : Finset Pos) (tr : List TEvent)
    (hsafe : is_safe s.board var v = true)
    (hfc : ¬ cfg.use_forward_checking = true) :
    try_values cfg fuel var (v :: rest) s cc tr =
      after_fc cfg fuel var v rest (assignState s var v) s cc
        (tr ++ [TEvent.assign var v (assignState s var v).board]) := by
  rw [try_values, if_pos hsafe, if_neg hfc]
  rfl

theorem try_values_safe_fcfail (cfg : Config) (fuel : Nat) (var : Pos) (v : Int)
    (rest : List Int) (s : SState) (cc : Finset Pos) (tr : List TEvent)
    (fcc : Finset Pos) (d' : Domains)
    (hsafe : is_safe s.board var v = true)
    (hfcOn : cfg.use_forward_checking = true)
    (hfc : forward_check_with_conflicts
      ({ board := setCell s.board var v, domains := dictErase s.domains var,
         conflict_sets := s.conflict_sets,
         assignment_order := s.assignment_order ++ [var] } : SState).board
      ({ board := setCell s.board var v, domains := dictErase s.domains var,
         conflict_sets := s.conflict_sets,
         assignment_order := s.assignment_order ++ [var] } : SState).domains
      var v = (some fcc, d')) :
    try_values cfg fuel var (v :: rest) s cc tr =
      try_values cfg fuel var rest
        (restore_state { assignState s var v with domains := d' } var
          s.domains s.conflict_sets)
        (cc ∪ fcc.erase var)
        ((tr ++ [TEvent.assign var v (assignState s var v).board]) ++
          [TEvent.fcFail var v fcc (assignState s var v).domains,
           TEvent.restore (restore_state { assignState s var v with domains := d' }
             var s.domains s.conflict_sets).board]) := by
  rw [try_values, if_pos hsafe, if_pos hfcOn, hfc]
  rfl

theorem after_fc_noac3 (cfg : Config) (fuel : Nat) (var : Pos) (v : Int)
    (rest : List Int) (s2 sPre : SState) (cc : Finset Pos) (tr : List TEvent)
    (h : ¬ cfg.use_ac3 = true) :
    after_fc cfg fuel var v rest s2 sPre cc tr =
      do_recurse cfg fuel var rest s2 sPre cc tr := by
  rw [after_fc, if_neg h]

theorem do_recurse_true (cfg : Config) (fuel : Nat) (var : Pos) (rest : List Int)
    (s3 sPre : SState) (cc : Finset Pos) (tr : List TEvent)
    (cc' : Finset Pos) (s4 : SState) (tr4 : List TEvent)
    (h : backtrack cfg fuel s3 = some (true, cc', s4, tr4)) :
    do_recurse cfg fuel var rest s3 sPre cc tr = some (true, ∅, s4, tr ++ tr4) := by
  rw [do_recurse, h]

theorem do_recurse_false (cfg : Config) (fuel : Nat) (var : Pos) (rest : List Int)
    (s3 sPre : SState) (cc : Finset Pos) (tr : List TEvent)
    (ncc : Finset Pos) (s4 : SState) (tr4 : List TEvent)
    (h : backtrack cfg fuel s3 = some (false, ncc, s4, tr4)) :
    do_recurse cfg fuel var rest s3 sPre cc tr =
      try_values cfg fuel var rest
        (restore_state s4 var sPre.domains sPre.conflict_sets)
        (cc ∪ ncc.erase var)
        (tr ++ tr4 ++ [TEvent.restore
          (restore_state s4 var sPre.domains sPre.conflict_sets).board]) := by
  rw [do_recurse, h]

theorem solve_noac3 (cfg : Config) (fuel : Nat) (s : SState)
    (h : ¬ cfg.use_ac3 = true) :
    solve cfg fuel s =
      (backtrack cfg fuel s).map fun r => (r.1, r.2.2.1, r.2.2.2) := by
  rw [solve, if_neg h]

/-! ### Concrete boards, configurations and runs -/

set_option maxRecDepth 10000

/-- All four techniques disabled. -/
def cfgNone : Config := ⟨false, false, false, false⟩

/-- Only forward checking enabled. -/
def cfgFCOnly : Config := ⟨false, true, false, false⟩

/-- All four techniques enabled (the default configuration of `run.py`). -/
def cfgAll : Config := ⟨true, true, true, true⟩

/-- A well-shaped, in-range grid whose clues all conflict wildly: accepted
by `is_valid_board`, already full, yet no Sudoku solution. -/
def allOnes : Board := List.replicate 9 (List.replicate 9 (1 : Int))

/-- A complete, conflict-free Sudoku grid. -/
def grid0 : Board :=
  [[1, 2, 3, 4, 5, 6, 7, 8, 9],
   [4, 5, 6, 7, 8, 9, 1, 2, 3],
   [7, 8, 9, 1, 2, 3, 4, 5, 6],
   [2, 1, 4, 3, 6, 5, 8, 9, 7],
   [3, 6, 5, 8, 9, 7, 2, 1, 4],
   [8, 9, 7, 2, 1, 4, 3, 6, 5],
   [5, 3, 1, 6, 4, 2, 9, 7, 8],
   [6, 4, 2, 9, 7, 8, 5, 3, 1],
   [9, 7, 8, 5, 3, 1, 6, 4, 2]]

/-- Two empty cells at (0,0) and (0,1), both with domain {1}: the first
assignment makes the second impossible — forward checking detects it,
plain backtracking discovers it one level deeper. -/
def fcBoard : Board :=
  [[0, 0, 3, 4, 5, 6, 7, 8, 9],
   [2, 2, 2, 2, 2, 2, 2, 2, 2],
   [9, 9, 9, 9, 9, 9, 9, 9, 9],
   [9, 9, 9, 9, 9, 9, 9, 9, 9],
   [9, 9, 9, 9, 9, 9, 9, 9, 9],
   [9, 9, 9, 9, 9, 9, 9, 9, 9],
   [9, 9, 9, 9, 9, 9, 9, 9, 9],
   [9, 9, 9, 9, 9, 9, 9, 9, 9],
   [9, 9, 9, 9, 9, 9, 9, 9, 9]]

/-- Concrete evaluation of `get_ordered_values` on a singleton domain
(`Finset.sort` is defined by well-founded recursion and does not reduce
definitionally). -/
theorem gov_singleton (useLcv : Bool) (hl : useLcv = false) (b : Board)
    (d : Domains) (var : Pos) (v : Int) (h : dictGetD d var ∅ = {v}) :
    get_ordered_values useLcv b d var = [v] := by
  rw [get_ordered_values, if_pos (by rw [hl]; decide), h, Finset.sort_singleton]

theorem grid0_boardOK : BoardOK grid0 :=
  boardOK_of_ball grid0 (by decide)

theorem grid0_full : Full grid0 := by
  intro p hp1 hp2
  have h : ∀ q ∈ allPositions, cell grid0 q.1 q.2 ≠ 0 := by decide
  exact h p ((mem_allPositions p).2 ⟨hp1, hp2⟩)

/-- Run of `solve` on the all-ones board with no techniques: no empty
cell, immediate success, board untouched. -/
theorem allOnes_run : solve cfgNone 82 (mkState allOnes) =
    some (true, mkState allOnes,
      [TEvent.decision allOnes (initialize_domains allOnes)]) := by
  have h1 : backtrack cfgNone 82 (mkState allOnes) =
      some (true, ∅, mkState allOnes,
        [TEvent.decision allOnes (initialize_domains allOnes)]) := by
    show backtrack cfgNone (81 + 1) (mkState allOnes) = _
    exact backtrack_done cfgNone 81 (mkState allOnes) (by decide)
  rw [solve_noac3 cfgNone 82 (mkState allOnes) (by decide), h1]
  rfl

theorem allOnes_result : solveResult cfgNone allOnes = some true := by
  rw [solveResult, allOnes_run]
  rfl

theorem allOnes_board : solveBoard cfgNone allOnes = allOnes := by
  rw [solveBoard, allOnes_run]
  rfl

theorem allOnes_trace : solveTrace cfgNone allOnes =
    [TEvent.decision allOnes (initialize_domains allOnes)] := by
  rw [solveTrace, allOnes_run]
  rfl

/-- Run of `solve` on the complete grid: immediate success. -/
theorem grid0_run : solve cfgNone 82 (mkState grid0) =
    some (true, mkState grid0,
      [TEvent.decision grid0 (initialize_domains grid0)]) := by
  have h1 : backtrack cfgNone 82 (mkState grid0) =
      some (true, ∅, mkState grid0,
        [TEvent.decision grid0 (initialize_domains grid0)]) := by
    show backtrack cfgNone (81 + 1) (mkState grid0) = _
    exact backtrack_done cfgNone 81 (mkState grid0) (by decide)
  rw [solve_noac3 cfgNone 82 (mkState grid0) (by decide), h1]
  rfl

theorem grid0_result : solveResult cfgNone grid0 = some true := by
  rw [solveResult, grid0_run]
  rfl

/-- Intermediate states of the runs on `fcBoard`. -/
def fcS1 : SState := assignState (mkState fcBoard) (0, 0) 1

def fcS2 : SState := { fcS1 with conflict_sets := dictSet fcS1.conflict_sets (0, 1) ∅ }

def fcSR : SState :=
  restore_state fcS2 (0, 0) (mkState fcBoard).domains (mkState fcBoard).conflict_sets

def fcFinal : SState :=
  { fcSR with
    conflict_sets := dictSet fcSR.conflict_sets (0, 0) (∅ ∪ (∅ : Finset Pos).erase (0, 0)) }

def fcTrace : List TEvent :=
  [TEvent.decision fcBoard (initialize_domains fcBoard),
   TEvent.assign (0, 0) 1 fcS1.board,
   TEvent.decision fcS1.board fcS1.domains,
   TEvent.restore fcSR.board]

theorem fcNone_bt1 : backtrack cfgNone 81 fcS1 =
    some (false, ∅, fcS2, [TEvent.decision fcS1.board fcS1.domains]) := by
  show backtrack cfgNone (80 + 1) fcS1 = _
  rw [backtrack_var cfgNone 80 fcS1 (0, 1) (by decide),
    gov_singleton cfgNone.use_lcv rfl fcS1.board fcS1.domains (0, 1) 1 (by decide),
    try_values_unsafe cfgNone 80 (0, 1) 1 [] fcS1 ∅ _ (by decide),
    try_values_nil]
  rfl

/-- Run of `solve` on `fcBoard` with no techniques: the single candidate 1
is placed at (0,0), the recursive call dead-ends at (0,1) while the stale
domain of (0,1) still offers 1, the state is restored, and failure is
reported with the original board. -/
theorem fcNone_run : solve cfgNone 82 (mkState fcBoard) =
    some (false, fcFinal, fcTrace) := by
  have h2 : backtrack cfgNone 82 (mkState fcBoard) =
      some (false, ∅ ∪ (∅ : Finset Pos).erase (0, 0), fcFinal, fcTrace) := by
    show backtrack cfgNone (81 + 1) (mkState fcBoard) = _
    rw [backtrack_var cfgNone 81 (mkState fcBoard) (0, 0) (by decide),
      gov_singleton cfgNone.use_lcv rfl (mkState fcBoard).board
        (mkState fcBoard).domains (0, 0) 1 (by decide),
      try_values_safe_nofc cfgNone 81 (0, 0) 1 [] (mkState fcBoard) ∅ _
        (by decide) (by decide),
      after_fc_noac3 cfgNone 81 (0, 0) 1 []
        (assignState (mkState fcBoard) (0, 0) 1) (mkState fcBoard) ∅ _ (by decide),
      do_recurse_false cfgNone 81 (0, 0) []
        (assignState (mkState fcBoard) (0, 0) 1) (mkState fcBoard) ∅ _ ∅ fcS2
        [TEvent.decision fcS1.board fcS1.domains] fcNone_bt1,
      try_values_nil]
    rfl
  rw [solve_noac3 cfgNone 82 (mkState fcBoard) (by decide), h2]
  rfl

theorem fcNone_result : solveResult cfgNone fcBoard = some false := by
  rw [solveResult, fcNone_run]
  rfl

theorem fcNone_trace : solveTrace cfgNone fcBoard = fcTrace := by
  rw [solveTrace, fcNone_run]
  rfl

/-- The domains dictionary after the failed forward check on `fcBoard`:
the peer (0,1) was emptied. -/
def fcD' : Domains := [(((0 : Nat), (1 : Nat)), (∅ : Finset Int))]

def fcSRf : SState :=
  restore_state { assignState (mkState fcBoard) (0, 0) 1 with domains := fcD' }
    (0, 0) (mkState fcBoard).domains (mkState fcBoard).conflict_sets

def fcFinalF : SState :=
  { fcSRf with
    conflict_sets := dictSet fcSRf.conflict_sets (0, 0) (∅ ∪ ({((0 : Nat), (0 : Nat))} : Finset Pos).erase (0, 0)) }

def fcTraceF : List TEvent :=
  [TEvent.decision fcBoard (initialize_domains fcBoard),
   TEvent.assign (0, 0) 1 fcS1.board,
   TEvent.fcFail (0, 0) 1 {((0 : Nat), (0 : Nat))} fcS1.domains,
   TEvent.restore fcSRf.board]

/-- Run of `solve` on `fcBoard` with only forward checking: the failed
forward check fires right after the first assignment; its conflict set is
`{(0,0)}` — the assigning variable alone. -/
theorem fcFC_run : solve cfgFCOnly 82 (mkState fcBoard) =
    some (false, fcFinalF, fcTraceF) := by
  have h2 : backtrack cfgFCOnly 82 (mkState fcBoard) =
      some (false, ∅ ∪ ({((0 : Nat), (0 : Nat))} : Finset Pos).erase (0, 0),
        fcFinalF, fcTraceF) := by
    show backtrack cfgFCOnly (81 + 1) (mkState fcBoard) = _
    rw [backtrack_var cfgFCOnly 81 (mkState fcBoard) (0, 0) (by decide),
      gov_singleton cfgFCOnly.use_lcv rfl (mkState fcBoard).board
        (mkState fcBoard).domains (0, 0) 1 (by decide),
      try_values_safe_fcfail cfgFCOnly 81 (0, 0) 1 [] (mkState fcBoard) ∅ _
        {((0 : Nat), (0 : Nat))} fcD' (by decide) (by decide) (by decide),
      try_values_nil]
    rfl
  rw [solve_noac3 cfgFCOnly 82 (mkState fcBoard) (by decide), h2]
  rfl

theorem fcFC_trace : solveTrace cfgFCOnly fcBoard = fcTraceF := by
  rw [solveTrace, fcFC_run]
  rfl

/-! ### The claims -/

/-- C1 (corrected): for every grid accepted by `is_valid_board` **whose
clues are mutually consistent** and every configuration, if `solve()`
returns true then `validate_solution` holds on the resulting grid and
every originally non-zero cell retains its original value.  (Without the
consistency condition the claim is false: see the all-ones grid.) -/
theorem c1_success_validates (cfg : Config) (b : Board)
    (hv : is_valid_board b = true) (hok : BoardOK b)
    (hsucc : solveResult cfg b = some true) :
    validate_solution (solveBoard cfg b) = true ∧
    ∀ i j : Nat, i < 9 → j < 9 → cell b i j ≠ 0 →
      cell (solveBoard cfg b) i j = cell b i j := by
  obtain ⟨r, s', tr, heq, hI, hfail, hfull, htr⟩ := solve_master cfg b hv
  have hr : r = true := by
    rw [solveResult, heq] at hsucc
    simpa using hsucc
  have hb' : solveBoard cfg b = s'.board := by
    rw [solveBoard, heq]
    rfl
  rw [hb']
  refine ⟨validate_solution_of s'.board hI.shape (hfull hr)
    (boardOK_final b s'.board hok hI.agrees hI.placed) hI.cellRange, ?_⟩
  intro i j hi hj hne
  exact hI.agrees i j hi hj hne

/-- C1 witness: the complete conflict-free grid `grid0` under the bare
configuration. -/
theorem c1_witness :
    is_valid_board grid0 = true ∧ solveResult cfgNone grid0 = some true ∧
    (validate_solution (solveBoard cfgNone grid0) = true ∧
     ∀ i j : Nat, i < 9 → j < 9 → cell grid0 i j ≠ 0 →
       cell (solveBoard cfgNone grid0) i j = cell grid0 i j) :=
  ⟨by decide, grid0_result,
    c1_success_validates cfgNone grid0 (by decide) grid0_boardOK grid0_result⟩

/-- C1 counterexample to the original claim: the all-ones grid passes
`is_valid_board`, `solve()` returns true on it (there is no empty cell to
fill), yet `validate_solution` rejects the resulting grid. -/
theorem c1_counterexample :
    is_valid_board allOnes = true ∧ solveResult cfgNone allOnes = some true ∧
    validate_solution (solveBoard cfgNone allOnes) = false := by
  refine ⟨by decide, allOnes_result, ?_⟩
  rw [allOnes_board]
  decide

/-- C2: for every grid accepted by `is_valid_board` and every
configuration, if `solve()` returns false the grid is pointwise equal to
the grid as supplied at construction — every tentative assignment has been
unwound. -/
theorem c2_failure_restores (cfg : Config) (b : Board)
    (hv : is_valid_board b = true) (hfail : solveResult cfg b = some false) :
    solveBoard cfg b = b := by
  obtain ⟨r, s', tr, heq, hI, hfailb, hfull, htr⟩ := solve_master cfg b hv
  have hr : r = false := by
    rw [solveResult, heq] at hfail
    simpa using hfail
  have hb' : solveBoard cfg b = s'.board := by
    rw [solveBoard, heq]
    rfl
  rw [hb']
  exact hfailb hr

/-- C2 witness: the unsolvable `fcBoard` under the bare configuration:
the search assigns and then fully unwinds. -/
theorem c2_witness :
    solveResult cfgNone fcBoard = some false ∧
    solveBoard cfgNone fcBoard = fcBoard :=
  ⟨fcNone_result, c2_failure_restores cfgNone fcBoard (by decide) fcNone_result⟩

/-- C3: for every grid accepted by `is_valid_board` and every
configuration of the four technique flags, `solve()` terminates and
returns a boolean (fuel 82 — one more than the 81 cells — always
suffices). -/
theorem c3_terminates (cfg : Config) (b : Board) (hv : is_valid_board b = true) :
    ∃ r : Bool, solveResult cfg b = some r := by
  obtain ⟨r, s', tr, heq, -⟩ := solve_master cfg b hv
  refine ⟨r, ?_⟩
  rw [solveResult, heq]
  rfl

/-- C3 witness: the full default configuration on `grid0`. -/
theorem c3_witness : ∃ r : Bool, solveResult cfgAll grid0 = some r :=
  c3_terminates cfgAll grid0 (by decide)

/-- C4: for every valid grid that has a unique solution or no solution,
all 16 configurations of the four technique flags produce the same
`solve()` outcome.  (Proved without using the uniqueness hypothesis: the
outcome equals the existence of a consistent completion of the empty
cells, for every configuration.) -/
theorem c4_config_independent (b : Board) (hv : is_valid_board b = true)
    (huniq : (∀ c1 c2 : Nat → Nat → Int, EmptySol b c1 → EmptySol b c2 →
        ∀ p : Pos, p.1 < 9 → p.2 < 9 → cell b p.1 p.2 = 0 →
          c1 p.1 p.2 = c2 p.1 p.2) ∨
      ¬ ∃ c : Nat → Nat → Int, EmptySol b c) :
    ∀ cfg cfg' : Config, solveResult cfg b = solveResult cfg' b := by
  intro cfg cfg'
  by_cases hex : ∃ c : Nat → Nat → Int, EmptySol b c
  · obtain ⟨c, hc⟩ := hex
    rw [solve_complete cfg b hv c hc, solve_complete cfg' b hv c hc]
  · obtain ⟨r, hr⟩ := solve_total cfg b hv
    obtain ⟨r', hr'⟩ := solve_total cfg' b hv
    have hrf : r = false := by
      rcases r with _ | _
      · rfl
      · exact absurd (solve_sound cfg b hv hr) hex
    have hrf' : r' = false := by
      rcases r' with _ | _
      · rfl
      · exact absurd (solve_sound cfg' b hv hr') hex
    rw [hr, hr', hrf, hrf']

/-- C4 witness: `grid0` is complete, so it trivially has at most one
completion; the all-techniques and no-techniques runs agree. -/
theorem c4_witness :
    is_valid_board grid0 = true ∧
    solveResult cfgAll grid0 = solveResult cfgNone grid0 :=
  ⟨by decide,
    c4_config_independent grid0 (by decide)
      (Or.inl fun c1 c2 _ _ p hp1 hp2 hp0 => absurd hp0 (grid0_full p hp1 hp2))
      cfgAll cfgNone⟩

/-- C5 (corrected): `forward_check_with_conflicts(var, value)` walks the
81 positions in row-major order discarding `value` from the domain of
every empty same-unit peer; at the first peer whose domain becomes empty
it stops — peers later in the order are left unpruned — and returns the
conflict set `{var}` containing **only the assigning position**, not the
failing peer; when no domain empties it returns `none` with every peer
pruned.  (The original claim that the conflict set also contains the
failing peer's position is false.) -/
theorem c5_forward_check_spec (b : Board) (d : Domains) (var : Pos) (v : Int) :
    (∀ cset d', forward_check_with_conflicts b d var v = (some cset, d') →
      cset = {var} ∧
      ∃ l1 q l2, allPositions = l1 ++ q :: l2 ∧ fcPeer b var q ∧
        dictContains d q = true ∧ (dictGetD d q ∅).erase v = ∅ ∧
        dictGetD d' q ∅ = ∅ ∧
        (∀ p ∈ l1, dictGetD d' p ∅ =
          if fcPeer b var p then (dictGetD d p ∅).erase v else dictGetD d p ∅) ∧
        (∀ p ∈ l2, dictGetD d' p ∅ = dictGetD d p ∅)) ∧
    (∀ d', forward_check_with_conflicts b d var v = (none, d') →
      ∀ q : Pos, dictGetD d' q ∅ =
        if q.1 < 9 ∧ q.2 < 9 ∧ fcPeer b var q then (dictGetD d q ∅).erase v
        else dictGetD d q ∅) := by
  constructor
  · intro cset d' hfc
    have hfc' : fc_go b var v allPositions d = (some cset, d') := hfc
    have h1 : (fc_go b var v allPositions d).1 = some cset :=
      congrArg Prod.fst hfc'
    have h2 : (fc_go b var v allPositions d).2 = d' := congrArg Prod.snd hfc'
    obtain ⟨hcs, l1, q, l2, hsplit, hq, hqc, hqe, hqres, hl1, hl2⟩ :=
      fc_go_some b var v allPositions d nodup_allPositions cset h1
    rw [h2] at hqres hl1 hl2
    exact ⟨hcs, l1, q, l2, hsplit, hq, hqc, hqe, hqres, hl1, hl2⟩
  · intro d' hfc q
    have hfc' : fc_go b var v allPositions d = (none, d') := hfc
    have h1 : (fc_go b var v allPositions d).1 = none := congrArg Prod.fst hfc'
    have hgo := fc_go_none b var v allPositions d h1 q
    rw [congrArg Prod.snd hfc'] at hgo
    rw [hgo]
    by_cases hq : q ∈ allPositions ∧ fcPeer b var q
    · rw [if_pos hq, if_pos ⟨((mem_allPositions q).1 hq.1).1,
        ((mem_allPositions q).1 hq.1).2, hq.2⟩]
    · rw [if_neg hq,
        if_neg (fun hc => hq ⟨(mem_allPositions q).2 ⟨hc.1, hc.2.1⟩, hc.2.2⟩)]

/-- C5 counterexample to the original claim: in the forward-checking run
on `fcBoard`, the forward check after assigning 1 at (0,0) empties the
domain of the peer (0,1), yet the returned conflict set is `{(0,0)}` —
it does not contain the failing peer's position. -/
theorem c5_counterexample :
    TEvent.fcFail (0, 0) 1 {((0 : Nat), (0 : Nat))} fcS1.domains ∈
      solveTrace cfgFCOnly fcBoard ∧
    forward_check_with_conflicts fcS1.board fcS1.domains (0, 0) 1 =
      (some {((0, 0) : Pos)}, fcD') ∧
    fcPeer fcS1.board (0, 0) (0, 1) ∧
    dictGetD fcD' (0, 1) ∅ = ∅ ∧
    ((0, 1) : Pos) ∉ ({((0, 0) : Pos)} : Finset Pos) := by
  refine ⟨?_, by decide, by decide, by decide, by decide⟩
  rw [fcFC_trace]
  exact List.mem_cons_of_mem _ (List.mem_cons_of_mem _ (List.mem_cons_self _ _))

/-- C6: `ac3_with_conflicts` runs a worklist seeded with exactly the
ordered pairs of distinct same-unit domain variables; for each popped arc
`(xi, xj)`, `remove_inconsistent_values` deletes from `domain(xi)` exactly
the values with no differing counterpart in `domain(xj)` (other domains
untouched); an emptied `domain(xi)` immediately yields the conflict set
`{xi, xj}`; a proper shrink re-enqueues every arc `(xk, xi)` for
neighbors `xk ≠ xj` of `xi`; an empty worklist returns `none`. -/
theorem c6_ac3_spec :
    (∀ d : Domains, ac3_with_conflicts d = ac3_loop d (get_all_edges d)) ∧
    (∀ d : Domains, ∀ a : Pos × Pos, a ∈ get_all_edges d ↔
      (a.1.1 < 9 ∧ a.1.2 < 9 ∧ a.2.1 < 9 ∧ a.2.2 < 9 ∧ a.1 ≠ a.2 ∧
       sameUnit a.1 a.2 ∧ dictContains d a.1 = true ∧ dictContains d a.2 = true)) ∧
    (∀ d : Domains, ac3_loop d [] = (none, d)) ∧
    (∀ d : Domains, ∀ xi xj : Pos, ∀ x : Int,
      x ∈ dictGetD (remove_inconsistent_values d xi xj).2 xi ∅ ↔
        (x ∈ dictGetD d xi ∅ ∧ ∃ y ∈ dictGetD d xj ∅, y ≠ x)) ∧
    (∀ d : Domains, ∀ xi xj q : Pos, q ≠ xi →
      dictGetD (remove_inconsistent_values d xi xj).2 q ∅ = dictGetD d q ∅) ∧
    (∀ d : Domains, ∀ var q : Pos, q ∈ get_neighbors d var ↔
      (q.1 < 9 ∧ q.2 < 9 ∧ q ≠ var ∧ dictContains d q = true ∧ sameUnit q var)) ∧
    (∀ d : Domains, ∀ xi xj : Pos, ∀ rest : List (Pos × Pos),
      (remove_inconsistent_values d xi xj).1 = true →
      dictGetD (remove_inconsistent_values d xi xj).2 xi ∅ = ∅ →
      ac3_loop d ((xi, xj) :: rest) =
        (some {xi, xj}, (remove_inconsistent_values d xi xj).2)) ∧
    (∀ d : Domains, ∀ xi xj : Pos, ∀ rest : List (Pos × Pos),
      (remove_inconsistent_values d xi xj).1 = true →
      ¬ dictGetD (remove_inconsistent_values d xi xj).2 xi ∅ = ∅ →
      ac3_loop d ((xi, xj) :: rest) =
        ac3_loop (remove_inconsistent_values d xi xj).2
          (rest ++ ((get_neighbors (remove_inconsistent_values d xi xj).2 xi).filter
            fun xk => ¬(xk = xj)).map fun xk => (xk, xi))) ∧
    (∀ d : Domains, ∀ xi xj : Pos, ∀ rest : List (Pos × Pos),
      (remove_inconsistent_values d xi xj).1 = false →
      ac3_loop d ((xi, xj) :: rest) =
        ac3_loop (remove_inconsistent_values d xi xj).2 rest) ∧
    (∀ d : Domains, ∀ xi xj : Pos,
      (remove_inconsistent_values d xi xj).1 = false →
      ∀ q : Pos, dictGetD (remove_inconsistent_values d xi xj).2 q ∅ =
        dictGetD d q ∅) := by
  refine ⟨fun d => rfl, fun d a => mem_get_all_edges d a,
    fun d => by rw [ac3_loop], fun d xi xj x => mem_ric_at_xi d xi xj x,
    fun d xi xj q hq => ric_at_other d xi xj q hq,
    fun d var q => mem_get_neighbors d var q, ?_, ?_, ?_,
    fun d xi xj h q => ric_not_removed_getD d xi xj h q⟩
  · intro d xi xj rest h1 h2
    rw [ac3_loop, dif_pos h1, if_pos h2]
  · intro d xi xj rest h1 h2
    rw [ac3_loop, dif_pos h1, if_neg h2]
  · intro d xi xj rest h1
    rw [ac3_loop, dif_neg (by rw [h1]; decide)]

/-- C7: constructing a `SudokuSolver` raises exactly when the board is
not a 9×9 grid of integers in [0,9]; on failure no state is produced,
and construction succeeds even for an in-range grid whose fixed clues
conflict with each other (the all-ones grid). -/
theorem c7_construct_validation :
    (∀ b : Board, (∃ e, constructSolver b = Except.error e) ↔
      ¬(b.length = 9 ∧ (∀ row ∈ b, row.length = 9) ∧
        ∀ row ∈ b, ∀ x ∈ row, 0 ≤ x ∧ x ≤ 9)) ∧
    (∀ b : Board, constructSolver b = Except.ok (mkState b) ∨
      constructSolver b = Except.error "Invalid Sudoku board") ∧
    constructSolver allOnes = Except.ok (mkState allOnes) ∧
    ¬ BoardOK allOnes := by
  refine ⟨?_, ?_, rfl, fun h =>
    (h (0, 0) (0, 1) (by decide) (by decide) (by decide) (by decide) (by decide)
      (by decide) (by decide) (by decide)) (by decide)⟩
  · intro b
    by_cases hv : is_valid_board b = true
    · have hok : constructSolver b = Except.ok (mkState b) := by
        rw [constructSolver, if_neg (by rw [hv]; decide)]
      constructor
      · rintro ⟨e, he⟩
        rw [hok] at he
        exact absurd he (by simp)
      · intro hcon
        exact absurd ((is_valid_board_iff b).1 hv) hcon
    · have herr : constructSolver b = Except.error "Invalid Sudoku board" := by
        rw [constructSolver, if_pos (by rw [eq_false_of_ne_true hv]; decide)]
      constructor
      · intro _ hcon
        exact hv ((is_valid_board_iff b).2 hcon)
      · intro _
        exact ⟨_, herr⟩
  · intro b
    by_cases hv : is_valid_board b = true
    · exact Or.inl (by rw [constructSolver, if_neg (by rw [hv]; decide)])
    · exact Or.inr
        (by rw [constructSolver, if_pos (by rw [eq_false_of_ne_true hv]; decide)])

/-- C8 (corrected): throughout every `solve()` invocation on a grid
**whose clues are mutually consistent**, every board reached at any
intermediate point (decision, assignment, restoration) and the final
board respect row/column/box uniqueness of non-zero values.  (Without
clue consistency the claim is false: a pre-existing clue conflict sits on
the grid at every intermediate point.) -/
theorem c8_no_transient_conflicts (cfg : Config) (b : Board)
    (hv : is_valid_board b = true) (hok : BoardOK b) :
    (∀ bb d, TEvent.decision bb d ∈ solveTrace cfg b → BoardOK bb) ∧
    (∀ var v bb, TEvent.assign var v bb ∈ solveTrace cfg b → BoardOK bb) ∧
    (∀ bb, TEvent.restore bb ∈ solveTrace cfg b → BoardOK bb) ∧
    BoardOK (solveBoard cfg b) := by
  obtain ⟨r, s', tr, heq, hI, hfail, hfull, htr⟩ := solve_master cfg b hv
  have htreq : solveTrace cfg b = tr := by
    rw [solveTrace, heq]
    rfl
  have hbeq : solveBoard cfg b = s'.board := by
    rw [solveBoard, heq]
    rfl
  rw [htreq, hbeq]
  refine ⟨?_, ?_, ?_, boardOK_final b s'.board hok hI.agrees hI.placed⟩
  · intro bb d hmem
    have he := htr _ hmem
    exact boardOK_final b bb hok he.1 he.2.1
  · intro var v bb hmem
    have he := htr _ hmem
    exact boardOK_final b bb hok he.1 he.2
  · intro bb hmem
    have he := htr _ hmem
    exact boardOK_final b bb hok he.1 he.2

/-- C8 witness: the conflict-free grid `grid0` under forward checking. -/
theorem c8_witness :
    (∀ bb d, TEvent.decision bb d ∈ solveTrace cfgFCOnly grid0 → BoardOK bb) ∧
    (∀ var v bb, TEvent.assign var v bb ∈ solveTrace cfgFCOnly grid0 → BoardOK bb) ∧
    (∀ bb, TEvent.restore bb ∈ solveTrace cfgFCOnly grid0 → BoardOK bb) ∧
    BoardOK (solveBoard cfgFCOnly grid0) :=
  c8_no_transient_conflicts cfgFCOnly grid0 (by decide) grid0_boardOK

/-- C8 counterexample to the original claim: on the accepted all-ones
grid the very first decision point exposes an on-grid conflict. -/
theorem c8_counterexample :
    is_valid_board allOnes = true ∧
    TEvent.decision allOnes (initialize_domains allOnes) ∈
      solveTrace cfgNone allOnes ∧
    ¬ BoardOK allOnes := by
  refine ⟨by decide, ?_, fun h =>
    (h (0, 1) (0, 2) (by decide) (by decide) (by decide) (by decide) (by decide)
      (by decide) (by decide) (by decide)) (by decide)⟩
  rw [allOnes_trace]
  exact List.mem_singleton.2 rfl

/-- C9 (corrected): throughout search **with forward checking enabled**,
at every decision point the domain of every currently-empty cell omits
every value already fixed in that cell's row, column, or box.  (For
configurations with forward checking off the claim is false: domains go
stale after assignments.) -/
theorem c9_domain_invariant_fc (cfg : Config) (b : Board)
    (hv : is_valid_board b = true) (hfc : cfg.use_forward_checking = true) :
    ∀ bb d, TEvent.decision bb d ∈ solveTrace cfg b → DomInv bb d := by
  obtain ⟨r, s', tr, heq, hI, hfail, hfull, htr⟩ := solve_master cfg b hv
  have htreq : solveTrace cfg b = tr := by
    rw [solveTrace, heq]
    rfl
  rw [htreq]
  intro bb d hmem
  exact (htr _ hmem).2.2 hfc

/-- C9 witness: the first decision point of the forward-checking run on
`fcBoard`. -/
theorem c9_witness : DomInv fcBoard (initialize_domains fcBoard) :=
  c9_domain_invariant_fc cfgFCOnly fcBoard (by decide) rfl fcBoard
    (initialize_domains fcBoard)
    (by rw [fcFC_trace]; exact List.mem_cons_self _ _)

/-- C9 counterexample to the original claim: with all techniques off, the
decision point after assigning 1 at (0,0) of `fcBoard` still has 1 in the
domain of (0,1) — a value fixed in that cell's row. -/
theorem c9_counterexample :
    is_valid_board fcBoard = true ∧
    TEvent.decision fcS1.board fcS1.domains ∈ solveTrace cfgNone fcBoard ∧
    cell fcS1.board 0 0 = 1 ∧
    dictContains fcS1.domains (0, 1) = true ∧
    (1 : Int) ∈ dictGetD fcS1.domains (0, 1) ∅ ∧
    sameUnit (0, 0) (0, 1) ∧
    ¬ DomInv fcS1.board fcS1.domains := by
  refine ⟨by decide, ?_, by decide, by decide, by decide, by decide, ?_⟩
  · rw [fcNone_trace]
    exact List.mem_cons_of_mem _ (List.mem_cons_of_mem _ (List.mem_cons_self _ _))
  · intro h
    exact absurd (by decide : (1 : Int) ∈ dictGetD fcS1.domains (0, 1) ∅)
      (h (0, 1) (by decide) (0, 0) (by decide) (by decide) (by decide) (by decide)
        (by decide))

/-- C10: constructing a `SudokuSolver` never modifies the caller's grid:
whenever construction succeeds, the engine's board is the board passed
in — initialization only reads the grid to build the domain map. -/
theorem c10_construct_preserves_board (b : Board) (s : SState)
    (h : constructSolver b = Except.ok s) : s.board = b := by
  rw [constructSolver] at h
  by_cases hv : is_valid_board b = true
  · rw [if_neg (by rw [hv]; decide)] at h
    injection h with h1
    rw [← h1]
    rfl
  · rw [if_pos (by rw [eq_false_of_ne_true hv]; decide)] at h
    exact absurd h (by simp)

/-- C10 witness: constructing on `grid0`. -/
theorem c10_witness :
    constructSolver grid0 = Except.ok (mkState grid0) ∧
    (mkState grid0).board = grid0 :=
  ⟨rfl, c10_construct_preserves_board grid0 (mkState grid0) rfl⟩

end Sudoku
